import Mathlib

/-!
A shallow embedding of `pmalloc.c`.

The allocator state of `pmalloc.c` is embedded as an explicit value that is
passed through every operation.

* Pointers and `size_t` values are natural numbers below `2 ^ 64` (LP64);
  every `size_t` and pointer computation of the source is reduced modulo
  `2 ^ 64` explicitly. The null pointer is `0`.
* Memory is seen through the block headers: `mem a` is the `pm_block` header
  whose first byte is at address `a`. Headers at different addresses are
  independent of each other, payload bytes are not represented.
* `sizeof (pm_block_t)` is 32 and `offsetof (pm_block_t, user_data)` is 28 on
  LP64: the fields `size`, `next`, `prev` take 8 bytes each, `magic` takes 4,
  the zero-length `char` array has alignment 1 and therefore starts right
  after `magic`, and the structure is padded to a multiple of 8.
* A failed `assert` is the result `Res.abort`, a dereference of the null
  pointer (or of the failure value of `mmap`) is `Res.segv`. Loops take a
  fuel argument and give `Res.timeout` when it runs out.
* A store through any other pointer succeeds, also when the address lies
  outside the regions obtained from the operating system, where a real
  process may fault instead of going on.
* This view by headers is exact as long as every header that is read or
  written lies in mapped memory and no two headers overlap in part. Under
  disciplined use this is part of the invariant `Inv`. Where it matters, the
  program is embedded a second time over byte memory, in the namespace
  `ByteLevel`, with the fields at their offsets and with a fault for every
  access to bytes that are not mapped.
* `g_reuse_count` is a `long` that is only ever incremented; it is an
  unbounded integer here.
-/

namespace Pmalloc

/-- Modulus of `size_t` and of pointer arithmetic. -/
def SIZE_MOD : Nat := 2 ^ 64

/-- Source: `#define OS_MEM_ALLOC_SIZE (4096 * 1024)`. -/
def OS_MEM_ALLOC_SIZE : Nat := 4096 * 1024

/-- Source: `#define PM_MAGIC (0xBADCAFFE)`. -/
def PM_MAGIC : Nat := 0xBADCAFFE

/-- Source: `struct pm_block` without the zero-length payload array. -/
structure pm_block where
  size : Nat
  next : Nat
  prev : Nat
  magic : Nat

/-- Result of running a piece of the program. -/
inductive Res (α : Type) : Type where
  | ok : α → Res α
  | abort : Res α
  | segv : Res α
  | timeout : Res α

/-- Sequencing of program results: the first failure ends the run. -/
def Res.bind {α β : Type} (x : Res α) (f : α → Res β) : Res β :=
  match x with
  | .ok a => f a
  | .abort => .abort
  | .segv => .segv
  | .timeout => .timeout

instance : Monad Res where
  pure := Res.ok
  bind := Res.bind

/-- Source: `assert (c)`. -/
def c_assert (c : Prop) [Decidable c] : Res Unit :=
  if c then .ok () else .abort

/-- Unsigned 64-bit addition. -/
def add64 (a b : Nat) : Nat := (a + b) % SIZE_MOD

/-- Unsigned 64-bit subtraction. -/
def sub64 (a b : Nat) : Nat := (a % SIZE_MOD + (SIZE_MOD - b % SIZE_MOD)) % SIZE_MOD

/-- Source: `blk_hdr_size`, that is `sizeof (pm_block_t)`. -/
def blk_hdr_size : Nat := 32

/-- Offset of the member `user_data` in `pm_block_t`. -/
def user_data_offset : Nat := 28

/-- Source: `blk_to_user_data`: asserts `blk`, then `++blk`. -/
def blk_to_user_data (blk : Nat) : Res Nat := do
  c_assert (blk ≠ 0)
  pure (add64 blk blk_hdr_size)

/-- Source: `user_data_to_blk`: asserts `ptr`, then `--blk`. -/
def user_data_to_blk (ptr : Nat) : Res Nat := do
  c_assert (ptr ≠ 0)
  pure (sub64 ptr blk_hdr_size)

/-- Header memory: the header stored at each address. -/
abbrev Mem : Type := Nat → pm_block

/-- Store `blk->size = v`. -/
def write_size (m : Mem) (a v : Nat) : Mem :=
  fun x => if x = a then { m a with size := v } else m x

/-- Store `blk->next = v`. -/
def write_next (m : Mem) (a v : Nat) : Mem :=
  fun x => if x = a then { m a with next := v } else m x

/-- Store `blk->prev = v`. -/
def write_prev (m : Mem) (a v : Nat) : Mem :=
  fun x => if x = a then { m a with prev := v } else m x

/-- Store `blk->magic = v`. -/
def write_magic (m : Mem) (a v : Nat) : Mem :=
  fun x => if x = a then { m a with magic := v } else m x

/-- The allocator state: header memory, the two globals of the source, and the
operating system side (regions handed out so far, address of the next one). -/
structure State where
  mem : Mem
  g_free_list_head : Nat
  g_reuse_count : Int
  regions : List (Nat × Nat)
  os_brk : Nat

/-- Source: `enum FREE_LIST_OP`. -/
inductive FREE_LIST_OP : Type where
  | REMOVE : FREE_LIST_OP
  | ADD : FREE_LIST_OP
  | TRAVERSE : FREE_LIST_OP

/-- Length of a mapping of `n` bytes: `mmap` hands out whole pages. -/
def page_round (n : Nat) : Nat := (n + 4095) / 4096 * 4096

/-- Source: `get_mem_from_os`. The operating system is a collaborator: `mmap`
is taken to hand out consecutive, page-aligned, never reused address ranges
starting at `os_brk`. When the range does not fit below `2 ^ 64` the call
fails, `mmap` gives `MAP_FAILED` (all bits set), which passes `assert (mem)`
and faults at the first store of the caller. -/
def get_mem_from_os (st : State) (size : Nat) : Res (Nat × State) :=
  if st.os_brk + size ≤ SIZE_MOD then do
    let mem := st.os_brk
    c_assert (mem ≠ 0)
    pure (mem, { st with os_brk := st.os_brk + page_round size,
                         regions := st.regions ++ [(mem, size)] })
  else .segv

/-- Source: the `while (itr)` loop of `case REMOVE` in `free_list_op`. Leaving
the loop without finding `blk` reaches `break` and returns normally. -/
def remove_loop (m : Mem) (blk : Nat) : Nat → Nat → Res Mem
  | 0, _ => .timeout
  | fuel + 1, itr =>
    if itr = 0 then .ok m
    else if itr = blk then
      let prev_blk := (m itr).prev
      let next_blk := (m itr).next
      if prev_blk = 0 then .segv
      else
        let m1 := write_next m prev_blk next_blk
        if next_blk ≠ 0 then .ok (write_prev m1 next_blk prev_blk) else .ok m1
    else remove_loop m blk fuel (m itr).next

/-- Source: the `while (itr)` loop of `case TRAVERSE`; the result is the list
of sizes written to the log. -/
def traverse_loop (m : Mem) : Nat → Nat → Res (List Nat)
  | 0, _ => .timeout
  | fuel + 1, itr =>
    if itr = 0 then .ok []
    else do
      let rest ← traverse_loop m fuel (m itr).next
      pure ((m itr).size :: rest)

/-- Source: `free_list_op`. -/
def free_list_op (fuel : Nat) (st : State) (blk : Nat) (op : FREE_LIST_OP) : Res State := do
  c_assert (blk ≠ 0)
  match op with
  | .REMOVE =>
    let itr := st.g_free_list_head
    c_assert (itr ≠ 0)
    if blk = st.g_free_list_head then
      pure { st with g_free_list_head := (st.mem blk).next }
    else do
      let m ← remove_loop st.mem blk fuel itr
      pure { st with mem := m }
  | .ADD =>
    if st.g_free_list_head = 0 then
      pure { st with g_free_list_head := blk,
                     mem := write_prev (write_next st.mem blk 0) blk 0 }
    else
      let m1 := write_prev st.mem st.g_free_list_head blk
      let m2 := write_next m1 blk st.g_free_list_head
      pure { st with mem := m2, g_free_list_head := blk }
  | .TRAVERSE => do
    let _ ← traverse_loop st.mem fuel blk
    pure st

/-- Source: `trim_block`. The result is the pointer `free_blk` (null when the
block is not split) and the memory after the stores. -/
def trim_block (m : Mem) (blk s : Nat) : Res (Nat × Mem) :=
  let remaining := sub64 (m blk).size s
  if remaining < blk_hdr_size + 1 then .ok (0, m)
  else
    let free_blk := add64 (add64 blk user_data_offset) s
    if free_blk = 0 then .segv
    else do
      let m1 := write_size m free_blk (sub64 (m blk).size (add64 blk_hdr_size s))
      c_assert ((m1 free_blk).size > 0)
      c_assert ((m1 free_blk).size ≤ OS_MEM_ALLOC_SIZE)
      let m2 := write_size m1 blk (sub64 s blk_hdr_size)
      let m3 := write_magic m2 blk PM_MAGIC
      let m4 := write_magic m3 free_blk PM_MAGIC
      let m5 := write_prev m4 free_blk 0
      let m6 := write_next m5 free_blk 0
      pure (free_blk, m6)

/-- Source: body of `if (blk_itr->size >= real_size)` in `pm_malloc`. -/
def pm_malloc_reuse (fuel : Nat) (st : State) (blk_itr real_size : Nat) : Res (Nat × State) :=
  if (st.mem blk_itr).size = real_size then do
    let st1 ← free_list_op fuel st blk_itr .REMOVE
    let st2 := { st1 with g_reuse_count := st1.g_reuse_count + 1 }
    let p ← blk_to_user_data blk_itr
    pure (p, st2)
  else do
    let st1 ← free_list_op fuel st blk_itr .REMOVE
    let st2 := { st1 with g_reuse_count := st1.g_reuse_count + 1 }
    let (free_blk, m) ← trim_block st2.mem blk_itr real_size
    let st3 := { st2 with mem := m }
    if free_blk ≠ 0 then do
      let st4 ← free_list_op fuel st3 free_blk .ADD
      let p ← blk_to_user_data blk_itr
      pure (p, st4)
    else do
      let p ← blk_to_user_data blk_itr
      pure (p, st3)

/-- Source: the part of `pm_malloc` after the loop (`No usable free blk`). -/
def pm_malloc_fresh (fuel : Nat) (st : State) (real_size : Nat) : Res (Nat × State) :=
  if real_size > OS_MEM_ALLOC_SIZE then do
    let (large_blk, st1) ← get_mem_from_os st real_size
    let m1 := write_next st1.mem large_blk 0
    let m2 := write_prev m1 large_blk 0
    let m3 := write_magic m2 large_blk PM_MAGIC
    let m4 := write_size m3 large_blk (sub64 real_size blk_hdr_size)
    let p ← blk_to_user_data large_blk
    pure (p, { st1 with mem := m4 })
  else do
    let (alloc_blk, st1) ← get_mem_from_os st OS_MEM_ALLOC_SIZE
    let m1 := write_next st1.mem alloc_blk 0
    let m2 := write_prev m1 alloc_blk 0
    let m3 := write_magic m2 alloc_blk PM_MAGIC
    let m4 := write_size m3 alloc_blk (sub64 OS_MEM_ALLOC_SIZE blk_hdr_size)
    let (free_blk, m) ← trim_block m4 alloc_blk real_size
    let st2 := { st1 with mem := m }
    if free_blk ≠ 0 then do
      let st3 ← free_list_op fuel st2 free_blk .ADD
      let p ← blk_to_user_data alloc_blk
      pure (p, st3)
    else do
      let p ← blk_to_user_data alloc_blk
      pure (p, st2)

/-- Source: the `while (blk_itr != NULL)` loop of `pm_malloc` together with
what follows it; `fuel0` is the fuel handed to `free_list_op`. -/
def pm_malloc_scan (fuel0 : Nat) (st : State) (real_size : Nat) : Nat → Nat → Res (Nat × State)
  | 0, _ => .timeout
  | fuel + 1, blk_itr =>
    if blk_itr ≠ 0 then
      if (st.mem blk_itr).size ≥ real_size then pm_malloc_reuse fuel0 st blk_itr real_size
      else pm_malloc_scan fuel0 st real_size fuel (st.mem blk_itr).next
    else pm_malloc_fresh fuel0 st real_size

/-- Source: `pm_malloc`. The result is the returned pointer and the state. -/
def pm_malloc (fuel : Nat) (st : State) (size : Nat) : Res (Nat × State) :=
  if size ≤ 0 then .ok (0, st)
  else
    let blk_itr := st.g_free_list_head
    let real_size := add64 size blk_hdr_size
    pm_malloc_scan fuel st real_size fuel blk_itr

/-- Source: `pm_free`. Reading `blk->magic` through a null `blk` faults. -/
def pm_free (fuel : Nat) (st : State) (ptr : Nat) : Res State :=
  if ptr = 0 then .ok st
  else do
    let blk ← user_data_to_blk ptr
    if blk = 0 then .segv
    else do
      c_assert ((st.mem blk).magic = PM_MAGIC)
      free_list_op fuel st blk .ADD

/-- The allocator before the first call: both globals are zero, no memory has
been obtained, and the first mapping will be placed at address `65536`. -/
def init : State :=
  { mem := fun _ => { size := 0, next := 0, prev := 0, magic := 0 },
    g_free_list_head := 0,
    g_reuse_count := 0,
    regions := [],
    os_brk := 65536 }

/-- One pass of allocations, as in the first loop of `main`, for a given list
of sizes: `pm_malloc` is called for each size in order and the returned
pointers are collected in call order. -/
def malloc_all (fuel : Nat) : State → List Nat → Res (List Nat × State)
  | st, [] => .ok ([], st)
  | st, s :: rest => do
    let (p, st1) ← pm_malloc fuel st s
    let (ps, st2) ← malloc_all fuel st1 rest
    pure (p :: ps, st2)

/-- One pass of releases, as in the second loop of `main`: `pm_free` is called
for each pointer in order. -/
def free_all (fuel : Nat) : State → List Nat → Res State
  | st, [] => .ok st
  | st, p :: rest => do
    let st1 ← pm_free fuel st p
    free_all fuel st1 rest

/-- Allocate all sizes, release all pointers, allocate the same sizes again:
the result is the pointers of the first and of the second pass. -/
def alloc_free_alloc (fuel : Nat) (st : State) (sizes : List Nat) : Res (List Nat × List Nat) := do
  let (ps, st1) ← malloc_all fuel st sizes
  let st2 ← free_all fuel st1 ps
  let (qs, _) ← malloc_all fuel st2 sizes
  pure (ps, qs)

/-- The value of a run that returned. -/
def Res.get? {α : Type} (r : Res α) : Option α :=
  match r with
  | .ok a => some a
  | _ => none

/-- The blocks met when following `next` from `h` until `e` is reached are
exactly the elements of the list, in order; every one of them is non-null. -/
def Seg (m : Mem) : Nat → List Nat → Nat → Prop
  | h, [], e => h = e
  | h, a :: t, e => h = a ∧ a ≠ 0 ∧ Seg m (m a).next t e

/-- Every block of the list but the first has its `prev` pointing at its
predecessor in the list. -/
def PrevOK (m : Mem) : List Nat → Prop
  | [] => True
  | [_] => True
  | a :: b :: t => (m b).prev = a ∧ PrevOK m (b :: t)

/-- Well-formed free list: starting at the head and following `next` one meets
the blocks of `l` in order and then null, no block occurs twice, and the `prev`
of every block but the first points at its predecessor. -/
def FreeList (st : State) (l : List Nat) : Prop :=
  Seg st.mem st.g_free_list_head l 0 ∧ l.Nodup ∧ PrevOK st.mem l

/-- Memory after the stores of `case REMOVE` that unlink a block which is not
the head: `prev_blk->next = next_blk` and, for a non-null `next_blk`,
`next_blk->prev = prev_blk`. -/
def unlink (m : Mem) (blk : Nat) : Mem :=
  if (m blk).next ≠ 0 then
    write_prev (write_next m (m blk).prev (m blk).next) (m blk).next (m blk).prev
  else write_next m (m blk).prev (m blk).next

/-- Memory after the stores of `trim_block` when it splits `blk`. -/
def trim_mem (m : Mem) (blk s : Nat) : Mem :=
  let free_blk := add64 (add64 blk user_data_offset) s
  let m1 := write_size m free_blk (sub64 (m blk).size (add64 blk_hdr_size s))
  let m2 := write_size m1 blk (sub64 s blk_hdr_size)
  let m3 := write_magic m2 blk PM_MAGIC
  let m4 := write_magic m3 free_blk PM_MAGIC
  let m5 := write_prev m4 free_blk 0
  write_next m5 free_blk 0

/-- Memory after the stores of the large-object path of `pm_malloc`. -/
def large_mem (m : Mem) (large_blk real_size : Nat) : Mem :=
  let m1 := write_next m large_blk 0
  let m2 := write_prev m1 large_blk 0
  let m3 := write_magic m2 large_blk PM_MAGIC
  write_size m3 large_blk (sub64 real_size blk_hdr_size)

/-- Memory after the stores that set up a fresh chunk in `pm_malloc`. -/
def chunk_mem (m : Mem) (alloc_blk : Nat) : Mem :=
  let m1 := write_next m alloc_blk 0
  let m2 := write_prev m1 alloc_blk 0
  let m3 := write_magic m2 alloc_blk PM_MAGIC
  write_size m3 alloc_blk (sub64 OS_MEM_ALLOC_SIZE blk_hdr_size)

/-- What `pm_malloc` does with a block `blk` it is about to hand out, on both
of its paths that call `trim_block`: split the block, push the remainder, if
any, onto the free list, and return the payload pointer of `blk`. -/
def carve (fuel : Nat) (st : State) (blk real_size : Nat) : Res (Nat × State) :=
  if sub64 (st.mem blk).size real_size < blk_hdr_size + 1 then
    Res.ok (add64 blk blk_hdr_size, st)
  else if add64 (add64 blk user_data_offset) real_size = 0 then Res.segv
  else if 0 < sub64 (st.mem blk).size (add64 blk_hdr_size real_size) ∧
      sub64 (st.mem blk).size (add64 blk_hdr_size real_size) ≤ OS_MEM_ALLOC_SIZE then
    (free_list_op fuel { st with mem := trim_mem st.mem blk real_size }
        (add64 (add64 blk user_data_offset) real_size) FREE_LIST_OP.ADD) >>= fun st4 =>
      Res.ok (add64 blk blk_hdr_size, st4)
  else Res.abort

instance Seg.decidable (m : Mem) : ∀ (h : Nat) (l : List Nat) (e : Nat), Decidable (Seg m h l e)
  | h, [], e => inferInstanceAs (Decidable (h = e))
  | h, a :: t, e =>
    have := Seg.decidable m (m a).next t e
    inferInstanceAs (Decidable (h = a ∧ a ≠ 0 ∧ Seg m (m a).next t e))

instance PrevOK.decidable (m : Mem) : ∀ (l : List Nat), Decidable (PrevOK m l)
  | [] => inferInstanceAs (Decidable True)
  | [_] => inferInstanceAs (Decidable True)
  | a :: b :: t =>
    have := PrevOK.decidable m (b :: t)
    inferInstanceAs (Decidable ((m b).prev = a ∧ PrevOK m (b :: t)))

instance FreeList.decidable (st : State) (l : List Nat) : Decidable (FreeList st l) :=
  inferInstanceAs (Decidable (Seg st.mem st.g_free_list_head l 0 ∧ l.Nodup ∧ PrevOK st.mem l))

/-- The value of a run that returned, and `d` for a run that did not. -/
def Res.getD {α : Type} (r : Res α) (d : α) : α :=
  match r with
  | .ok a => a
  | _ => d

/-- The state after `pm_malloc (100)` on the initial allocator: the call
returns `65568`, the block at `65536` has size 100, and the remainder of the
chunk, at `65696`, is the only free block. -/
def state_one_block : State := ((pm_malloc 1 init 100).getD (0, init)).2

/-- The state after `pm_free (65568)` in `state_one_block`: the free list is
the released block at `65536` followed by the remainder at `65696`. -/
def state_two_free : State := (pm_free 1 state_one_block 65568).getD init

/-- First address behind the block at `x`: its header and recorded payload. -/
def blk_end (m : Mem) (x : Nat) : Nat := x + blk_hdr_size + (m x).size

/-- The blocks of `S` are sound in memory: each is non-null, carries the tag,
records a positive size, ends inside the memory obtained so far and lies,
header and recorded payload, inside one region obtained from the operating
system; and the blocks lie behind one another without overlap. -/
def Spatial (st : State) (S : List Nat) : Prop :=
  (∀ x ∈ S, x ≠ 0 ∧ (st.mem x).magic = PM_MAGIC ∧ 0 < (st.mem x).size ∧
    blk_end st.mem x ≤ st.os_brk ∧
    ∃ r ∈ st.regions, r.1 ≤ x ∧ blk_end st.mem x ≤ r.1 + r.2) ∧
  (∀ x ∈ S, ∀ y ∈ S, x < y → blk_end st.mem x ≤ y)

/-- Invariant of the allocator under disciplined use, with the free blocks `l`
in list order and the allocated blocks `A`. -/
structure Inv (st : State) (l A : List Nat) : Prop where
  wf : FreeList st l
  nodupA : A.Nodup
  disj : ∀ x ∈ A, x ∉ l
  spatial : Spatial st (l ++ A)
  brk_le : st.os_brk ≤ SIZE_MOD
  brk_al : st.os_brk % 4096 = 0
  brk_pos : st.os_brk ≠ 0

/-- The request of `size` bytes in state `st` is answered by first fit with the
pointer `p`: `p` is the payload pointer (header address plus 32) of the first
block of the well-formed free list whose recorded size is at least
`size + 32`, or, when the list has no such block, of the region that the
operating system hands out next. -/
def FirstFitServed (st : State) (size p : Nat) : Prop :=
  ∃ l, FreeList st l ∧
    ((∃ pre b post, l = pre ++ b :: post ∧
        (∀ x ∈ pre, (st.mem x).size < size + blk_hdr_size) ∧
        size + blk_hdr_size ≤ (st.mem b).size ∧ p = b + blk_hdr_size) ∨
      ((∀ x ∈ l, (st.mem x).size < size + blk_hdr_size) ∧ p = st.os_brk + blk_hdr_size))

/-- Every request of the list, made in order by `pm_malloc` from state `st`
on, returns, and is answered by first fit in the state in which it is made. -/
def AllFirstFit (fuel : Nat) : State → List Nat → List Nat → Prop
  | _, [], [] => True
  | st, s :: ss, q :: qs =>
    FirstFitServed st s q ∧
      ∃ st1, pm_malloc fuel st s = Res.ok (q, st1) ∧ AllFirstFit fuel st1 ss qs
  | _, _, _ => False

/-- The request of `size` bytes in state `st` is answered from the free list or
from fresh memory: the pointer `p` is the payload pointer of a block that is
in the well-formed free list of `st` and records at least `size` bytes, or of
the region that the operating system hands out next. -/
def ServedFromFreeList (st : State) (size p : Nat) : Prop :=
  ∃ l, FreeList st l ∧
    ((∃ b ∈ l, size ≤ (st.mem b).size ∧ p = b + blk_hdr_size) ∨
      p = st.os_brk + blk_hdr_size)

/-- Every request of the list, made in order by `pm_malloc` from state `st`
on, returns, and is answered from the free list of the state in which it is
made or from fresh memory. -/
def AllServed (fuel : Nat) : State → List Nat → List Nat → Prop
  | _, [], [] => True
  | st, s :: ss, q :: qs =>
    ServedFromFreeList st s q ∧
      ∃ st1, pm_malloc fuel st s = Res.ok (q, st1) ∧ AllServed fuel st1 ss qs
  | _, _, _ => False

/-- The states reached from the initial allocator under disciplined use,
together with the blocks that are allocated in them: every request is of size
zero or positive with `size + 32` below `2 ^ 64`, every release is of the null
pointer or of the payload pointer of a block that is allocated at that moment,
and every call that scans the free list is given more fuel than the list is
long. -/
inductive Reachable : State → List Nat → Prop where
  | init : Reachable init []
  | malloc {st st2 : State} {A : List Nat} {fuel size p : Nat} :
      Reachable st A → 0 < size → size + blk_hdr_size < SIZE_MOD →
      (∀ l, FreeList st l → l.length < fuel) →
      pm_malloc fuel st size = Res.ok (p, st2) →
      Reachable st2 ((p - blk_hdr_size) :: A)
  | free {st st2 : State} {A : List Nat} {fuel b : Nat} :
      Reachable st A → b ∈ A → pm_free fuel st (b + blk_hdr_size) = Res.ok st2 →
      Reachable st2 (A.erase b)
  | malloc_zero {st st2 : State} {A : List Nat} {fuel p : Nat} :
      Reachable st A → pm_malloc fuel st 0 = Res.ok (p, st2) → Reachable st2 A
  | free_null {st st2 : State} {A : List Nat} {fuel : Nat} :
      Reachable st A → pm_free fuel st 0 = Res.ok st2 → Reachable st2 A

/-! ## The same program over byte memory

The definitions of the namespace `ByteLevel` embed the same source once more,
over a memory of bytes: the allocator state keeps the byte stored at every
address and the address ranges that are mapped, the fields of a `pm_block`
are read and written at their offsets (`size` at 0, `next` at 8, `prev` at 16,
eight bytes each, and `magic` at 24, four bytes), least significant byte
first, and an access to bytes that are not mapped is a fault. Here two
headers that overlap share bytes. -/

namespace ByteLevel

/-- Byte memory: the byte stored at each address. -/
abbrev Bytes : Type := Nat → Nat

/-- Little-endian load of `n` bytes at address `a`. -/
def load (m : Bytes) : Nat → Nat → Nat
  | _, 0 => 0
  | a, n + 1 => m a % 256 + 256 * load m (a + 1) n

/-- Little-endian store of the low `n` bytes of `v` at address `a`. -/
def store (m : Bytes) (a n v : Nat) : Bytes :=
  fun x => if a ≤ x ∧ x < a + n then v / 256 ^ (x - a) % 256 else m x

/-- The allocator state over byte memory: the bytes, the two globals of the
source, the mapped address ranges (base and length) and the address of the
next mapping. -/
structure State where
  bytes : Bytes
  g_free_list_head : Nat
  g_reuse_count : Int
  regions : List (Nat × Nat)
  os_brk : Nat

/-- The `n` bytes at address `a` lie inside one mapped range. -/
def mapped (st : State) (a n : Nat) : Bool :=
  st.regions.any (fun r => decide (r.1 ≤ a ∧ a + n ≤ r.1 + r.2))

/-- Load of the `n`-byte field at offset `off` of the structure at `blk`; a
fault when the bytes are not mapped. -/
def rd (st : State) (blk off n : Nat) : Res Nat :=
  if mapped st (add64 blk off) n then .ok (load st.bytes (add64 blk off) n) else .segv

/-- Store into the `n`-byte field at offset `off` of the structure at `blk`; a
fault when the bytes are not mapped. -/
def wr (st : State) (blk off n v : Nat) : Res State :=
  if mapped st (add64 blk off) n then
    .ok { st with bytes := store st.bytes (add64 blk off) n v }
  else .segv

/-- Load `blk->size`. -/
def get_size (st : State) (blk : Nat) : Res Nat := rd st blk 0 8

/-- Load `blk->next`. -/
def get_next (st : State) (blk : Nat) : Res Nat := rd st blk 8 8

/-- Load `blk->prev`. -/
def get_prev (st : State) (blk : Nat) : Res Nat := rd st blk 16 8

/-- Load `blk->magic`. -/
def get_magic (st : State) (blk : Nat) : Res Nat := rd st blk 24 4

/-- Store `blk->size = v`. -/
def set_size (st : State) (blk v : Nat) : Res State := wr st blk 0 8 v

/-- Store `blk->next = v`. -/
def set_next (st : State) (blk v : Nat) : Res State := wr st blk 8 8 v

/-- Store `blk->prev = v`. -/
def set_prev (st : State) (blk v : Nat) : Res State := wr st blk 16 8 v

/-- Store `blk->magic = v`. -/
def set_magic (st : State) (blk v : Nat) : Res State := wr st blk 24 4 v

/-- Source: `get_mem_from_os`. As before `mmap` hands out consecutive ranges
starting at `os_brk`, here whole pages, filled with zero bytes. A call
that cannot be satisfied gives `MAP_FAILED`, all bits set, which passes
`assert (mem)`. -/
def get_mem_from_os (st : State) (size : Nat) : Res (Nat × State) :=
  if st.os_brk + size ≤ SIZE_MOD then do
    let mem := st.os_brk
    c_assert (mem ≠ 0)
    pure (mem, { st with os_brk := st.os_brk + page_round size,
                         regions := st.regions ++ [(mem, page_round size)] })
  else do
    let mem := SIZE_MOD - 1
    c_assert (mem ≠ 0)
    pure (mem, st)

/-- Source: the `while (itr)` loop of `case REMOVE` in `free_list_op`. -/
def remove_loop (blk : Nat) : Nat → State → Nat → Res State
  | 0, _, _ => .timeout
  | fuel + 1, st, itr =>
    if itr = 0 then .ok st
    else if itr = blk then do
      let prev_blk ← get_prev st itr
      let next_blk ← get_next st itr
      let st1 ← set_next st prev_blk next_blk
      if next_blk ≠ 0 then set_prev st1 next_blk prev_blk else pure st1
    else do
      let nx ← get_next st itr
      remove_loop blk fuel st nx

/-- Source: the `while (itr)` loop of `case TRAVERSE`; the result is the list
of sizes written to the log. -/
def traverse_loop (st : State) : Nat → Nat → Res (List Nat)
  | 0, _ => .timeout
  | fuel + 1, itr =>
    if itr = 0 then .ok []
    else do
      let sz ← get_size st itr
      let nx ← get_next st itr
      let rest ← traverse_loop st fuel nx
      pure (sz :: rest)

/-- Source: `free_list_op`. -/
def free_list_op (fuel : Nat) (st : State) (blk : Nat) (op : FREE_LIST_OP) : Res State := do
  c_assert (blk ≠ 0)
  match op with
  | .REMOVE =>
    let itr := st.g_free_list_head
    c_assert (itr ≠ 0)
    if blk = st.g_free_list_head then do
      let nx ← get_next st blk
      pure { st with g_free_list_head := nx }
    else remove_loop blk fuel st itr
  | .ADD =>
    if st.g_free_list_head = 0 then do
      let st1 ← set_next { st with g_free_list_head := blk } blk 0
      set_prev st1 blk 0
    else do
      let st1 ← set_prev st st.g_free_list_head blk
      let st2 ← set_next st1 blk st.g_free_list_head
      pure { st2 with g_free_list_head := blk }
  | .TRAVERSE => do
    let _ ← traverse_loop st fuel blk
    pure st

/-- Source: `trim_block`, statement by statement; the result is the pointer
`free_blk` (null when the block is not split) and the state after the
stores. -/
def trim_block (st : State) (blk s : Nat) : Res (Nat × State) := do
  let sz ← get_size st blk
  let remaining := sub64 sz s
  if remaining < blk_hdr_size + 1 then pure (0, st)
  else do
    let free_blk := add64 (add64 blk user_data_offset) s
    let sz2 ← get_size st blk
    let st1 ← set_size st free_blk (sub64 sz2 (add64 blk_hdr_size s))
    let f1 ← get_size st1 free_blk
    c_assert (f1 > 0)
    let f2 ← get_size st1 free_blk
    c_assert (f2 ≤ OS_MEM_ALLOC_SIZE)
    let st2 ← set_size st1 blk (sub64 s blk_hdr_size)
    let st3 ← set_magic st2 blk PM_MAGIC
    let st4 ← set_magic st3 free_blk PM_MAGIC
    let st5 ← set_prev st4 free_blk 0
    let st6 ← set_next st5 free_blk 0
    pure (free_blk, st6)

/-- Source: body of `if (blk_itr->size >= real_size)` in `pm_malloc`. -/
def pm_malloc_reuse (fuel : Nat) (st : State) (blk_itr real_size : Nat) : Res (Nat × State) := do
  let sz ← get_size st blk_itr
  if sz = real_size then do
    let st1 ← free_list_op fuel st blk_itr .REMOVE
    let st2 := { st1 with g_reuse_count := st1.g_reuse_count + 1 }
    let p ← blk_to_user_data blk_itr
    pure (p, st2)
  else do
    let st1 ← free_list_op fuel st blk_itr .REMOVE
    let st2 := { st1 with g_reuse_count := st1.g_reuse_count + 1 }
    let (free_blk, st3) ← trim_block st2 blk_itr real_size
    if free_blk ≠ 0 then do
      let st4 ← free_list_op fuel st3 free_blk .ADD
      let p ← blk_to_user_data blk_itr
      pure (p, st4)
    else do
      let p ← blk_to_user_data blk_itr
      pure (p, st3)

/-- Source: the part of `pm_malloc` after the loop (`No usable free blk`). -/
def pm_malloc_fresh (fuel : Nat) (st : State) (real_size : Nat) : Res (Nat × State) :=
  if real_size > OS_MEM_ALLOC_SIZE then do
    let (large_blk, st1) ← get_mem_from_os st real_size
    let st2 ← set_next st1 large_blk 0
    let st3 ← set_prev st2 large_blk 0
    let st4 ← set_magic st3 large_blk PM_MAGIC
    let st5 ← set_size st4 large_blk (sub64 real_size blk_hdr_size)
    let p ← blk_to_user_data large_blk
    pure (p, st5)
  else do
    let (alloc_blk, st1) ← get_mem_from_os st OS_MEM_ALLOC_SIZE
    let st2 ← set_next st1 alloc_blk 0
    let st3 ← set_prev st2 alloc_blk 0
    let st4 ← set_magic st3 alloc_blk PM_MAGIC
    let st5 ← set_size st4 alloc_blk (sub64 OS_MEM_ALLOC_SIZE blk_hdr_size)
    let (free_blk, st6) ← trim_block st5 alloc_blk real_size
    if free_blk ≠ 0 then do
      let st7 ← free_list_op fuel st6 free_blk .ADD
      let p ← blk_to_user_data alloc_blk
      pure (p, st7)
    else do
      let p ← blk_to_user_data alloc_blk
      pure (p, st6)

/-- Source: the `while (blk_itr != NULL)` loop of `pm_malloc` together with
what follows it; `fuel0` is the fuel handed to `free_list_op`. -/
def pm_malloc_scan (fuel0 : Nat) (st : State) (real_size : Nat) : Nat → Nat → Res (Nat × State)
  | 0, _ => .timeout
  | fuel + 1, blk_itr =>
    if blk_itr ≠ 0 then do
      let sz ← get_size st blk_itr
      if sz ≥ real_size then pm_malloc_reuse fuel0 st blk_itr real_size
      else do
        let nx ← get_next st blk_itr
        pm_malloc_scan fuel0 st real_size fuel nx
    else pm_malloc_fresh fuel0 st real_size

/-- Source: `pm_malloc`. The result is the returned pointer and the state. -/
def pm_malloc (fuel : Nat) (st : State) (size : Nat) : Res (Nat × State) :=
  if size ≤ 0 then .ok (0, st)
  else
    let blk_itr := st.g_free_list_head
    let real_size := add64 size blk_hdr_size
    pm_malloc_scan fuel st real_size fuel blk_itr

/-- Source: `pm_free`. -/
def pm_free (fuel : Nat) (st : State) (ptr : Nat) : Res State :=
  if ptr = 0 then .ok st
  else do
    let blk ← user_data_to_blk ptr
    let mg ← get_magic st blk
    c_assert (mg = PM_MAGIC)
    free_list_op fuel st blk .ADD

/-- The allocator before the first call: nothing is mapped, both globals are
zero, and the first mapping will be placed at address `65536`. -/
def init : State :=
  { bytes := fun _ => 0,
    g_free_list_head := 0,
    g_reuse_count := 0,
    regions := [],
    os_brk := 65536 }

/-- The state after `pm_malloc (100)` on the initial allocator: the chunk
`65536 .. 4259840` is mapped, the block at `65536` is allocated with payload
pointer `65568`, and the remainder at `65696` is the free list. -/
def state_one_block : State := ((pm_malloc 1 init 100).getD (0, init)).2

end ByteLevel

/-! ## Results of sequencing -/

@[simp] theorem Res.ok_bind {α β : Type} (a : α) (f : α → Res β) :
    (Res.ok a >>= f) = f a := rfl

@[simp] theorem Res.abort_bind {α β : Type} (f : α → Res β) :
    ((Res.abort : Res α) >>= f) = Res.abort := rfl

@[simp] theorem Res.segv_bind {α β : Type} (f : α → Res β) :
    ((Res.segv : Res α) >>= f) = Res.segv := rfl

@[simp] theorem Res.timeout_bind {α β : Type} (f : α → Res β) :
    ((Res.timeout : Res α) >>= f) = Res.timeout := rfl

@[simp] theorem Res.pure_eq {α : Type} (a : α) : (pure a : Res α) = Res.ok a := rfl

@[simp] theorem c_assert_true {c : Prop} [Decidable c] (h : c) : c_assert c = Res.ok () := by
  simp [c_assert, h]

@[simp] theorem c_assert_false {c : Prop} [Decidable c] (h : ¬ c) : c_assert c = Res.abort := by
  simp [c_assert, h]

/-! ## Stores -/

@[simp] theorem write_size_size (m : Mem) (a v x : Nat) :
    (write_size m a v x).size = if x = a then v else (m x).size := by
  unfold write_size; split <;> simp_all

@[simp] theorem write_size_next (m : Mem) (a v x : Nat) :
    (write_size m a v x).next = (m x).next := by
  unfold write_size; split <;> simp_all

@[simp] theorem write_size_prev (m : Mem) (a v x : Nat) :
    (write_size m a v x).prev = (m x).prev := by
  unfold write_size; split <;> simp_all

@[simp] theorem write_size_magic (m : Mem) (a v x : Nat) :
    (write_size m a v x).magic = (m x).magic := by
  unfold write_size; split <;> simp_all

theorem write_size_other (m : Mem) (a v x : Nat) (h : x ≠ a) : write_size m a v x = m x := by
  simp [write_size, h]

@[simp] theorem write_next_size (m : Mem) (a v x : Nat) :
    (write_next m a v x).size = (m x).size := by
  unfold write_next; split <;> simp_all

@[simp] theorem write_next_next (m : Mem) (a v x : Nat) :
    (write_next m a v x).next = if x = a then v else (m x).next := by
  unfold write_next; split <;> simp_all

@[simp] theorem write_next_prev (m : Mem) (a v x : Nat) :
    (write_next m a v x).prev = (m x).prev := by
  unfold write_next; split <;> simp_all

@[simp] theorem write_next_magic (m : Mem) (a v x : Nat) :
    (write_next m a v x).magic = (m x).magic := by
  unfold write_next; split <;> simp_all

theorem write_next_other (m : Mem) (a v x : Nat) (h : x ≠ a) : write_next m a v x = m x := by
  simp [write_next, h]

@[simp] theorem write_prev_size (m : Mem) (a v x : Nat) :
    (write_prev m a v x).size = (m x).size := by
  unfold write_prev; split <;> simp_all

@[simp] theorem write_prev_next (m : Mem) (a v x : Nat) :
    (write_prev m a v x).next = (m x).next := by
  unfold write_prev; split <;> simp_all

@[simp] theorem write_prev_prev (m : Mem) (a v x : Nat) :
    (write_prev m a v x).prev = if x = a then v else (m x).prev := by
  unfold write_prev; split <;> simp_all

@[simp] theorem write_prev_magic (m : Mem) (a v x : Nat) :
    (write_prev m a v x).magic = (m x).magic := by
  unfold write_prev; split <;> simp_all

theorem write_prev_other (m : Mem) (a v x : Nat) (h : x ≠ a) : write_prev m a v x = m x := by
  simp [write_prev, h]

@[simp] theorem write_magic_size (m : Mem) (a v x : Nat) :
    (write_magic m a v x).size = (m x).size := by
  unfold write_magic; split <;> simp_all

@[simp] theorem write_magic_next (m : Mem) (a v x : Nat) :
    (write_magic m a v x).next = (m x).next := by
  unfold write_magic; split <;> simp_all

@[simp] theorem write_magic_prev (m : Mem) (a v x : Nat) :
    (write_magic m a v x).prev = (m x).prev := by
  unfold write_magic; split <;> simp_all

@[simp] theorem write_magic_magic (m : Mem) (a v x : Nat) :
    (write_magic m a v x).magic = if x = a then v else (m x).magic := by
  unfold write_magic; split <;> simp_all

theorem write_magic_other (m : Mem) (a v x : Nat) (h : x ≠ a) : write_magic m a v x = m x := by
  simp [write_magic, h]

/-! ## Paths along `next` -/

theorem Seg.congr_next {m m2 : Mem} : ∀ {l : List Nat} {h e : Nat},
    (∀ a ∈ l, (m2 a).next = (m a).next) → Seg m h l e → Seg m2 h l e
  | [], _, _, _, hs => hs
  | a :: t, _, _, hn, hs => by
    obtain ⟨h1, h2, h3⟩ := hs
    refine ⟨h1, h2, ?_⟩
    rw [hn a (List.mem_cons_self a t)]
    exact Seg.congr_next (fun x hx => hn x (List.mem_cons_of_mem a hx)) h3

theorem Seg.append {m : Mem} : ∀ {l1 l2 : List Nat} {h x e : Nat},
    Seg m h l1 x → Seg m x l2 e → Seg m h (l1 ++ l2) e
  | [], _, _, _, _, h1, h2 => by
    simp only [Seg] at h1
    subst h1
    simpa using h2
  | a :: t, _, _, _, _, h1, h2 => by
    obtain ⟨ha, hz, ht⟩ := h1
    exact ⟨ha, hz, Seg.append ht h2⟩

theorem Seg.split {m : Mem} : ∀ {l1 l2 : List Nat} {h e : Nat},
    Seg m h (l1 ++ l2) e → ∃ x, Seg m h l1 x ∧ Seg m x l2 e
  | [], _, h, _, hs => ⟨h, rfl, by simpa using hs⟩
  | a :: t, _, _, _, hs => by
    obtain ⟨ha, hz, ht⟩ := hs
    obtain ⟨x, hx1, hx2⟩ := Seg.split ht
    exact ⟨x, ⟨ha, hz, hx1⟩, hx2⟩

theorem Seg.head_eq {m : Mem} {h a e : Nat} {t : List Nat} (hs : Seg m h (a :: t) e) : h = a :=
  hs.1

theorem Seg.ne_zero {m : Mem} : ∀ {l : List Nat} {h e : Nat}, Seg m h l e → ∀ a ∈ l, a ≠ 0
  | [], _, _, _, _, ha => by simp at ha
  | b :: t, _, _, hs, a, ha => by
    rcases List.mem_cons.1 ha with rfl | hm
    · exact hs.2.1
    · exact Seg.ne_zero hs.2.2 a hm

theorem PrevOK.congr_prev {m m2 : Mem} : ∀ {l : List Nat},
    (∀ a ∈ l.tail, (m2 a).prev = (m a).prev) → PrevOK m l → PrevOK m2 l
  | [], _, _ => trivial
  | [_], _, _ => trivial
  | a :: b :: t, hn, hp => by
    refine ⟨?_, PrevOK.congr_prev (fun x hx => hn x (List.mem_cons_of_mem b hx)) hp.2⟩
    rw [hn b (by simp)]
    exact hp.1

theorem PrevOK.tail {m : Mem} : ∀ {a : Nat} {t : List Nat}, PrevOK m (a :: t) → PrevOK m t
  | _, [], _ => trivial
  | _, _ :: _, hp => hp.2

theorem PrevOK.right {m : Mem} : ∀ {l1 l2 : List Nat}, PrevOK m (l1 ++ l2) → PrevOK m l2
  | [], _, hp => by simpa using hp
  | _ :: _, _, hp => PrevOK.right (PrevOK.tail hp)

theorem PrevOK.left {m : Mem} : ∀ {l1 l2 : List Nat}, PrevOK m (l1 ++ l2) → PrevOK m l1
  | [], _, _ => trivial
  | [_], _, _ => trivial
  | a :: b :: t, l2, hp => by
    have hp2 : PrevOK m (a :: b :: (t ++ l2)) := by simpa using hp
    exact ⟨hp2.1, PrevOK.left (by simpa using hp2.2)⟩

theorem PrevOK.join {m : Mem} {a : Nat} : ∀ {l1 l2 : List Nat},
    PrevOK m (l1 ++ [a]) → PrevOK m (a :: l2) → PrevOK m (l1 ++ a :: l2)
  | [], _, _, h2 => by simpa using h2
  | [x], l2, h1, h2 => by
    have h1b : PrevOK m (x :: a :: []) := by simpa using h1
    exact ⟨h1b.1, h2⟩
  | x :: y :: t, l2, h1, h2 => by
    have h1b : PrevOK m (x :: y :: (t ++ [a])) := by simpa using h1
    have ih : PrevOK m ((y :: t) ++ a :: l2) := PrevOK.join (by simpa using h1b.2) h2
    exact ⟨h1b.1, by simpa using ih⟩

/-! ## The `REMOVE` case of `free_list_op` -/

theorem remove_loop_skip (m : Mem) (b : Nat) : ∀ (s : List Nat) (fuel itr : Nat),
    Seg m itr s b → b ∉ s → remove_loop m b (s.length + fuel) itr = remove_loop m b fuel b
  | [], fuel, itr, hs, _ => by
    simp only [Seg] at hs
    subst hs
    simp
  | a :: t, fuel, itr, hs, hb => by
    obtain ⟨h1, h2, h3⟩ := hs
    subst h1
    have hne : itr ≠ b := fun h => hb (by simp [h])
    have hbt : b ∉ t := fun h => hb (List.mem_cons_of_mem _ h)
    have hlen : (itr :: t).length + fuel = (t.length + fuel) + 1 := by simp; omega
    rw [hlen, remove_loop]
    simp only [h2, hne, if_false]
    exact remove_loop_skip m b t fuel _ h3 hbt

theorem remove_loop_found (m : Mem) (b fuel : Nat) (hb : b ≠ 0) (hp : (m b).prev ≠ 0) :
    remove_loop m b (fuel + 1) b = Res.ok (unlink m b) := by
  rw [remove_loop]
  simp only [hb, hp, if_false, if_true, unlink]
  split <;> rfl

theorem unlink_size (m : Mem) (b x : Nat) : (unlink m b x).size = (m x).size := by
  unfold unlink; split <;> simp

theorem unlink_magic (m : Mem) (b x : Nat) : (unlink m b x).magic = (m x).magic := by
  unfold unlink; split <;> simp

theorem unlink_next (m : Mem) (b x : Nat) :
    (unlink m b x).next = if x = (m b).prev then (m b).next else (m x).next := by
  unfold unlink; split <;> simp

theorem unlink_prev (m : Mem) (b x : Nat) :
    (unlink m b x).prev = if x = (m b).next ∧ x ≠ 0 then (m b).prev else (m x).prev := by
  unfold unlink
  split
  · rename_i h
    by_cases hx : x = (m b).next
    · simp [hx, h]
    · simp [hx]
  · rename_i h
    have h0 : (m b).next = 0 := by simpa using h
    by_cases hx : x = 0
    · simp [hx, h0]
    · simp [hx, h0]

theorem unlink_other (m : Mem) (b x : Nat) (h1 : x ≠ (m b).prev)
    (h2 : x ≠ (m b).next ∨ (m b).next = 0) : unlink m b x = m x := by
  unfold unlink
  split
  · rename_i h
    have h3 : x ≠ (m b).next := h2.resolve_right h
    rw [write_prev_other _ _ _ _ h3, write_next_other _ _ _ _ h1]
  · rw [write_next_other _ _ _ _ h1]

theorem Seg.head_mem {m : Mem} {x : Nat} : ∀ {l : List Nat}, Seg m x l 0 → x ≠ 0 → x ∈ l
  | [], hs, hx => absurd hs hx
  | a :: t, hs, _ => by simp [hs.1]

theorem unlink_spec {m : Mem} {h b p : Nat} {pre post : List Nat}
    (hs : Seg m h (pre ++ p :: b :: post) 0) (hn : (pre ++ p :: b :: post).Nodup)
    (hp : PrevOK m (pre ++ p :: b :: post)) :
    (m b).prev = p ∧ (m b).prev ≠ 0 ∧ Seg m h (pre ++ [p]) b ∧
    Seg (unlink m b) h (pre ++ p :: post) 0 ∧ PrevOK (unlink m b) (pre ++ p :: post) ∧
    ∀ x, x ∉ pre ++ p :: post → unlink m b x = m x := by
  have hpb : (m b).prev = p := (PrevOK.right hp).1
  obtain ⟨x, hx1, hx2⟩ := Seg.split hs
  obtain ⟨hxp, hp0, hx3⟩ := hx2
  subst hxp
  obtain ⟨hnb, hb0, hx4⟩ := hx3
  have hnd := List.nodup_append.1 hn
  have hnd2 := List.nodup_cons.1 hnd.2.1
  have hnd3 := List.nodup_cons.1 hnd2.2
  have hxpre : x ∉ pre := fun hm => hnd.2.2 hm (by simp)
  have hxpost : x ∉ post := fun hm => hnd2.1 (by simp [hm])
  have hxb : x ≠ b := fun hm => hnd2.1 (by simp [hm])
  have hnext : ∀ a ∈ post, (unlink m b a).next = (m a).next := by
    intro a ha
    rw [unlink_next, hpb, if_neg]
    rintro rfl
    exact hxpost ha
  have hmem : (m b).next ≠ 0 → (m b).next ∈ post := Seg.head_mem hx4
  refine ⟨hpb, by rw [hpb]; exact hp0, ?_, ?_, ?_, ?_⟩
  · exact Seg.append hx1 ⟨rfl, hp0, hnb⟩
  · refine Seg.append (Seg.congr_next ?_ hx1) ⟨rfl, hp0, ?_⟩
    · intro a ha
      rw [unlink_next, hpb, if_neg]
      rintro rfl
      exact hxpre ha
    · rw [unlink_next, hpb, if_pos rfl]
      exact Seg.congr_next hnext hx4
  · have hl : PrevOK m ((pre ++ [x]) ++ (b :: post)) := by simpa using hp
    refine PrevOK.join (PrevOK.congr_prev ?_ (PrevOK.left hl)) ?_
    · intro a ha
      have ha2 : a ∈ pre ++ [x] := List.mem_of_mem_tail ha
      rw [unlink_prev, if_neg]
      rintro ⟨h1, h2⟩
      have h3 : a ∈ post := h1 ▸ hmem (h1 ▸ h2)
      rcases List.mem_append.1 ha2 with h4 | h4
      · exact hnd.2.2 h4 (by simp [h3])
      · simp at h4
        exact hxpost (h4 ▸ h3)
    · cases post with
      | nil => trivial
      | cons n t =>
        obtain ⟨hn1, hn2, _⟩ := hx4
        have hnt := List.nodup_cons.1 hnd3.2
        refine ⟨?_, PrevOK.congr_prev ?_ (PrevOK.right hp).tail.tail⟩
        · rw [unlink_prev, if_pos ⟨hn1.symm, hn2⟩, hpb]
        · intro a ha
          rw [unlink_prev, if_neg]
          rintro ⟨h1, _⟩
          have ha3 : a ∈ t := ha
          exact hnt.1 (by rw [← hn1, ← h1]; exact ha3)
  · intro y hy
    have hy1 : y ≠ x := fun h => hy (by simp [h])
    have hy2 : y ∉ post := fun h => hy (by simp [h])
    apply unlink_other
    · rw [hpb]; exact hy1
    · by_cases h0 : (m b).next = 0
      · exact Or.inr h0
      · exact Or.inl (fun h => hy2 (h ▸ hmem h0))

theorem Seg.first_mem {m : Mem} {h e : Nat} : ∀ {l : List Nat}, Seg m h l e → l ≠ [] → h ∈ l
  | [], _, hl => absurd rfl hl
  | a :: t, hs, _ => by simp [hs.1]

theorem free_list_remove_spec (fuel : Nat) (st : State) (pre : List Nat) (b : Nat)
    (post : List Nat) (hwf : FreeList st (pre ++ b :: post)) (hfuel : pre.length < fuel) :
    ∃ st2, free_list_op fuel st b FREE_LIST_OP.REMOVE = Res.ok st2 ∧ FreeList st2 (pre ++ post) ∧
      (∀ x, (st2.mem x).size = (st.mem x).size) ∧ (∀ x, (st2.mem x).magic = (st.mem x).magic) ∧
      (∀ x, x ∉ pre ++ post → st2.mem x = st.mem x) ∧
      st2.g_reuse_count = st.g_reuse_count ∧ st2.regions = st.regions ∧
      st2.os_brk = st.os_brk := by
  obtain ⟨hs, hn, hp⟩ := hwf
  have hb0 : b ≠ 0 := Seg.ne_zero hs b (by simp)
  rcases List.eq_nil_or_concat pre with rfl | ⟨L, p, rfl⟩
  · have hh : st.g_free_list_head = b := hs.1
    refine ⟨{ st with g_free_list_head := (st.mem b).next }, ?_, ⟨?_, ?_, ?_⟩, ?_⟩
    · simp [free_list_op, hb0, hh]
    · exact hs.2.2
    · exact (List.nodup_cons.1 hn).2
    · exact PrevOK.tail hp
    · simp
  · rw [List.concat_eq_append] at hs hn hp hfuel ⊢
    have hs2 : Seg st.mem st.g_free_list_head (L ++ p :: b :: post) 0 := by simpa using hs
    have hn2 : (L ++ p :: b :: post).Nodup := by simpa using hn
    have hp2 : PrevOK st.mem (L ++ p :: b :: post) := by simpa using hp
    obtain ⟨h1, h2, h3, h4, h5, h6⟩ := unlink_spec hs2 hn2 hp2
    have hmem : st.g_free_list_head ∈ L ++ [p] := Seg.first_mem h3 (by simp)
    have hh0 : st.g_free_list_head ≠ 0 := Seg.ne_zero h3 _ hmem
    have hbL : b ∉ L ++ [p] := fun hm => (List.nodup_append.1 hn).2.2 hm (by simp)
    have hne : b ≠ st.g_free_list_head := fun h => hbL (h ▸ hmem)
    obtain ⟨k, hk⟩ : ∃ k, fuel = (L ++ [p]).length + (k + 1) := ⟨fuel - (L ++ [p]).length - 1, by omega⟩
    have hrl : remove_loop st.mem b fuel st.g_free_list_head = Res.ok (unlink st.mem b) := by
      rw [hk, remove_loop_skip st.mem b (L ++ [p]) (k + 1) _ h3 hbL]
      exact remove_loop_found st.mem b k hb0 h2
    refine ⟨{ st with mem := unlink st.mem b }, ?_, ⟨?_, ?_, ?_⟩, ?_⟩
    · simp [free_list_op, hb0, hh0, hne, hrl]
    · simpa using h4
    · have := List.nodup_append.1 hn2
      have hc := List.nodup_cons.1 this.2.1
      have hc2 := List.nodup_cons.1 hc.2
      have hgoal : (L ++ p :: post).Nodup := by
        refine List.nodup_append.2 ⟨this.1, List.nodup_cons.2 ⟨fun hm => hc.1 (by simp [hm]), hc2.2⟩, ?_⟩
        intro a ha1 ha2
        refine this.2.2 ha1 ?_
        rcases List.mem_cons.1 ha2 with h | h
        · simp [h]
        · simp [h]
      simpa using hgoal
    · simpa using h5
    · refine ⟨fun x => unlink_size _ _ x, fun x => unlink_magic _ _ x, ?_, rfl, rfl, rfl⟩
      intro x hx
      exact h6 x (by simpa using hx)

/-! ## The `ADD` case of `free_list_op` -/

theorem Seg.nil_of_zero {m : Mem} {e : Nat} : ∀ {l : List Nat}, Seg m 0 l e → l = []
  | [], _ => rfl
  | _ :: _, hs => absurd hs.1.symm hs.2.1

theorem free_list_add_spec (fuel : Nat) (st : State) (blk : Nat) (l : List Nat)
    (hb : blk ≠ 0) (hs : Seg st.mem st.g_free_list_head l 0) (hnot : blk ∉ l) :
    ∃ st2, free_list_op fuel st blk FREE_LIST_OP.ADD = Res.ok st2 ∧
      st2.g_free_list_head = blk ∧ Seg st2.mem blk (blk :: l) 0 ∧
      (l.Nodup → PrevOK st.mem l → PrevOK st2.mem (blk :: l)) ∧
      (∀ x, (st2.mem x).size = (st.mem x).size) ∧ (∀ x, (st2.mem x).magic = (st.mem x).magic) ∧
      (∀ x, x ≠ blk → x ≠ st.g_free_list_head → st2.mem x = st.mem x) ∧
      st2.g_reuse_count = st.g_reuse_count ∧ st2.regions = st.regions ∧
      st2.os_brk = st.os_brk := by
  by_cases hh : st.g_free_list_head = 0
  · have hl : l = [] := by
      rw [hh] at hs
      exact Seg.nil_of_zero hs
    subst hl
    refine ⟨{ st with g_free_list_head := blk,
                      mem := write_prev (write_next st.mem blk 0) blk 0 }, ?_, rfl, ?_, ?_, ?_⟩
    · simp [free_list_op, hb, hh]
    · refine ⟨rfl, hb, ?_⟩
      have hnx : (write_prev (write_next st.mem blk 0) blk 0 blk).next = 0 := by simp
      show Seg _ (write_prev (write_next st.mem blk 0) blk 0 blk).next [] 0
      rw [hnx]
      rfl
    · intro _ _
      trivial
    · refine ⟨fun x => by simp, fun x => by simp, ?_, rfl, rfl, rfl⟩
      intro x hx _
      show write_prev (write_next st.mem blk 0) blk 0 x = st.mem x
      rw [write_prev_other _ _ _ _ hx, write_next_other _ _ _ _ hx]
  · refine ⟨{ st with mem := write_next (write_prev st.mem st.g_free_list_head blk) blk
                              st.g_free_list_head,
                      g_free_list_head := blk }, ?_, rfl, ?_, ?_, ?_⟩
    · simp [free_list_op, hb, hh]
    · refine ⟨rfl, hb, ?_⟩
      have hnx : (write_next (write_prev st.mem st.g_free_list_head blk) blk
          st.g_free_list_head blk).next = st.g_free_list_head := by simp
      show Seg _ (write_next (write_prev st.mem st.g_free_list_head blk) blk
          st.g_free_list_head blk).next l 0
      rw [hnx]
      refine Seg.congr_next ?_ hs
      intro a ha
      have hab : a ≠ blk := fun h => hnot (h ▸ ha)
      simp [hab]
    · intro hnd hp
      cases l with
      | nil => trivial
      | cons a t =>
        have ha : st.g_free_list_head = a := hs.1
        refine ⟨by simp [ha], PrevOK.congr_prev ?_ hp⟩
        intro x hx
        have hxt : x ∈ t := hx
        have hxa : x ≠ a := fun h => (List.nodup_cons.1 hnd).1 (h ▸ hxt)
        simp [ha, hxa]
    · refine ⟨fun x => by simp, fun x => by simp, ?_, rfl, rfl, rfl⟩
      intro x hx hxh
      show write_next (write_prev st.mem st.g_free_list_head blk) blk st.g_free_list_head x
        = st.mem x
      rw [write_next_other _ _ _ _ hx, write_prev_other _ _ _ _ hxh]

/-! ## `trim_block` -/

theorem trim_block_eq (m : Mem) (blk s : Nat) :
    trim_block m blk s =
      if sub64 (m blk).size s < blk_hdr_size + 1 then Res.ok (0, m)
      else if add64 (add64 blk user_data_offset) s = 0 then Res.segv
      else if 0 < sub64 (m blk).size (add64 blk_hdr_size s) ∧
          sub64 (m blk).size (add64 blk_hdr_size s) ≤ OS_MEM_ALLOC_SIZE then
        Res.ok (add64 (add64 blk user_data_offset) s, trim_mem m blk s)
      else Res.abort := by
  unfold trim_block
  by_cases h1 : sub64 (m blk).size s < blk_hdr_size + 1
  · simp [h1]
  · by_cases h2 : add64 (add64 blk user_data_offset) s = 0
    · simp [h1, h2]
    · by_cases h3 : 0 < sub64 (m blk).size (add64 blk_hdr_size s)
      · by_cases h4 : sub64 (m blk).size (add64 blk_hdr_size s) ≤ OS_MEM_ALLOC_SIZE
        · simp [h1, h2, h3, h4, trim_mem]
        · simp [h1, h2, h3, h4]
      · simp [h1, h2, h3]

/-! ## The first-fit scan of `pm_malloc` -/

theorem pm_malloc_scan_skip (fuel0 : Nat) (st : State) (real : Nat) :
    ∀ (s : List Nat) (fuel itr e : Nat), Seg st.mem itr s e →
      (∀ x ∈ s, (st.mem x).size < real) →
      pm_malloc_scan fuel0 st real (s.length + fuel) itr = pm_malloc_scan fuel0 st real fuel e
  | [], fuel, itr, e, hs, _ => by
    simp only [Seg] at hs
    subst hs
    simp
  | a :: t, fuel, itr, e, hs, hsm => by
    obtain ⟨h1, h2, h3⟩ := hs
    subst h1
    have hlt : ¬ (st.mem itr).size ≥ real := by
      have := hsm itr (by simp)
      omega
    have hlen : (itr :: t).length + fuel = (t.length + fuel) + 1 := by simp; omega
    rw [hlen, pm_malloc_scan]
    simp only [h2, hlt, if_false, ne_eq, not_false_eq_true, if_true]
    exact pm_malloc_scan_skip fuel0 st real t fuel _ _ h3
      (fun x hx => hsm x (List.mem_cons_of_mem _ hx))

theorem pm_malloc_scan_hit (fuel0 : Nat) (st : State) (real fuel b : Nat) (hb : b ≠ 0)
    (hge : real ≤ (st.mem b).size) :
    pm_malloc_scan fuel0 st real (fuel + 1) b = pm_malloc_reuse fuel0 st b real := by
  rw [pm_malloc_scan]
  simp [hb, hge]

theorem pm_malloc_scan_end (fuel0 : Nat) (st : State) (real fuel : Nat) :
    pm_malloc_scan fuel0 st real (fuel + 1) 0 = pm_malloc_fresh fuel0 st real := by
  rw [pm_malloc_scan]
  simp

theorem free_list_op_add_ok (fuel : Nat) (st : State) (blk : Nat) (hb : blk ≠ 0) :
    ∃ st2, free_list_op fuel st blk FREE_LIST_OP.ADD = Res.ok st2 := by
  by_cases hh : st.g_free_list_head = 0
  · exact ⟨_, by simp [free_list_op, hb, hh]; rfl⟩
  · exact ⟨_, by simp [free_list_op, hb, hh]; rfl⟩

theorem blk_to_user_data_ok (blk : Nat) (hb : blk ≠ 0) :
    blk_to_user_data blk = Res.ok (add64 blk blk_hdr_size) := by
  simp [blk_to_user_data, hb]

theorem pm_malloc_reuse_exact (fuel : Nat) (st st1 : State) (b real : Nat) (hb : b ≠ 0)
    (hsz : (st.mem b).size = real)
    (hrm : free_list_op fuel st b FREE_LIST_OP.REMOVE = Res.ok st1) :
    pm_malloc_reuse fuel st b real =
      Res.ok (add64 b blk_hdr_size, { st1 with g_reuse_count := st1.g_reuse_count + 1 }) := by
  simp [pm_malloc_reuse, hsz, hrm, blk_to_user_data_ok b hb]

theorem pm_malloc_reuse_ptr (fuel : Nat) (st st1 : State) (b real : Nat) (hb : b ≠ 0)
    (hrm : free_list_op fuel st b FREE_LIST_OP.REMOVE = Res.ok st1) :
    pm_malloc_reuse fuel st b real ≠ Res.timeout ∧
    ∀ p st2, pm_malloc_reuse fuel st b real = Res.ok (p, st2) → p = add64 b blk_hdr_size := by
  unfold pm_malloc_reuse
  simp only [hrm, Res.ok_bind, blk_to_user_data_ok b hb, Res.pure_eq, trim_block_eq]
  split
  · simp
  · split
    · simp
    · split
      · simp
      · split
        · rename_i h2 _
          obtain ⟨st4, h4⟩ := free_list_op_add_ok fuel
            { st1 with g_reuse_count := st1.g_reuse_count + 1,
                       mem := trim_mem st1.mem b real } _ h2
          simp [h2, h4]
        · simp

/-! ## Fresh memory -/

theorem get_mem_from_os_eq (st : State) (size : Nat) :
    get_mem_from_os st size =
      if st.os_brk + size ≤ SIZE_MOD then
        if st.os_brk ≠ 0 then
          Res.ok (st.os_brk, { st with os_brk := st.os_brk + page_round size,
                                       regions := st.regions ++ [(st.os_brk, size)] })
        else Res.abort
      else Res.segv := by
  unfold get_mem_from_os
  by_cases h1 : st.os_brk + size ≤ SIZE_MOD
  · by_cases h2 : st.os_brk = 0
    · simp [h1, h2]
    · simp [h1, h2]
  · simp [h1]

theorem pm_malloc_fresh_large (fuel : Nat) (st : State) (real : Nat)
    (hbig : real > OS_MEM_ALLOC_SIZE) (hos : st.os_brk ≠ 0)
    (hroom : st.os_brk + real ≤ SIZE_MOD) :
    pm_malloc_fresh fuel st real =
      Res.ok (add64 st.os_brk blk_hdr_size,
        { st with os_brk := st.os_brk + page_round real,
                  regions := st.regions ++ [(st.os_brk, real)],
                  mem := large_mem st.mem st.os_brk real }) := by
  simp [pm_malloc_fresh, hbig, get_mem_from_os_eq, hos, hroom, blk_to_user_data_ok, large_mem]

theorem carve_eq (fuel : Nat) (st : State) (blk real : Nat) (hb : blk ≠ 0) :
    (do
      let (free_blk, m) ← trim_block st.mem blk real
      let st3 := { st with mem := m }
      if free_blk ≠ 0 then do
        let st4 ← free_list_op fuel st3 free_blk FREE_LIST_OP.ADD
        let p ← blk_to_user_data blk
        pure (p, st4)
      else do
        let p ← blk_to_user_data blk
        pure (p, st3)) = carve fuel st blk real := by
  unfold carve
  simp only [trim_block_eq, blk_to_user_data_ok blk hb]
  split
  · simp
  · split
    · simp
    · split
      · rename_i h2 _
        simp [h2]
      · simp

theorem pm_malloc_reuse_split (fuel : Nat) (st : State) (b real : Nat) (hb : b ≠ 0)
    (hsz : (st.mem b).size ≠ real) :
    pm_malloc_reuse fuel st b real =
      (free_list_op fuel st b FREE_LIST_OP.REMOVE >>= fun st1 =>
        carve fuel { st1 with g_reuse_count := st1.g_reuse_count + 1 } b real) := by
  unfold pm_malloc_reuse
  rw [if_neg hsz]
  congr 1
  funext st1
  exact carve_eq fuel { st1 with g_reuse_count := st1.g_reuse_count + 1 } b real hb

theorem pm_malloc_fresh_chunk (fuel : Nat) (st : State) (real : Nat)
    (hsmall : ¬ real > OS_MEM_ALLOC_SIZE) (hos : st.os_brk ≠ 0)
    (hroom : st.os_brk + OS_MEM_ALLOC_SIZE ≤ SIZE_MOD) :
    pm_malloc_fresh fuel st real =
      carve fuel { st with os_brk := st.os_brk + page_round OS_MEM_ALLOC_SIZE,
                           regions := st.regions ++ [(st.os_brk, OS_MEM_ALLOC_SIZE)],
                           mem := chunk_mem st.mem st.os_brk } st.os_brk real := by
  unfold pm_malloc_fresh
  rw [if_neg hsmall]
  rw [get_mem_from_os_eq, if_pos hroom, if_pos hos]
  exact carve_eq fuel { st with os_brk := st.os_brk + page_round OS_MEM_ALLOC_SIZE,
                                regions := st.regions ++ [(st.os_brk, OS_MEM_ALLOC_SIZE)],
                                mem := chunk_mem st.mem st.os_brk } st.os_brk real hos

theorem trim_mem_next (m : Mem) (blk s x : Nat) :
    (trim_mem m blk s x).next =
      if x = add64 (add64 blk user_data_offset) s then 0 else (m x).next := by
  simp [trim_mem]

theorem trim_mem_prev (m : Mem) (blk s x : Nat) :
    (trim_mem m blk s x).prev =
      if x = add64 (add64 blk user_data_offset) s then 0 else (m x).prev := by
  simp [trim_mem]

theorem trim_mem_size (m : Mem) (blk s x : Nat) :
    (trim_mem m blk s x).size =
      if x = blk then sub64 s blk_hdr_size
      else if x = add64 (add64 blk user_data_offset) s then
        sub64 (m blk).size (add64 blk_hdr_size s)
      else (m x).size := by
  simp [trim_mem]

theorem trim_mem_magic (m : Mem) (blk s x : Nat) :
    (trim_mem m blk s x).magic =
      if x = add64 (add64 blk user_data_offset) s then PM_MAGIC
      else if x = blk then PM_MAGIC else (m x).magic := by
  simp [trim_mem]

theorem carve_no_timeout (fuel : Nat) (st : State) (blk real : Nat) :
    carve fuel st blk real ≠ Res.timeout := by
  unfold carve
  split
  · simp
  · split
    · simp
    · split
      · rename_i h2 _
        obtain ⟨st4, h4⟩ := free_list_op_add_ok fuel
          { st with mem := trim_mem st.mem blk real } _ h2
        simp [h4]
      · simp

theorem carve_spec (fuel : Nat) (st : State) (blk real : Nat) (l : List Nat)
    (hs : Seg st.mem st.g_free_list_head l 0)
    (hfb : blk_hdr_size + 1 ≤ sub64 (st.mem blk).size real →
      0 < sub64 (st.mem blk).size (add64 blk_hdr_size real) →
      sub64 (st.mem blk).size (add64 blk_hdr_size real) ≤ OS_MEM_ALLOC_SIZE →
      add64 (add64 blk user_data_offset) real ∉ l) :
    ∀ p st2, carve fuel st blk real = Res.ok (p, st2) →
      p = add64 blk blk_hdr_size ∧ st2.regions = st.regions ∧ st2.os_brk = st.os_brk ∧
      st2.g_reuse_count = st.g_reuse_count ∧
      ((st2 = st ∧ sub64 (st.mem blk).size real < blk_hdr_size + 1) ∨
       (blk_hdr_size + 1 ≤ sub64 (st.mem blk).size real ∧
        st2.g_free_list_head = add64 (add64 blk user_data_offset) real ∧
        Seg st2.mem st2.g_free_list_head (add64 (add64 blk user_data_offset) real :: l) 0 ∧
        (l.Nodup → PrevOK st.mem l →
          PrevOK st2.mem (add64 (add64 blk user_data_offset) real :: l)) ∧
        0 < sub64 (st.mem blk).size (add64 blk_hdr_size real) ∧
        sub64 (st.mem blk).size (add64 blk_hdr_size real) ≤ OS_MEM_ALLOC_SIZE ∧
        add64 (add64 blk user_data_offset) real ≠ 0 ∧
        (∀ x, (st2.mem x).size = (trim_mem st.mem blk real x).size) ∧
        (∀ x, (st2.mem x).magic = (trim_mem st.mem blk real x).magic))) := by
  intro p st2 hok
  unfold carve at hok
  split at hok
  · rename_i h1
    simp only [Res.ok.injEq, Prod.mk.injEq] at hok
    obtain ⟨rfl, rfl⟩ := hok
    exact ⟨rfl, rfl, rfl, rfl, Or.inl ⟨rfl, h1⟩⟩
  · rename_i h1
    split at hok
    · simp at hok
    · rename_i h2
      split at hok
      · rename_i h3
        have hfb := hfb (by omega) h3.1 h3.2
        have hs2 : Seg (trim_mem st.mem blk real) st.g_free_list_head l 0 := by
          refine Seg.congr_next ?_ hs
          intro a ha
          rw [trim_mem_next, if_neg]
          rintro rfl
          exact hfb ha
        obtain ⟨st4, h4, h5, h6, h7, hsz, hmg, _, h8, h9, h10⟩ := free_list_add_spec fuel
          { st with mem := trim_mem st.mem blk real } _ l h2 hs2 hfb
        rw [h4] at hok
        simp only [Res.ok_bind, Res.ok.injEq, Prod.mk.injEq] at hok
        obtain ⟨rfl, rfl⟩ := hok
        refine ⟨rfl, h9, h10, h8, Or.inr ⟨by omega, h5, by rw [h5]; exact h6, ?_,
          h3.1, h3.2, h2, hsz, hmg⟩⟩
        intro hnd hp
        refine h7 hnd (PrevOK.congr_prev ?_ hp)
        intro a ha
        show (trim_mem st.mem blk real a).prev = _
        rw [trim_mem_prev, if_neg]
        rintro rfl
        exact hfb (List.mem_of_mem_tail ha)
      · simp at hok

/-! ## `pm_malloc` as a whole -/

theorem pm_malloc_hit (fuel : Nat) (st : State) (size : Nat) (pre : List Nat) (b : Nat)
    (post : List Nat) (hpos : 0 < size)
    (hs : Seg st.mem st.g_free_list_head (pre ++ b :: post) 0) (hfuel : pre.length < fuel)
    (hpre : ∀ x ∈ pre, (st.mem x).size < add64 size blk_hdr_size)
    (hb : add64 size blk_hdr_size ≤ (st.mem b).size) :
    pm_malloc fuel st size = pm_malloc_reuse fuel st b (add64 size blk_hdr_size) := by
  obtain ⟨x, hx1, hx2⟩ := Seg.split hs
  have hxb : x = b := hx2.1
  subst hxb
  obtain ⟨k, hk⟩ : ∃ k, fuel = pre.length + (k + 1) := ⟨fuel - pre.length - 1, by omega⟩
  have h0 : ¬ size ≤ 0 := by omega
  unfold pm_malloc
  rw [if_neg h0]
  show pm_malloc_scan fuel st _ fuel _ = _
  conv_lhs => arg 4; rw [hk]
  rw [pm_malloc_scan_skip fuel st _ pre (k + 1) _ _ hx1 hpre]
  exact pm_malloc_scan_hit fuel st _ k x hx2.2.1 hb

theorem pm_malloc_miss (fuel : Nat) (st : State) (size : Nat) (l : List Nat) (hpos : 0 < size)
    (hs : Seg st.mem st.g_free_list_head l 0) (hfuel : l.length < fuel)
    (hl : ∀ x ∈ l, (st.mem x).size < add64 size blk_hdr_size) :
    pm_malloc fuel st size = pm_malloc_fresh fuel st (add64 size blk_hdr_size) := by
  obtain ⟨k, hk⟩ : ∃ k, fuel = l.length + (k + 1) := ⟨fuel - l.length - 1, by omega⟩
  have h0 : ¬ size ≤ 0 := by omega
  unfold pm_malloc
  rw [if_neg h0]
  show pm_malloc_scan fuel st _ fuel _ = _
  conv_lhs => arg 4; rw [hk]
  rw [pm_malloc_scan_skip fuel st _ l (k + 1) _ _ hs hl]
  exact pm_malloc_scan_end fuel st _ k

theorem chunk_mem_size (m : Mem) (a : Nat) :
    (chunk_mem m a a).size = sub64 OS_MEM_ALLOC_SIZE blk_hdr_size := by
  simp [chunk_mem]

theorem chunk_mem_prev (m : Mem) (a x : Nat) :
    (chunk_mem m a x).prev = if x = a then 0 else (m x).prev := by
  simp [chunk_mem]

theorem large_mem_next (m : Mem) (a r x : Nat) :
    (large_mem m a r x).next = if x = a then 0 else (m x).next := by
  simp [large_mem]

theorem large_mem_prev (m : Mem) (a r x : Nat) :
    (large_mem m a r x).prev = if x = a then 0 else (m x).prev := by
  simp [large_mem]

theorem large_mem_other (m : Mem) (a r x : Nat) (h : x ≠ a) : large_mem m a r x = m x := by
  simp [large_mem, write_size, write_magic, write_prev, write_next, h]

theorem pm_malloc_fresh_os (fuel : Nat) (st : State) (real p : Nat) (st2 : State)
    (hok : pm_malloc_fresh fuel st real = Res.ok (p, st2)) :
    st.os_brk ≠ 0 ∧
    st.os_brk + (if real > OS_MEM_ALLOC_SIZE then real else OS_MEM_ALLOC_SIZE) ≤ SIZE_MOD := by
  unfold pm_malloc_fresh at hok
  by_cases hbig : real > OS_MEM_ALLOC_SIZE
  · rw [if_pos hbig, get_mem_from_os_eq] at hok
    rw [if_pos hbig]
    by_cases h1 : st.os_brk + real ≤ SIZE_MOD
    · by_cases h2 : st.os_brk ≠ 0
      · exact ⟨h2, h1⟩
      · simp [h1, h2] at hok
    · simp [h1] at hok
  · rw [if_neg hbig, get_mem_from_os_eq] at hok
    rw [if_neg hbig]
    by_cases h1 : st.os_brk + OS_MEM_ALLOC_SIZE ≤ SIZE_MOD
    · by_cases h2 : st.os_brk ≠ 0
      · exact ⟨h2, h1⟩
      · simp [h1, h2] at hok
    · simp [h1] at hok

theorem pm_malloc_fresh_no_timeout (fuel : Nat) (st : State) (real : Nat) :
    pm_malloc_fresh fuel st real ≠ Res.timeout := by
  by_cases hbig : real > OS_MEM_ALLOC_SIZE
  · by_cases h1 : st.os_brk + real ≤ SIZE_MOD
    · by_cases h2 : st.os_brk ≠ 0
      · rw [pm_malloc_fresh_large fuel st real hbig h2 h1]
        exact fun h => Res.noConfusion h
      · unfold pm_malloc_fresh
        rw [if_pos hbig, get_mem_from_os_eq, if_pos h1, if_neg h2]
        exact fun h => Res.noConfusion h
    · unfold pm_malloc_fresh
      rw [if_pos hbig, get_mem_from_os_eq, if_neg h1]
      exact fun h => Res.noConfusion h
  · by_cases h1 : st.os_brk + OS_MEM_ALLOC_SIZE ≤ SIZE_MOD
    · by_cases h2 : st.os_brk ≠ 0
      · rw [pm_malloc_fresh_chunk fuel st real hbig h2 h1]
        exact carve_no_timeout fuel _ _ _
      · unfold pm_malloc_fresh
        rw [if_neg hbig, get_mem_from_os_eq, if_pos h1, if_neg h2]
        exact fun h => Res.noConfusion h
    · unfold pm_malloc_fresh
      rw [if_neg hbig, get_mem_from_os_eq, if_neg h1]
      exact fun h => Res.noConfusion h

theorem pm_free_null_header (fuel : Nat) (st : State) (p : Nat) (hp : p ≠ 0)
    (hb : sub64 p blk_hdr_size = 0) : pm_free fuel st p = Res.segv := by
  unfold pm_free user_data_to_blk
  rw [if_neg hp, c_assert_true hp, Res.ok_bind, Res.pure_eq, Res.ok_bind]
  rw [if_pos hb]

theorem pm_free_bad_magic (fuel : Nat) (st : State) (p : Nat) (hp : p ≠ 0)
    (hb : sub64 p blk_hdr_size ≠ 0)
    (hm : (st.mem (sub64 p blk_hdr_size)).magic ≠ PM_MAGIC) :
    pm_free fuel st p = Res.abort := by
  unfold pm_free user_data_to_blk
  rw [if_neg hp, c_assert_true hp, Res.ok_bind, Res.pure_eq, Res.ok_bind]
  rw [if_neg hb, c_assert_false hm, Res.abort_bind]

theorem pm_free_good_magic (fuel : Nat) (st : State) (p : Nat) (hp : p ≠ 0)
    (hb : sub64 p blk_hdr_size ≠ 0)
    (hm : (st.mem (sub64 p blk_hdr_size)).magic = PM_MAGIC) :
    pm_free fuel st p = free_list_op fuel st (sub64 p blk_hdr_size) FREE_LIST_OP.ADD := by
  unfold pm_free user_data_to_blk
  rw [if_neg hp, c_assert_true hp, Res.ok_bind, Res.pure_eq, Res.ok_bind]
  rw [if_neg hb, c_assert_true hm, Res.ok_bind]

theorem pm_free_null (fuel : Nat) (st : State) : pm_free fuel st 0 = Res.ok st := by
  unfold pm_free
  rw [if_pos rfl]

/-! ## The invariant of disciplined use -/

theorem Spatial.mono {st st2 : State} {S S2 : List Nat} (h : Spatial st S)
    (hsub : ∀ x ∈ S2, x ∈ S) (hsz : ∀ x ∈ S2, (st2.mem x).size = (st.mem x).size)
    (hmg : ∀ x ∈ S2, (st2.mem x).magic = (st.mem x).magic)
    (hbrk : st.os_brk ≤ st2.os_brk) (hreg : ∀ r ∈ st.regions, r ∈ st2.regions) :
    Spatial st2 S2 := by
  simp only [Spatial, blk_end, blk_hdr_size] at *
  constructor
  · intro x hx
    obtain ⟨h1, h2, h3, h4, r, h5, h6⟩ := h.1 x (hsub x hx)
    rw [hsz x hx, hmg x hx]
    exact ⟨h1, h2, h3, by omega, r, hreg r h5, h6⟩
  · intro x hx y hy hxy
    have := h.2 x (hsub x hx) y (hsub y hy) hxy
    rw [hsz x hx]
    exact this

theorem Spatial.lt_brk {st : State} {S : List Nat} (h : Spatial st S) {x : Nat} (hx : x ∈ S) :
    x < st.os_brk := by
  simp only [Spatial, blk_end, blk_hdr_size] at h
  obtain ⟨_, _, h3, h4, _⟩ := h.1 x hx
  omega

theorem Spatial.split_block {st st2 : State} {S : List Nat} {b fb size : Nat}
    (h : Spatial st S) (hb : b ∈ S) (hpos : 0 < size)
    (hfb : fb = b + user_data_offset + (size + blk_hdr_size))
    (hroom : size + blk_hdr_size + blk_hdr_size + 1 ≤ (st.mem b).size)
    (hszb : (st2.mem b).size = size)
    (hszf : (st2.mem fb).size = (st.mem b).size - blk_hdr_size - (size + blk_hdr_size))
    (hsz : ∀ x, x ≠ b → x ≠ fb → (st2.mem x).size = (st.mem x).size)
    (hmgb : (st2.mem b).magic = PM_MAGIC) (hmgf : (st2.mem fb).magic = PM_MAGIC)
    (hmg : ∀ x, x ≠ b → x ≠ fb → (st2.mem x).magic = (st.mem x).magic)
    (hbrk : st2.os_brk = st.os_brk) (hreg : st2.regions = st.regions) :
    fb ∉ S ∧ fb ≠ b ∧ Spatial st2 (fb :: S) := by
  simp only [Spatial, blk_end, blk_hdr_size, user_data_offset] at *
  obtain ⟨hb1, hb2, hb3, hb4, rb, hb5, hb6⟩ := h.1 b hb
  have hbf : b < fb := by omega
  have hfe : fb + 32 + (st2.mem fb).size ≤ b + 32 + (st.mem b).size := by omega
  have hbe : b + 32 + (st2.mem b).size ≤ fb := by omega
  have hfp : 0 < (st2.mem fb).size := by omega
  have key : ∀ y ∈ S, y ≠ b →
      (y < b ∧ y + 32 + (st.mem y).size ≤ b) ∨ (fb < y ∧ b + 32 + (st.mem b).size ≤ y) := by
    intro y hy hyb
    rcases Nat.lt_or_gt_of_ne hyb with hlt | hgt
    · exact Or.inl ⟨hlt, h.2 y hy b hb hlt⟩
    · have := h.2 b hb y hy hgt
      exact Or.inr ⟨by omega, this⟩
  have hnot : fb ∉ S := by
    intro hm
    rcases key fb hm (by omega) with h1 | h1 <;> omega
  have hsx : ∀ x ∈ S, x ≠ b → (st2.mem x).size = (st.mem x).size :=
    fun x hm hne => hsz x hne (fun hh => hnot (hh ▸ hm))
  refine ⟨hnot, by omega, ?_, ?_⟩
  · intro x hx
    rcases List.mem_cons.1 hx with hxe | hx
    · subst hxe
      exact ⟨by omega, hmgf, hfp, by omega, rb, hreg ▸ hb5, by omega⟩
    · by_cases hxb : x = b
      · subst hxb
        exact ⟨hb1, hmgb, by omega, by omega, rb, hreg ▸ hb5, by omega⟩
      · have hxf : x ≠ fb := fun hh => hnot (hh ▸ hx)
        obtain ⟨h1, h2, h3, h4, r, h5, h6⟩ := h.1 x hx
        rw [hsz x hxb hxf, hmg x hxb hxf]
        exact ⟨h1, h2, h3, by omega, r, hreg ▸ h5, h6⟩
  · intro x hx y hy hxy
    rcases List.mem_cons.1 hx with hxe | hxS
    · subst hxe
      rcases List.mem_cons.1 hy with hye | hyS
      · omega
      · by_cases hyb : y = b
        · omega
        · rcases key y hyS hyb with h1 | h1 <;> omega
    · rcases List.mem_cons.1 hy with hye | hyS
      · subst hye
        by_cases hxb : x = b
        · subst hxb
          omega
        · have := hsx x hxS hxb
          rcases key x hxS hxb with h1 | h1 <;> omega
      · by_cases hxb : x = b
        · subst hxb
          by_cases hyb : y = x
          · omega
          · rcases key y hyS hyb with h1 | h1 <;> omega
        · have h5 := hsx x hxS hxb
          have h6 := h.2 x hxS y hyS hxy
          omega

theorem Spatial.fresh_block {st st2 : State} {S : List Nat} {n k : Nat}
    (h : Spatial st S) (hos : st.os_brk ≠ 0) (hn : 0 < n)
    (hszb : (st2.mem st.os_brk).size = n) (hmgb : (st2.mem st.os_brk).magic = PM_MAGIC)
    (hsz : ∀ x, x ≠ st.os_brk → (st2.mem x).size = (st.mem x).size)
    (hmg : ∀ x, x ≠ st.os_brk → (st2.mem x).magic = (st.mem x).magic)
    (hbrk : st.os_brk + blk_hdr_size + n ≤ st2.os_brk) (hk : blk_hdr_size + n ≤ k)
    (hreg : st2.regions = st.regions ++ [(st.os_brk, k)]) :
    st.os_brk ∉ S ∧ Spatial st2 (st.os_brk :: S) := by
  have hlt : ∀ x ∈ S, x < st.os_brk := fun x hx => Spatial.lt_brk h hx
  have hnot : st.os_brk ∉ S := fun hm => Nat.lt_irrefl _ (hlt _ hm)
  simp only [Spatial, blk_end, blk_hdr_size] at *
  refine ⟨hnot, ?_, ?_⟩
  · intro x hx
    rcases List.mem_cons.1 hx with hxe | hx
    · subst hxe
      exact ⟨hos, hmgb, by omega, by omega, (st.os_brk, k), by rw [hreg]; simp, Nat.le_refl _,
        by show st.os_brk + 32 + (st2.mem st.os_brk).size ≤ st.os_brk + k; omega⟩
    · have hne : x ≠ st.os_brk := fun hh => hnot (hh ▸ hx)
      obtain ⟨h1, h2, h3, h4, r, h5, h6⟩ := h.1 x hx
      rw [hsz x hne, hmg x hne]
      exact ⟨h1, h2, h3, by omega, r, by rw [hreg]; exact List.mem_append_left _ h5, h6⟩
  · intro x hx y hy hxy
    rcases List.mem_cons.1 hx with hxe | hx
    · subst hxe
      rcases List.mem_cons.1 hy with hye | hy
      · omega
      · have := hlt y hy
        omega
    · have hne : x ≠ st.os_brk := fun hh => hnot (hh ▸ hx)
      obtain ⟨_, _, _, h4, _⟩ := h.1 x hx
      rw [hsz x hne]
      rcases List.mem_cons.1 hy with hye | hy
      · omega
      · exact h.2 x hx y hy hxy

theorem FreeList.congr_links {st st2 : State} {l : List Nat} (h : FreeList st l)
    (hh : st2.g_free_list_head = st.g_free_list_head)
    (hn : ∀ x ∈ l, (st2.mem x).next = (st.mem x).next)
    (hp : ∀ x ∈ l, (st2.mem x).prev = (st.mem x).prev) : FreeList st2 l := by
  refine ⟨?_, h.2.1, PrevOK.congr_prev (fun x hx => hp x (List.mem_of_mem_tail hx)) h.2.2⟩
  rw [hh]
  exact Seg.congr_next hn h.1

theorem Inv.init : Inv init [] [] := by
  refine ⟨by decide, List.nodup_nil, by simp, ?_, by decide, by decide, by decide⟩
  exact ⟨by simp, by simp⟩

theorem sub64_add_hdr (b : Nat) (h : b + blk_hdr_size < SIZE_MOD) :
    sub64 (b + blk_hdr_size) blk_hdr_size = b := by
  unfold sub64 SIZE_MOD blk_hdr_size at *
  omega

theorem Inv.block_facts {st : State} {l A : List Nat} (h : Inv st l A) {x : Nat}
    (hx : x ∈ l ++ A) :
    x ≠ 0 ∧ (st.mem x).magic = PM_MAGIC ∧ 0 < (st.mem x).size ∧
    x + blk_hdr_size + (st.mem x).size ≤ SIZE_MOD := by
  obtain ⟨h1, h2, h3, h4, _⟩ := h.spatial.1 x hx
  have := h.brk_le
  unfold blk_end at h4
  exact ⟨h1, h2, h3, by omega⟩

theorem pm_free_inv (fuel : Nat) (st : State) (l A : List Nat) (b : Nat)
    (hinv : Inv st l A) (hb : b ∈ A) :
    ∃ st2, pm_free fuel st (b + blk_hdr_size) = Res.ok st2 ∧ Inv st2 (b :: l) (A.erase b) ∧
      st2.os_brk = st.os_brk ∧ st2.regions = st.regions ∧
      (∀ x, (st2.mem x).size = (st.mem x).size) := by
  obtain ⟨hb0, hbm, hbp, hbe⟩ := hinv.block_facts (List.mem_append_right l hb)
  have hsub : sub64 (b + blk_hdr_size) blk_hdr_size = b := sub64_add_hdr b (by omega)
  have hp : b + blk_hdr_size ≠ 0 := by unfold blk_hdr_size; omega
  have hnot : b ∉ l := hinv.disj b hb
  obtain ⟨st2, h1, h2, h3, h4, h5, h6, _, _, h9, h10⟩ :=
    free_list_add_spec fuel st b l hb0 hinv.wf.1 hnot
  refine ⟨st2, ?_, ⟨⟨?_, ?_, ?_⟩, ?_, ?_, ?_, ?_, ?_, by rw [h10]; exact hinv.brk_pos⟩,
    h10, h9, h5⟩
  · rw [pm_free_good_magic fuel st _ hp (by rw [hsub]; exact hb0) (by rw [hsub]; exact hbm),
      hsub, h1]
  · rw [h2]; exact h3
  · exact List.nodup_cons.2 ⟨hnot, hinv.wf.2.1⟩
  · exact h4 hinv.wf.2.1 hinv.wf.2.2
  · exact hinv.nodupA.erase b
  · intro x hx hm
    have hxA : x ∈ A := List.mem_of_mem_erase hx
    rcases List.mem_cons.1 hm with hxb | hxl
    · exact ((List.Nodup.mem_erase_iff hinv.nodupA).1 hx).1 hxb
    · exact hinv.disj x hxA hxl
  · refine Spatial.mono hinv.spatial ?_ (fun x _ => h5 x) (fun x _ => h6 x) (by rw [h10])
      (fun r hr => h9 ▸ hr)
    intro x hx
    rcases List.mem_append.1 hx with hm | hm
    · rcases List.mem_cons.1 hm with hxb | hxl
      · exact hxb ▸ List.mem_append_right l hb
      · exact List.mem_append_left A hxl
    · exact List.mem_append_right l (List.mem_of_mem_erase hm)
  · rw [h10]; exact hinv.brk_le
  · rw [h10]; exact hinv.brk_al

theorem remove_inv (fuel : Nat) (st : State) (pre : List Nat) (b : Nat) (post A : List Nat)
    (hinv : Inv st (pre ++ b :: post) A) (hfuel : pre.length < fuel) :
    ∃ st1, free_list_op fuel st b FREE_LIST_OP.REMOVE = Res.ok st1 ∧
      Inv st1 (pre ++ post) (b :: A) ∧ (∀ x, (st1.mem x).size = (st.mem x).size) ∧
      st1.os_brk = st.os_brk ∧ st1.regions = st.regions ∧
      st1.g_reuse_count = st.g_reuse_count := by
  obtain ⟨st1, h1, h2, h3, h4, _, h6, h7, h8⟩ :=
    free_list_remove_spec fuel st pre b post hinv.wf hfuel
  have hbl : b ∈ pre ++ b :: post := by simp
  have hnd := List.nodup_append.1 hinv.wf.2.1
  have hb1 : b ∉ pre := fun hm => hnd.2.2 hm (by simp)
  have hb2 : b ∉ post := (List.nodup_cons.1 hnd.2.1).1
  refine ⟨st1, h1, ⟨h2, ?_, ?_, ?_, by rw [h8]; exact hinv.brk_le,
    by rw [h8]; exact hinv.brk_al, by rw [h8]; exact hinv.brk_pos⟩, h3, h8, h7, h6⟩
  · exact List.nodup_cons.2 ⟨fun hm => hinv.disj b hm hbl, hinv.nodupA⟩
  · intro x hx hm
    rcases List.mem_cons.1 hx with hxb | hxA
    · subst hxb
      rcases List.mem_append.1 hm with h | h
      · exact hb1 h
      · exact hb2 h
    · refine hinv.disj x hxA ?_
      rcases List.mem_append.1 hm with h | h
      · exact List.mem_append_left _ h
      · exact List.mem_append_right _ (List.mem_cons_of_mem _ h)
  · refine Spatial.mono hinv.spatial ?_ (fun x _ => h3 x) (fun x _ => h4 x) (by rw [h8])
      (fun r hr => h7 ▸ hr)
    intro x hx
    simp only [List.mem_append, List.mem_cons] at hx ⊢
    tauto

theorem carve_arith (b sb size : Nat) (hb : b + blk_hdr_size + sb ≤ SIZE_MOD)
    (hsz : size + blk_hdr_size < SIZE_MOD) (hle : size + blk_hdr_size ≤ sb + blk_hdr_size) :
    (sub64 sb (size + blk_hdr_size) < blk_hdr_size + 1 → size + blk_hdr_size ≤ sb) ∧
    (blk_hdr_size + 1 ≤ sub64 sb (size + blk_hdr_size) →
      sub64 sb (add64 blk_hdr_size (size + blk_hdr_size)) ≤ OS_MEM_ALLOC_SIZE →
      size + blk_hdr_size + blk_hdr_size + 1 ≤ sb ∧
      sub64 sb (add64 blk_hdr_size (size + blk_hdr_size))
        = sb - blk_hdr_size - (size + blk_hdr_size) ∧
      add64 (add64 b user_data_offset) (size + blk_hdr_size)
        = b + user_data_offset + (size + blk_hdr_size) ∧
      sub64 (size + blk_hdr_size) blk_hdr_size = size) := by
  unfold add64 sub64 SIZE_MOD OS_MEM_ALLOC_SIZE blk_hdr_size user_data_offset at *
  omega

theorem carve_inv (fuel : Nat) (st : State) (l A : List Nat) (b size : Nat)
    (hinv : Inv st l (b :: A)) (hpos : 0 < size) (hsz : size + blk_hdr_size < SIZE_MOD)
    (hle : size + blk_hdr_size ≤ (st.mem b).size + blk_hdr_size) (p : Nat) (st2 : State)
    (hok : carve fuel st b (size + blk_hdr_size) = Res.ok (p, st2)) :
    ∃ r, r.length ≤ 1 ∧ Inv st2 (r ++ l) (b :: A) ∧ p = b + blk_hdr_size ∧
      size ≤ (st2.mem b).size ∧ st2.os_brk = st.os_brk ∧ st2.regions = st.regions ∧
      st2.g_reuse_count = st.g_reuse_count ∧
      ∀ x, (st2.mem x).size ≤ (st.mem x).size ∨ (st2.mem x).size ≤ (st.mem b).size := by
  have hbS : b ∈ l ++ b :: A := by simp
  obtain ⟨hb0, hbm, hbp, hbe⟩ := hinv.block_facts hbS
  obtain ⟨ha1, ha2⟩ := carve_arith b (st.mem b).size size hbe hsz hle
  have hptr : add64 b blk_hdr_size = b + blk_hdr_size := by
    unfold add64 SIZE_MOD blk_hdr_size at *
    omega
  have hsplit : blk_hdr_size + 1 ≤ sub64 (st.mem b).size (size + blk_hdr_size) →
      sub64 (st.mem b).size (add64 blk_hdr_size (size + blk_hdr_size)) ≤ OS_MEM_ALLOC_SIZE →
      add64 (add64 b user_data_offset) (size + blk_hdr_size) ∉ l ++ b :: A ∧
      add64 (add64 b user_data_offset) (size + blk_hdr_size) ≠ b ∧
      Spatial { st with mem := trim_mem st.mem b (size + blk_hdr_size) }
        (add64 (add64 b user_data_offset) (size + blk_hdr_size) :: (l ++ b :: A)) := by
    intro c1 c3
    obtain ⟨a1, a2, a3, a4⟩ := ha2 c1 c3
    have hne : add64 (add64 b user_data_offset) (size + blk_hdr_size) ≠ b := by
      rw [a3]; unfold user_data_offset; omega
    refine Spatial.split_block hinv.spatial hbS hpos a3 a1 ?_ ?_ ?_ ?_ ?_ ?_ rfl rfl
    · show (trim_mem st.mem b (size + blk_hdr_size) b).size = size
      rw [trim_mem_size, if_pos rfl, a4]
    · show (trim_mem st.mem b (size + blk_hdr_size) _).size = _
      rw [trim_mem_size, if_neg hne, if_pos rfl, a2]
    · intro x hx1 hx2
      show (trim_mem st.mem b (size + blk_hdr_size) x).size = _
      rw [trim_mem_size, if_neg hx1, if_neg hx2]
    · show (trim_mem st.mem b (size + blk_hdr_size) b).magic = _
      rw [trim_mem_magic, if_neg (Ne.symm hne), if_pos rfl]
    · show (trim_mem st.mem b (size + blk_hdr_size) _).magic = _
      rw [trim_mem_magic, if_pos rfl]
    · intro x hx1 hx2
      show (trim_mem st.mem b (size + blk_hdr_size) x).magic = _
      rw [trim_mem_magic, if_neg hx2, if_neg hx1]
  obtain ⟨h1, h2, h3, h4, h5⟩ := carve_spec fuel st b (size + blk_hdr_size) l hinv.wf.1
    (fun c1 _ c3 hm => (hsplit c1 c3).1 (List.mem_append_left _ hm)) p st2 hok
  rw [hptr] at h1
  rcases h5 with ⟨rfl, hc⟩ | ⟨c1, c2, c4, c5, _, c3, _, c7, c8⟩
  · exact ⟨[], by simp, hinv, h1, by have := ha1 hc; omega, rfl, rfl, rfl,
      fun x => Or.inl (Nat.le_refl _)⟩
  · obtain ⟨a1, a2, a3, a4⟩ := ha2 c1 c3
    obtain ⟨s1, s2, s3⟩ := hsplit c1 c3
    have hfl : add64 (add64 b user_data_offset) (size + blk_hdr_size) ∉ l :=
      fun hm => s1 (List.mem_append_left _ hm)
    refine ⟨[add64 (add64 b user_data_offset) (size + blk_hdr_size)], by simp,
      ⟨⟨c4, List.nodup_cons.2 ⟨hfl, hinv.wf.2.1⟩, c5 hinv.wf.2.1 hinv.wf.2.2⟩, hinv.nodupA,
        ?_, ?_, by rw [h3]; exact hinv.brk_le, by rw [h3]; exact hinv.brk_al,
        by rw [h3]; exact hinv.brk_pos⟩,
      h1, ?_, h3, h2, h4, ?_⟩
    · intro x hx hm
      rcases List.mem_cons.1 hm with hxf | hxl
      · exact s1 (hxf ▸ List.mem_append_right _ hx)
      · exact hinv.disj x hx hxl
    · refine Spatial.mono s3 ?_ (fun x _ => c7 x) (fun x _ => c8 x) (by rw [h3])
        (fun r hr => h2 ▸ hr)
      intro x hx
      rcases List.mem_append.1 hx with hm | hm
      · rcases List.mem_cons.1 hm with h | h
        · exact h ▸ List.mem_cons_self _ _
        · exact List.mem_cons_of_mem _ (List.mem_append_left _ h)
      · exact List.mem_cons_of_mem _ (List.mem_append_right _ hm)
    · rw [c7, trim_mem_size, if_pos rfl, a4]
    · intro x
      rw [c7, trim_mem_size]
      by_cases hxb : x = b
      · rw [if_pos hxb, a4]
        exact Or.inr (by unfold blk_hdr_size at a1; omega)
      · rw [if_neg hxb]
        by_cases hxf : x = add64 (add64 b user_data_offset) (size + blk_hdr_size)
        · rw [if_pos hxf, a2]
          exact Or.inr (by omega)
        · rw [if_neg hxf]
          exact Or.inl (Nat.le_refl _)

theorem chunk_mem_other (m : Mem) (a x : Nat) (h : x ≠ a) : chunk_mem m a x = m x := by
  simp [chunk_mem, write_size, write_magic, write_prev, write_next, h]

theorem chunk_mem_magic (m : Mem) (a : Nat) : (chunk_mem m a a).magic = PM_MAGIC := by
  simp [chunk_mem]

theorem large_mem_size (m : Mem) (a r : Nat) :
    (large_mem m a r a).size = sub64 r blk_hdr_size := by
  simp [large_mem]

theorem large_mem_magic (m : Mem) (a r : Nat) : (large_mem m a r a).magic = PM_MAGIC := by
  simp [large_mem]

theorem page_round_facts (brk n : Nat) (hal : brk % 4096 = 0) (hle : brk + n ≤ SIZE_MOD) :
    n ≤ page_round n ∧ brk + page_round n ≤ SIZE_MOD ∧ (brk + page_round n) % 4096 = 0 := by
  unfold page_round SIZE_MOD at *
  omega

theorem fresh_block_inv {st st2 : State} {l A : List Nat} {n k : Nat} (hinv : Inv st l A)
    (hos : st.os_brk ≠ 0) (hn : 0 < n) (hk : blk_hdr_size + n ≤ k)
    (hroom : st.os_brk + k ≤ SIZE_MOD)
    (hhead : st2.g_free_list_head = st.g_free_list_head)
    (hbrk : st2.os_brk = st.os_brk + page_round k)
    (hreg : st2.regions = st.regions ++ [(st.os_brk, k)])
    (hszb : (st2.mem st.os_brk).size = n) (hmgb : (st2.mem st.os_brk).magic = PM_MAGIC)
    (hmem : ∀ x, x ≠ st.os_brk → st2.mem x = st.mem x) :
    Inv st2 l (st.os_brk :: A) := by
  obtain ⟨p1, p2, p3⟩ := page_round_facts st.os_brk k hinv.brk_al hroom
  obtain ⟨hnot, hsp⟩ := Spatial.fresh_block hinv.spatial hos hn hszb hmgb
    (fun x hx => by rw [hmem x hx]) (fun x hx => by rw [hmem x hx])
    (by rw [hbrk]; unfold blk_hdr_size at *; omega) hk hreg
  have hne : ∀ x ∈ l, x ≠ st.os_brk :=
    fun x hx hh => hnot (hh ▸ List.mem_append_left A hx)
  refine ⟨?_, ?_, ?_, ?_, by rw [hbrk]; exact p2, by rw [hbrk]; exact p3,
    by rw [hbrk]; omega⟩
  · exact FreeList.congr_links hinv.wf hhead (fun x hx => by rw [hmem x (hne x hx)])
      (fun x hx => by rw [hmem x (hne x hx)])
  · exact List.nodup_cons.2 ⟨fun hm => hnot (List.mem_append_right l hm), hinv.nodupA⟩
  · intro x hx hm
    rcases List.mem_cons.1 hx with hxe | hxA
    · exact hne x hm hxe
    · exact hinv.disj x hxA hm
  · refine Spatial.mono hsp ?_ (fun _ _ => rfl) (fun _ _ => rfl) (Nat.le_refl _)
      (fun _ hr => hr)
    intro x hx
    rcases List.mem_append.1 hx with hm | hm
    · exact List.mem_cons_of_mem _ (List.mem_append_left _ hm)
    · rcases List.mem_cons.1 hm with h | h
      · exact h ▸ List.mem_cons_self _ _
      · exact List.mem_cons_of_mem _ (List.mem_append_right _ h)

theorem fresh_inv (fuel : Nat) (st : State) (l A : List Nat) (size : Nat) (hinv : Inv st l A)
    (hpos : 0 < size) (hsz : size + blk_hdr_size < SIZE_MOD) (p : Nat) (st2 : State)
    (hok : pm_malloc_fresh fuel st (size + blk_hdr_size) = Res.ok (p, st2)) :
    ∃ r, r.length ≤ 1 ∧ Inv st2 (r ++ l) (st.os_brk :: A) ∧ p = st.os_brk + blk_hdr_size ∧
      size ≤ (st2.mem st.os_brk).size ∧ st2.g_reuse_count = st.g_reuse_count ∧
      st2.os_brk = st.os_brk + page_round
        (if size + blk_hdr_size > OS_MEM_ALLOC_SIZE then size + blk_hdr_size
          else OS_MEM_ALLOC_SIZE) ∧
      ∀ x, (st2.mem x).size ≤ (st.mem x).size ∨
        (st2.mem x).size ≤ OS_MEM_ALLOC_SIZE - blk_hdr_size ∨ (st2.mem x).size ≤ size := by
  obtain ⟨hos, hroom⟩ := pm_malloc_fresh_os fuel st _ p st2 hok
  by_cases hbig : size + blk_hdr_size > OS_MEM_ALLOC_SIZE
  · rw [if_pos hbig] at hroom
    rw [pm_malloc_fresh_large fuel st _ hbig hos hroom] at hok
    simp only [Res.ok.injEq, Prod.mk.injEq] at hok
    obtain ⟨rfl, rfl⟩ := hok
    have hsub : sub64 (size + blk_hdr_size) blk_hdr_size = size := by
      unfold sub64 SIZE_MOD blk_hdr_size at *
      omega
    have hptr : add64 st.os_brk blk_hdr_size = st.os_brk + blk_hdr_size := by
      unfold add64 SIZE_MOD blk_hdr_size at *
      omega
    refine ⟨[], by simp, ?_, hptr, ?_, rfl, by rw [if_pos hbig], ?_⟩
    · refine fresh_block_inv hinv hos hpos (by omega) hroom rfl rfl rfl ?_ ?_ ?_
      · show (large_mem st.mem st.os_brk _ st.os_brk).size = size
        rw [large_mem_size, hsub]
      · exact large_mem_magic _ _ _
      · exact fun x hx => large_mem_other _ _ _ _ hx
    · show size ≤ (large_mem st.mem st.os_brk _ st.os_brk).size
      rw [large_mem_size, hsub]
    · intro x
      show (large_mem st.mem st.os_brk _ x).size ≤ _ ∨ _
      by_cases hx : x = st.os_brk
      · rw [hx, large_mem_size, hsub]
        exact Or.inr (Or.inr (Nat.le_refl _))
      · rw [large_mem_other _ _ _ _ hx]
        exact Or.inl (Nat.le_refl _)
  · rw [if_neg hbig] at hroom
    rw [pm_malloc_fresh_chunk fuel st _ hbig hos hroom] at hok
    have hsub : sub64 OS_MEM_ALLOC_SIZE blk_hdr_size = OS_MEM_ALLOC_SIZE - blk_hdr_size := by
      decide
    have hinv2 : Inv { st with os_brk := st.os_brk + page_round OS_MEM_ALLOC_SIZE,
                               regions := st.regions ++ [(st.os_brk, OS_MEM_ALLOC_SIZE)],
                               mem := chunk_mem st.mem st.os_brk } l (st.os_brk :: A) := by
      refine fresh_block_inv (n := OS_MEM_ALLOC_SIZE - blk_hdr_size) hinv hos ?_ ?_ hroom
        rfl rfl rfl ?_ ?_ ?_
      · decide
      · decide
      · show (chunk_mem st.mem st.os_brk st.os_brk).size = _
        rw [chunk_mem_size, hsub]
      · exact chunk_mem_magic _ _
      · exact fun x hx => chunk_mem_other _ _ _ hx
    obtain ⟨r, h1, h2, h3, h4, h5, _, h7, h8⟩ := carve_inv fuel _ l A st.os_brk size hinv2
      hpos hsz
      (by
        show size + blk_hdr_size ≤ (chunk_mem st.mem st.os_brk st.os_brk).size + blk_hdr_size
        rw [chunk_mem_size, hsub]
        unfold OS_MEM_ALLOC_SIZE blk_hdr_size at *
        omega) p st2 hok
    refine ⟨r, h1, h2, h3, h4, h7, by rw [h5, if_neg hbig], ?_⟩
    intro x
    have hc : (chunk_mem st.mem st.os_brk st.os_brk).size = OS_MEM_ALLOC_SIZE - blk_hdr_size := by
      rw [chunk_mem_size, hsub]
    rcases h8 x with h | h
    · by_cases hx : x = st.os_brk
      · rw [hx] at h ⊢
        exact Or.inr (Or.inl (hc ▸ h))
      · exact Or.inl (by
          have e : (chunk_mem st.mem st.os_brk x) = st.mem x := chunk_mem_other _ _ _ hx
          exact e ▸ h)
    · exact Or.inr (Or.inl (hc ▸ h))

theorem first_fit_cases (m : Mem) (real : Nat) : ∀ (l : List Nat),
    (∃ pre b post, l = pre ++ b :: post ∧ (∀ x ∈ pre, (m x).size < real) ∧
      real ≤ (m b).size) ∨ (∀ x ∈ l, (m x).size < real)
  | [] => Or.inr (by simp)
  | a :: t => by
    by_cases ha : real ≤ (m a).size
    · exact Or.inl ⟨[], a, t, rfl, by simp, ha⟩
    · rcases first_fit_cases m real t with ⟨pre, b, post, h1, h2, h3⟩ | h
      · refine Or.inl ⟨a :: pre, b, post, by rw [h1]; rfl, ?_, h3⟩
        intro x hx
        rcases List.mem_cons.1 hx with hxa | hxp
        · rw [hxa]; omega
        · exact h2 x hxp
      · refine Or.inr ?_
        intro x hx
        rcases List.mem_cons.1 hx with hxa | hxt
        · rw [hxa]; omega
        · exact h x hxt

theorem Inv.reuse_count {st : State} {l A : List Nat} (h : Inv st l A) (c : Int) :
    Inv { st with g_reuse_count := c } l A :=
  ⟨h.wf, h.nodupA, h.disj, h.spatial, h.brk_le, h.brk_al, h.brk_pos⟩

theorem add64_hdr (size : Nat) (hsz : size + blk_hdr_size < SIZE_MOD) :
    add64 size blk_hdr_size = size + blk_hdr_size := by
  unfold add64
  exact Nat.mod_eq_of_lt hsz

theorem pm_malloc_inv (fuel : Nat) (st : State) (l A : List Nat) (size : Nat)
    (hinv : Inv st l A) (hpos : 0 < size) (hsz : size + blk_hdr_size < SIZE_MOD)
    (hfuel : l.length < fuel) (p : Nat) (st2 : State)
    (hok : pm_malloc fuel st size = Res.ok (p, st2)) :
    ∃ b l2, p = b + blk_hdr_size ∧ Inv st2 l2 (b :: A) ∧ size ≤ (st2.mem b).size ∧
      ((∃ pre post r, l = pre ++ b :: post ∧
          (∀ x ∈ pre, (st.mem x).size < size + blk_hdr_size) ∧
          size + blk_hdr_size ≤ (st.mem b).size ∧ r.length ≤ 1 ∧ l2 = r ++ (pre ++ post)) ∨
        ((∀ x ∈ l, (st.mem x).size < size + blk_hdr_size) ∧ b = st.os_brk ∧
          ∃ r, r.length ≤ 1 ∧ l2 = r ++ l)) ∧
      st.os_brk ≤ st2.os_brk ∧
      st2.os_brk ≤ st.os_brk + page_round
        (if size + blk_hdr_size > OS_MEM_ALLOC_SIZE then size + blk_hdr_size
          else OS_MEM_ALLOC_SIZE) ∧
      ∀ M, OS_MEM_ALLOC_SIZE - blk_hdr_size ≤ M → size ≤ M → (∀ x, (st.mem x).size ≤ M) →
        ∀ x, (st2.mem x).size ≤ M := by
  have hreal := add64_hdr size hsz
  rcases first_fit_cases st.mem (size + blk_hdr_size) l with ⟨pre, b, post, h1, h2, h3⟩ | hmiss
  · subst h1
    have hfuel2 : pre.length < fuel := by
      simp only [List.length_append, List.length_cons] at hfuel
      omega
    have hb0 : b ≠ 0 := Seg.ne_zero hinv.wf.1 b (by simp)
    rw [pm_malloc_hit fuel st size pre b post hpos hinv.wf.1 hfuel2 (by rw [hreal]; exact h2)
      (by rw [hreal]; exact h3), hreal] at hok
    obtain ⟨st1, hrm, hinv1, hsz1, hbrk1, _, _⟩ := remove_inv fuel st pre b post A hinv hfuel2
    by_cases hex : (st.mem b).size = size + blk_hdr_size
    · rw [pm_malloc_reuse_exact fuel st st1 b _ hb0 hex hrm] at hok
      simp only [Res.ok.injEq, Prod.mk.injEq] at hok
      obtain ⟨rfl, rfl⟩ := hok
      have hptr : add64 b blk_hdr_size = b + blk_hdr_size := by
        obtain ⟨_, _, _, hbe⟩ := hinv1.block_facts (x := b) (by simp)
        unfold add64 SIZE_MOD blk_hdr_size at *
        omega
      refine ⟨b, pre ++ post, hptr, hinv1.reuse_count _, ?_,
        Or.inl ⟨pre, post, [], rfl, h2, h3, by simp, rfl⟩, ?_, ?_, ?_⟩
      · show size ≤ (st1.mem b).size
        rw [hsz1 b, hex]
        omega
      · show st.os_brk ≤ st1.os_brk
        rw [hbrk1]
      · show st1.os_brk ≤ _
        rw [hbrk1]
        omega
      · intro M _ _ hM x
        show (st1.mem x).size ≤ M
        rw [hsz1 x]
        exact hM x
    · rw [pm_malloc_reuse_split fuel st b _ hb0 hex, hrm, Res.ok_bind] at hok
      obtain ⟨r, c1, c2, c3, c4, c5, _, _, c8⟩ := carve_inv fuel _ (pre ++ post) A b size
        (hinv1.reuse_count (st1.g_reuse_count + 1)) hpos hsz
        (by
          show size + blk_hdr_size ≤ (st1.mem b).size + blk_hdr_size
          rw [hsz1 b]
          omega) p st2 hok
      have c5b : st2.os_brk = st.os_brk := by rw [c5]; exact hbrk1
      refine ⟨b, r ++ (pre ++ post), c3, c2, c4,
        Or.inl ⟨pre, post, r, rfl, h2, h3, c1, rfl⟩, by rw [c5b], by rw [c5b]; omega, ?_⟩
      intro M _ _ hM x
      have hx1 : ∀ y, (st1.mem y).size ≤ M := fun y => by rw [hsz1 y]; exact hM y
      rcases c8 x with h | h
      · exact Nat.le_trans h (hx1 x)
      · exact Nat.le_trans h (hx1 b)
  · rw [pm_malloc_miss fuel st size l hpos hinv.wf.1 hfuel (by rw [hreal]; exact hmiss),
      hreal] at hok
    obtain ⟨r, c1, c2, c3, c4, _, c6, c7⟩ := fresh_inv fuel st l A size hinv hpos hsz p st2 hok
    refine ⟨st.os_brk, r ++ l, c3, c2, c4, Or.inr ⟨hmiss, rfl, r, c1, rfl⟩, by rw [c6]; omega,
      by rw [c6], ?_⟩
    intro M hM1 hM2 hM x
    rcases c7 x with h | h | h
    · exact Nat.le_trans h (hM x)
    · exact Nat.le_trans h hM1
    · exact Nat.le_trans h hM2

/-! ## Runs of several calls -/

theorem malloc_all_cons_ok (fuel : Nat) (st : State) (s : Nat) (rest ps : List Nat)
    (st2 : State) (hok : malloc_all fuel st (s :: rest) = Res.ok (ps, st2)) :
    ∃ p st1 ps1, pm_malloc fuel st s = Res.ok (p, st1) ∧
      malloc_all fuel st1 rest = Res.ok (ps1, st2) ∧ ps = p :: ps1 := by
  rw [malloc_all] at hok
  cases hpm : pm_malloc fuel st s with
  | ok r =>
    obtain ⟨p, st1⟩ := r
    rw [hpm, Res.ok_bind] at hok
    dsimp only at hok
    cases hma : malloc_all fuel st1 rest with
    | ok r2 =>
      obtain ⟨ps1, st3⟩ := r2
      rw [hma, Res.ok_bind] at hok
      dsimp only at hok
      have h := Res.ok.inj hok
      have h1 : p :: ps1 = ps := congrArg Prod.fst h
      have h2 : st3 = st2 := congrArg Prod.snd h
      subst h2
      exact ⟨p, st1, ps1, rfl, hma, h1.symm⟩
    | abort => rw [hma] at hok; exact Res.noConfusion hok
    | segv => rw [hma] at hok; exact Res.noConfusion hok
    | timeout => rw [hma] at hok; exact Res.noConfusion hok
  | abort => rw [hpm] at hok; exact Res.noConfusion hok
  | segv => rw [hpm] at hok; exact Res.noConfusion hok
  | timeout => rw [hpm] at hok; exact Res.noConfusion hok

theorem malloc_all_inv (fuel : Nat) : ∀ (sizes : List Nat) (st : State) (l A : List Nat),
    Inv st l A → (∀ s ∈ sizes, 0 < s ∧ s + blk_hdr_size < SIZE_MOD) →
    l.length + sizes.length ≤ fuel → ∀ ps st2, malloc_all fuel st sizes = Res.ok (ps, st2) →
    ∃ (bs l2 : List Nat), ps = bs.map (fun b => b + blk_hdr_size) ∧
      bs.length = sizes.length ∧ Inv st2 l2 (bs.reverse ++ A) ∧
      l2.length ≤ l.length + sizes.length ∧ AllFirstFit fuel st sizes ps
  | [], st, l, A, hinv, _, _, ps, st2, hok => by
    rw [malloc_all] at hok
    have h := Res.ok.inj hok
    have h1 : [] = ps := congrArg Prod.fst h
    have h2 : st = st2 := congrArg Prod.snd h
    subst h1 h2
    exact ⟨[], l, rfl, rfl, by simpa using hinv, by simp, trivial⟩
  | s :: rest, st, l, A, hinv, hsz, hfuel, ps, st2, hok => by
    obtain ⟨p, st1, ps1, h1, h2, h3⟩ := malloc_all_cons_ok fuel st s rest ps st2 hok
    have hs := hsz s (by simp)
    have hlen : (s :: rest).length = rest.length + 1 := rfl
    obtain ⟨b, l1, hp, hinv1, _, hprov, _⟩ := pm_malloc_inv fuel st l A s hinv hs.1 hs.2
      (by omega) p st1 h1
    have hl1 : l1.length ≤ l.length + 1 := by
      rcases hprov with ⟨pre, post, r, e1, _, _, e2, e3⟩ | ⟨_, _, r, e2, e3⟩
      · rw [e3, e1]
        simp only [List.length_append, List.length_cons]
        omega
      · rw [e3]
        simp only [List.length_append]
        omega
    obtain ⟨bs, l2, e1, e2, e3, e4, e5⟩ := malloc_all_inv fuel rest st1 l1 (b :: A) hinv1
      (fun x hx => hsz x (List.mem_cons_of_mem _ hx)) (by omega) ps1 st2 h2
    refine ⟨b :: bs, l2, by rw [h3, e1, hp]; rfl, by simp [e2], ?_, by omega, ?_⟩
    · have : (b :: bs).reverse ++ A = bs.reverse ++ (b :: A) := by simp
      rw [this]
      exact e3
    · rw [h3]
      refine ⟨⟨l, hinv.wf, ?_⟩, st1, h1, e5⟩
      rcases hprov with ⟨pre, post, _, e1, e2, e3, _, _⟩ | ⟨e1, e2, _⟩
      · exact Or.inl ⟨pre, b, post, e1, e2, e3, hp⟩
      · exact Or.inr ⟨e1, by rw [hp, e2]⟩

theorem free_all_inv (fuel : Nat) : ∀ (bs : List Nat) (st : State) (l A : List Nat),
    Inv st l A → bs.Nodup → (∀ b ∈ bs, b ∈ A) →
    ∃ st2 A2, free_all fuel st (bs.map (fun b => b + blk_hdr_size)) = Res.ok st2 ∧
      Inv st2 (bs.reverse ++ l) A2 ∧ (∀ x, (st2.mem x).size = (st.mem x).size) ∧
      st2.os_brk = st.os_brk
  | [], st, l, A, hinv, _, _ => ⟨st, A, rfl, by simpa using hinv, fun _ => rfl, rfl⟩
  | b :: rest, st, l, A, hinv, hnd, hsub => by
    obtain ⟨st1, h1, hinv1, hb1, _, hs1⟩ := pm_free_inv fuel st l A b hinv (hsub b (by simp))
    have hnd2 := List.nodup_cons.1 hnd
    obtain ⟨st2, A2, h2, hinv2, hs2, hb2⟩ := free_all_inv fuel rest st1 (b :: l) (A.erase b)
      hinv1 hnd2.2
      (by
        intro x hx
        refine (List.Nodup.mem_erase_iff hinv.nodupA).2 ⟨?_, hsub x (List.mem_cons_of_mem _ hx)⟩
        rintro rfl
        exact hnd2.1 hx)
    refine ⟨st2, A2, ?_, ?_, fun x => by rw [hs2 x, hs1 x], by rw [hb2, hb1]⟩
    · show free_all fuel st ((b + blk_hdr_size) :: rest.map (fun b => b + blk_hdr_size)) = _
      rw [free_all, h1, Res.ok_bind, h2]
    · have : (b :: rest).reverse ++ l = rest.reverse ++ (b :: l) := by simp
      rw [this]
      exact hinv2

theorem pm_malloc_no_timeout (fuel : Nat) (st : State) (l : List Nat) (size : Nat)
    (hwf : FreeList st l) (hpos : 0 < size) (hfuel : l.length < fuel) :
    pm_malloc fuel st size ≠ Res.timeout := by
  rcases first_fit_cases st.mem (add64 size blk_hdr_size) l with
    ⟨pre, b, post, h1, h2, h3⟩ | hmiss
  · subst h1
    have hfuel2 : pre.length < fuel := by
      simp only [List.length_append, List.length_cons] at hfuel
      omega
    have hb0 : b ≠ 0 := Seg.ne_zero hwf.1 b (by simp)
    obtain ⟨st1, hrm, _⟩ := free_list_remove_spec fuel st pre b post hwf hfuel2
    rw [pm_malloc_hit fuel st size pre b post hpos hwf.1 hfuel2 h2 h3]
    exact (pm_malloc_reuse_ptr fuel st st1 b _ hb0 hrm).1
  · rw [pm_malloc_miss fuel st size l hpos hwf.1 hfuel hmiss]
    exact pm_malloc_fresh_no_timeout fuel st _

theorem malloc_all_no_timeout (fuel : Nat) : ∀ (sizes : List Nat) (st : State) (l A : List Nat),
    Inv st l A → (∀ s ∈ sizes, 0 < s ∧ s + blk_hdr_size < SIZE_MOD) →
    l.length + sizes.length ≤ fuel → malloc_all fuel st sizes ≠ Res.timeout
  | [], _, _, _, _, _, _ => by
    rw [malloc_all]
    exact fun h => Res.noConfusion h
  | s :: rest, st, l, A, hinv, hsz, hfuel => by
    have hs := hsz s (by simp)
    have hlen : (s :: rest).length = rest.length + 1 := rfl
    have hnt := pm_malloc_no_timeout fuel st l s hinv.wf hs.1 (by omega)
    rw [malloc_all]
    cases hpm : pm_malloc fuel st s with
    | ok r =>
      obtain ⟨p, st1⟩ := r
      obtain ⟨b, l1, _, hinv1, _, hprov, _⟩ := pm_malloc_inv fuel st l A s hinv hs.1 hs.2
        (by omega) p st1 hpm
      have hl1 : l1.length ≤ l.length + 1 := by
        rcases hprov with ⟨pre, post, r, e1, _, _, e2, e3⟩ | ⟨_, _, r, e2, e3⟩
        · rw [e3, e1]
          simp only [List.length_append, List.length_cons]
          omega
        · rw [e3]
          simp only [List.length_append]
          omega
      have ih := malloc_all_no_timeout fuel rest st1 l1 (b :: A) hinv1
        (fun x hx => hsz x (List.mem_cons_of_mem _ hx)) (by omega)
      rw [Res.ok_bind]
      dsimp only
      cases hma : malloc_all fuel st1 rest with
      | ok r2 => exact fun h => Res.noConfusion h
      | abort => exact fun h => Res.noConfusion h
      | segv => exact fun h => Res.noConfusion h
      | timeout => exact absurd hma ih
    | abort => exact fun h => Res.noConfusion h
    | segv => exact fun h => Res.noConfusion h
    | timeout => exact absurd hpm hnt

theorem alloc_free_alloc_no_timeout (fuel : Nat) (sizes : List Nat)
    (hsz : ∀ s ∈ sizes, 0 < s ∧ s + blk_hdr_size < SIZE_MOD)
    (hfuel : 3 * sizes.length ≤ fuel) :
    alloc_free_alloc fuel init sizes ≠ Res.timeout := by
  have h1 := malloc_all_no_timeout fuel sizes init [] [] Inv.init hsz
    (by simp only [List.length_nil]; omega)
  unfold alloc_free_alloc
  cases hm : malloc_all fuel init sizes with
  | ok r =>
    obtain ⟨ps, st1⟩ := r
    obtain ⟨bs, l1, e1, e2, e3, e4, _⟩ := malloc_all_inv fuel sizes init [] [] Inv.init hsz
      (by simp only [List.length_nil]; omega) ps st1 hm
    have e3b : Inv st1 l1 bs.reverse := by simpa using e3
    obtain ⟨st2, A2, f1, f2, _⟩ := free_all_inv fuel bs st1 l1 bs.reverse e3b
      (List.nodup_reverse.1 e3b.nodupA) (fun b hb => List.mem_reverse.2 hb)
    have hlen : (bs.reverse ++ l1).length + sizes.length ≤ fuel := by
      simp only [List.length_append, List.length_reverse, List.length_nil] at e4 ⊢
      omega
    have h3 := malloc_all_no_timeout fuel sizes st2 (bs.reverse ++ l1) A2 f2 hsz hlen
    rw [Res.ok_bind]
    dsimp only
    rw [e1, f1, Res.ok_bind]
    cases hq : malloc_all fuel st2 sizes with
    | ok r2 => exact fun h => Res.noConfusion h
    | abort => exact fun h => Res.noConfusion h
    | segv => exact fun h => Res.noConfusion h
    | timeout => exact absurd hq h3
  | abort => exact fun h => Res.noConfusion h
  | segv => exact fun h => Res.noConfusion h
  | timeout => exact absurd hm h1

theorem carve_total_arith (b sb size : Nat)
    (hb : b + blk_hdr_size + sb ≤ SIZE_MOD) (hle : size + blk_hdr_size ≤ sb)
    (hsb : sb ≤ OS_MEM_ALLOC_SIZE - blk_hdr_size)
    (hrem : ¬ sub64 sb (size + blk_hdr_size) < blk_hdr_size + 1) :
    add64 (add64 b user_data_offset) (size + blk_hdr_size) ≠ 0 ∧
    0 < sub64 sb (add64 blk_hdr_size (size + blk_hdr_size)) ∧
    sub64 sb (add64 blk_hdr_size (size + blk_hdr_size)) ≤ OS_MEM_ALLOC_SIZE := by
  unfold add64 sub64 SIZE_MOD OS_MEM_ALLOC_SIZE blk_hdr_size user_data_offset at *
  omega

theorem carve_total (fuel : Nat) (st : State) (l A : List Nat) (b size : Nat)
    (hinv : Inv st l (b :: A)) (hle : size + blk_hdr_size ≤ (st.mem b).size)
    (hsb : (st.mem b).size ≤ OS_MEM_ALLOC_SIZE - blk_hdr_size) :
    ∃ p st2, carve fuel st b (size + blk_hdr_size) = Res.ok (p, st2) := by
  obtain ⟨_, _, _, hbe⟩ := hinv.block_facts (x := b) (by simp)
  unfold carve
  by_cases hrem : sub64 (st.mem b).size (size + blk_hdr_size) < blk_hdr_size + 1
  · rw [if_pos hrem]
    exact ⟨_, _, rfl⟩
  · obtain ⟨a1, a2, a3⟩ := carve_total_arith b (st.mem b).size size hbe hle hsb hrem
    rw [if_neg hrem, if_neg a1, if_pos ⟨a2, a3⟩]
    obtain ⟨st4, h4⟩ := free_list_op_add_ok fuel
      { st with mem := trim_mem st.mem b (size + blk_hdr_size) } _ a1
    rw [h4, Res.ok_bind]
    exact ⟨_, _, rfl⟩

theorem chunk_inv {st : State} {l A : List Nat} (hinv : Inv st l A) (hos : st.os_brk ≠ 0)
    (hroom : st.os_brk + OS_MEM_ALLOC_SIZE ≤ SIZE_MOD) :
    Inv { st with os_brk := st.os_brk + page_round OS_MEM_ALLOC_SIZE,
                  regions := st.regions ++ [(st.os_brk, OS_MEM_ALLOC_SIZE)],
                  mem := chunk_mem st.mem st.os_brk } l (st.os_brk :: A) := by
  have hsub : sub64 OS_MEM_ALLOC_SIZE blk_hdr_size = OS_MEM_ALLOC_SIZE - blk_hdr_size := by
    decide
  refine fresh_block_inv (n := OS_MEM_ALLOC_SIZE - blk_hdr_size) hinv hos ?_ ?_ hroom
    rfl rfl rfl ?_ ?_ ?_
  · decide
  · decide
  · show (chunk_mem st.mem st.os_brk st.os_brk).size = _
    rw [chunk_mem_size, hsub]
  · exact chunk_mem_magic _ _
  · exact fun x hx => chunk_mem_other _ _ _ hx

theorem pm_malloc_total (fuel : Nat) (st : State) (l A : List Nat) (size : Nat)
    (hinv : Inv st l A)
    (hsmall : ∀ x ∈ l, (st.mem x).size ≤ OS_MEM_ALLOC_SIZE - blk_hdr_size)
    (hpos : 0 < size) (hsz : size + 2 * blk_hdr_size ≤ OS_MEM_ALLOC_SIZE)
    (hfuel : l.length < fuel) (hroom : st.os_brk + OS_MEM_ALLOC_SIZE ≤ SIZE_MOD) :
    ∃ p st2, pm_malloc fuel st size = Res.ok (p, st2) := by
  have hos := hinv.brk_pos
  have hlt : size + blk_hdr_size < SIZE_MOD := by
    unfold OS_MEM_ALLOC_SIZE blk_hdr_size at hsz
    unfold SIZE_MOD blk_hdr_size
    omega
  have hreal := add64_hdr size hlt
  rcases first_fit_cases st.mem (size + blk_hdr_size) l with ⟨pre, b, post, h1, h2, h3⟩ | hmiss
  · subst h1
    have hfuel2 : pre.length < fuel := by
      simp only [List.length_append, List.length_cons] at hfuel
      omega
    have hb0 : b ≠ 0 := Seg.ne_zero hinv.wf.1 b (by simp)
    rw [pm_malloc_hit fuel st size pre b post hpos hinv.wf.1 hfuel2 (by rw [hreal]; exact h2)
      (by rw [hreal]; exact h3), hreal]
    obtain ⟨st1, hrm, hinv1, hsz1, _, _, _⟩ := remove_inv fuel st pre b post A hinv hfuel2
    by_cases hex : (st.mem b).size = size + blk_hdr_size
    · rw [pm_malloc_reuse_exact fuel st st1 b _ hb0 hex hrm]
      exact ⟨_, _, rfl⟩
    · rw [pm_malloc_reuse_split fuel st b _ hb0 hex, hrm, Res.ok_bind]
      exact carve_total fuel _ (pre ++ post) A b size
        (hinv1.reuse_count (st1.g_reuse_count + 1))
        (by
          show size + blk_hdr_size ≤ (st1.mem b).size
          rw [hsz1 b]
          exact h3)
        (by
          show (st1.mem b).size ≤ _
          rw [hsz1 b]
          exact hsmall b (by simp))
  · have hsmall2 : ¬ size + blk_hdr_size > OS_MEM_ALLOC_SIZE := by
      unfold blk_hdr_size at *
      omega
    rw [pm_malloc_miss fuel st size l hpos hinv.wf.1 hfuel (by rw [hreal]; exact hmiss),
      hreal, pm_malloc_fresh_chunk fuel st _ hsmall2 hos hroom]
    have hc : (chunk_mem st.mem st.os_brk st.os_brk).size = OS_MEM_ALLOC_SIZE - blk_hdr_size := by
      rw [chunk_mem_size]
      decide
    exact carve_total fuel _ l A st.os_brk size (chunk_inv hinv hos hroom)
      (by
        show size + blk_hdr_size ≤ (chunk_mem st.mem st.os_brk st.os_brk).size
        rw [hc]
        unfold OS_MEM_ALLOC_SIZE blk_hdr_size at *
        omega)
      (by
        show (chunk_mem st.mem st.os_brk st.os_brk).size ≤ _
        rw [hc])

theorem malloc_all_total (fuel : Nat) : ∀ (sizes : List Nat) (st : State) (l A : List Nat),
    Inv st l A → (∀ x, (st.mem x).size ≤ OS_MEM_ALLOC_SIZE - blk_hdr_size) →
    (∀ s ∈ sizes, 0 < s ∧ s + 2 * blk_hdr_size ≤ OS_MEM_ALLOC_SIZE) →
    l.length + sizes.length ≤ fuel → st.os_brk ≠ 0 →
    st.os_brk + sizes.length * OS_MEM_ALLOC_SIZE ≤ SIZE_MOD →
    ∃ ps st2, malloc_all fuel st sizes = Res.ok (ps, st2) ∧
      (∀ x, (st2.mem x).size ≤ OS_MEM_ALLOC_SIZE - blk_hdr_size) ∧ st2.os_brk ≠ 0 ∧
      st2.os_brk ≤ st.os_brk + sizes.length * OS_MEM_ALLOC_SIZE
  | [], st, _, _, _, hsmall, _, _, hos, _ => ⟨[], st, rfl, hsmall, hos, by simp⟩
  | s :: rest, st, l, A, hinv, hsmall, hsz, hfuel, hos, hroom => by
    have hs := hsz s (by simp)
    have hlen : (s :: rest).length = rest.length + 1 := rfl
    rw [hlen] at hfuel hroom
    have hlt : s + blk_hdr_size < SIZE_MOD := by
      have := hs.2
      unfold OS_MEM_ALLOC_SIZE blk_hdr_size at this
      unfold SIZE_MOD blk_hdr_size
      omega
    have hnb : ¬ s + blk_hdr_size > OS_MEM_ALLOC_SIZE := by
      have := hs.2
      unfold blk_hdr_size at *
      omega
    have hpr : page_round OS_MEM_ALLOC_SIZE = OS_MEM_ALLOC_SIZE := by decide
    obtain ⟨p, st1, hpm⟩ := pm_malloc_total fuel st l A s hinv (fun x _ => hsmall x) hs.1
      hs.2 (by omega)
      (by
        have : OS_MEM_ALLOC_SIZE ≤ (rest.length + 1) * OS_MEM_ALLOC_SIZE :=
          Nat.le_mul_of_pos_left _ (by omega)
        omega)
    obtain ⟨b, l1, _, hinv1, _, hprov, hb1, hb2, hM⟩ := pm_malloc_inv fuel st l A s hinv hs.1
      hlt (by omega) p st1 hpm
    rw [if_neg hnb, hpr] at hb2
    have hl1 : l1.length ≤ l.length + 1 := by
      rcases hprov with ⟨pre, post, r, e1, _, _, e2, e3⟩ | ⟨_, _, r, e2, e3⟩
      · rw [e3, e1]
        simp only [List.length_append, List.length_cons]
        omega
      · rw [e3]
        simp only [List.length_append]
        omega
    have hsmall1 := hM (OS_MEM_ALLOC_SIZE - blk_hdr_size) (Nat.le_refl _)
      (by unfold blk_hdr_size at *; omega) hsmall
    have hmul : (rest.length + 1) * OS_MEM_ALLOC_SIZE
        = rest.length * OS_MEM_ALLOC_SIZE + OS_MEM_ALLOC_SIZE := by ring
    obtain ⟨ps, st2, h2, h3, h4, h5⟩ := malloc_all_total fuel rest st1 l1 (b :: A) hinv1 hsmall1
      (fun x hx => hsz x (List.mem_cons_of_mem _ hx)) (by omega) (by omega) (by omega)
    refine ⟨p :: ps, st2, ?_, h3, h4, by rw [hlen]; omega⟩
    rw [malloc_all, hpm, Res.ok_bind]
    dsimp only
    rw [h2, Res.ok_bind]
    rfl

theorem alloc_free_alloc_total (fuel : Nat) (sizes : List Nat)
    (hsz : ∀ s ∈ sizes, 0 < s ∧ s + 2 * blk_hdr_size ≤ OS_MEM_ALLOC_SIZE)
    (hfuel : 3 * sizes.length ≤ fuel)
    (hroom : init.os_brk + 2 * sizes.length * OS_MEM_ALLOC_SIZE ≤ SIZE_MOD) :
    ∃ ps qs, alloc_free_alloc fuel init sizes = Res.ok (ps, qs) := by
  have hsz2 : ∀ s ∈ sizes, 0 < s ∧ s + blk_hdr_size < SIZE_MOD := by
    intro x hx
    have := hsz x hx
    refine ⟨this.1, ?_⟩
    have h2 := this.2
    unfold OS_MEM_ALLOC_SIZE blk_hdr_size at h2
    unfold SIZE_MOD blk_hdr_size
    omega
  have hmul : 2 * sizes.length * OS_MEM_ALLOC_SIZE
      = sizes.length * OS_MEM_ALLOC_SIZE + sizes.length * OS_MEM_ALLOC_SIZE := by ring
  obtain ⟨ps, st1, h1, hs1, ho1, hb1⟩ := malloc_all_total fuel sizes init [] [] Inv.init
    (fun _ => Nat.zero_le _) hsz (by simp only [List.length_nil]; omega) (by decide)
    (by omega)
  obtain ⟨bs, l1, e1, e2, e3, e4, _⟩ := malloc_all_inv fuel sizes init [] [] Inv.init hsz2
    (by simp only [List.length_nil]; omega) ps st1 h1
  have e3b : Inv st1 l1 bs.reverse := by simpa using e3
  obtain ⟨st2, A2, f1, f2, f3, f4⟩ := free_all_inv fuel bs st1 l1 bs.reverse e3b
    (List.nodup_reverse.1 e3b.nodupA) (fun b hb => List.mem_reverse.2 hb)
  have hlen : (bs.reverse ++ l1).length + sizes.length ≤ fuel := by
    simp only [List.length_append, List.length_reverse, List.length_nil] at e4 ⊢
    omega
  obtain ⟨qs, st3, g1, _⟩ := malloc_all_total fuel sizes st2 (bs.reverse ++ l1) A2 f2
    (fun x => by rw [f3 x]; exact hs1 x) hsz hlen (by rw [f4]; exact ho1)
    (by rw [f4]; omega)
  refine ⟨ps, qs, ?_⟩
  unfold alloc_free_alloc
  rw [h1, Res.ok_bind]
  dsimp only
  rw [e1, f1, Res.ok_bind, g1, Res.ok_bind]
  rfl

theorem alloc_free_alloc_ok (fuel : Nat) (st : State) (sizes ps qs : List Nat)
    (hok : alloc_free_alloc fuel st sizes = Res.ok (ps, qs)) :
    ∃ st1 st2 st3, malloc_all fuel st sizes = Res.ok (ps, st1) ∧
      free_all fuel st1 ps = Res.ok st2 ∧ malloc_all fuel st2 sizes = Res.ok (qs, st3) := by
  unfold alloc_free_alloc at hok
  cases h1 : malloc_all fuel st sizes with
  | ok r =>
    obtain ⟨ps1, st1⟩ := r
    rw [h1, Res.ok_bind] at hok
    dsimp only at hok
    cases h2 : free_all fuel st1 ps1 with
    | ok st2 =>
      rw [h2, Res.ok_bind] at hok
      cases h3 : malloc_all fuel st2 sizes with
      | ok r3 =>
        obtain ⟨qs1, st3⟩ := r3
        rw [h3, Res.ok_bind] at hok
        dsimp only at hok
        have h := Res.ok.inj hok
        have e1 : ps1 = ps := congrArg Prod.fst h
        have e2 : qs1 = qs := congrArg Prod.snd h
        subst e1 e2
        exact ⟨st1, st2, st3, rfl, h2, h3⟩
      | abort => rw [h3] at hok; exact Res.noConfusion hok
      | segv => rw [h3] at hok; exact Res.noConfusion hok
      | timeout => rw [h3] at hok; exact Res.noConfusion hok
    | abort => rw [h2] at hok; exact Res.noConfusion hok
    | segv => rw [h2] at hok; exact Res.noConfusion hok
    | timeout => rw [h2] at hok; exact Res.noConfusion hok
  | abort => rw [h1] at hok; exact Res.noConfusion hok
  | segv => rw [h1] at hok; exact Res.noConfusion hok
  | timeout => rw [h1] at hok; exact Res.noConfusion hok

theorem scenario_first_fit (fuel : Nat) (sizes : List Nat)
    (hsz : ∀ s ∈ sizes, 0 < s ∧ s + blk_hdr_size < SIZE_MOD)
    (hfuel : 3 * sizes.length ≤ fuel) (ps qs : List Nat)
    (hok : alloc_free_alloc fuel init sizes = Res.ok (ps, qs)) :
    ∃ (st1 : State) (l1 bs : List Nat) (st2 : State),
      malloc_all fuel init sizes = Res.ok (ps, st1) ∧ FreeList st1 l1 ∧
      ps = bs.map (fun b => b + blk_hdr_size) ∧ bs.length = sizes.length ∧
      free_all fuel st1 ps = Res.ok st2 ∧ FreeList st2 (bs.reverse ++ l1) ∧
      AllFirstFit fuel st2 sizes qs := by
  obtain ⟨st1, st2, st3, h1, h2, h3⟩ := alloc_free_alloc_ok fuel init sizes ps qs hok
  obtain ⟨bs, l1, e1, e2, e3, e4, _⟩ := malloc_all_inv fuel sizes init [] [] Inv.init hsz
    (by simp only [List.length_nil]; omega) ps st1 h1
  have e3b : Inv st1 l1 bs.reverse := by simpa using e3
  obtain ⟨st2b, A2, f1, f2, _⟩ := free_all_inv fuel bs st1 l1 bs.reverse e3b
    (List.nodup_reverse.1 e3b.nodupA) (fun b hb => List.mem_reverse.2 hb)
  rw [← e1, h2] at f1
  have hst : st2 = st2b := Res.ok.inj f1
  subst hst
  have hlen : (bs.reverse ++ l1).length + sizes.length ≤ fuel := by
    simp only [List.length_append, List.length_reverse, List.length_nil] at e4 ⊢
    omega
  obtain ⟨_, _, _, _, _, _, g⟩ := malloc_all_inv fuel sizes st2 (bs.reverse ++ l1) A2 f2 hsz
    hlen qs st3 h3
  exact ⟨st1, l1, bs, st2, h1, e3b.wf, e1, e2, h2, f2.wf, g⟩

theorem FirstFitServed.served {st : State} {size p : Nat} (h : FirstFitServed st size p) :
    ServedFromFreeList st size p := by
  obtain ⟨l, hwf, h1⟩ := h
  refine ⟨l, hwf, ?_⟩
  rcases h1 with ⟨pre, b, post, e1, _, e3, e4⟩ | ⟨_, e2⟩
  · exact Or.inl ⟨b, by rw [e1]; simp, by omega, e4⟩
  · exact Or.inr e2

theorem AllFirstFit.all_served (fuel : Nat) : ∀ (st : State) (sizes qs : List Nat),
    AllFirstFit fuel st sizes qs → AllServed fuel st sizes qs
  | _, [], [], _ => trivial
  | _, [], _ :: _, h => h
  | _, _ :: _, [], h => h
  | st, s :: ss, q :: qs, h => by
    obtain ⟨h1, st1, h2, h3⟩ := h
    exact ⟨h1.served, st1, h2, AllFirstFit.all_served fuel st1 ss qs h3⟩

theorem le_sum_of_mem_nat : ∀ (l : List Nat) (x : Nat), x ∈ l → x ≤ l.sum
  | [], _, hx => by simp at hx
  | a :: t, x, hx => by
    rw [List.sum_cons]
    rcases List.mem_cons.1 hx with h | h
    · rw [h]; omega
    · have := le_sum_of_mem_nat t x h
      omega

theorem pm_malloc_total_large (fuel : Nat) (st : State) (l A : List Nat) (size : Nat)
    (hinv : Inv st l A)
    (hsmall : ∀ x ∈ l, (st.mem x).size ≤ OS_MEM_ALLOC_SIZE - blk_hdr_size)
    (hbig : OS_MEM_ALLOC_SIZE < size + blk_hdr_size) (hsz : size + blk_hdr_size < SIZE_MOD)
    (hfuel : l.length < fuel) (hroom : st.os_brk + (size + blk_hdr_size) ≤ SIZE_MOD) :
    ∃ p st2, pm_malloc fuel st size = Res.ok (p, st2) := by
  have hreal := add64_hdr size hsz
  have hpos : 0 < size := by
    unfold OS_MEM_ALLOC_SIZE blk_hdr_size at hbig
    omega
  have hnofit : ∀ x ∈ l, (st.mem x).size < add64 size blk_hdr_size := by
    intro x hx
    have h := hsmall x hx
    rw [hreal]
    omega
  rw [pm_malloc_miss fuel st size l hpos hinv.wf.1 hfuel hnofit,
    pm_malloc_fresh_large fuel st _ (by rw [hreal]; exact hbig) hinv.brk_pos
      (by rw [hreal]; exact hroom)]
  exact ⟨_, _, rfl⟩

/-! ## Reachable states -/

theorem Reachable.inv {st : State} {A : List Nat} (h : Reachable st A) : ∃ l, Inv st l A := by
  induction h with
  | init => exact ⟨[], Inv.init⟩
  | malloc _ hpos hsz hfuel hok ih =>
    obtain ⟨l, hinv⟩ := ih
    obtain ⟨b, l2, hp, hinv2, _⟩ := pm_malloc_inv _ _ l _ _ hinv hpos hsz (hfuel l hinv.wf) _ _ hok
    refine ⟨l2, ?_⟩
    rw [hp, Nat.add_sub_cancel]
    exact hinv2
  | free _ hb hok ih =>
    obtain ⟨l, hinv⟩ := ih
    obtain ⟨st3, h1, hinv3, _⟩ := pm_free_inv _ _ l _ _ hinv hb
    rw [hok] at h1
    have e := Res.ok.inj h1
    subst e
    exact ⟨_, hinv3⟩
  | malloc_zero _ hok ih =>
    have h1 : (0, _) = (_, _) := Res.ok.inj hok
    have e := (Prod.mk.inj h1).2
    subst e
    exact ih
  | free_null _ hok ih =>
    have e := Res.ok.inj hok
    subst e
    exact ih

theorem FreeList.unique {st : State} : ∀ {l1 l2 : List Nat} {h : Nat},
    Seg st.mem h l1 0 → Seg st.mem h l2 0 → l1 = l2
  | [], [], _, _, _ => rfl
  | [], _ :: _, _, h1, h2 => by
    simp only [Seg] at h1
    exact absurd (h1 ▸ h2.1).symm h2.2.1
  | _ :: _, [], _, h1, h2 => by
    simp only [Seg] at h2
    exact absurd (h2 ▸ h1.1).symm h1.2.1
  | a :: t1, b :: t2, _, h1, h2 => by
    have hab : a = b := h1.1.symm.trans h2.1
    subst hab
    rw [FreeList.unique h1.2.2 h2.2.2]

/-! ## `REMOVE` of a block that is not in the list -/

theorem remove_loop_absent (m : Mem) (blk : Nat) : ∀ (s : List Nat) (fuel itr : Nat),
    Seg m itr s 0 → blk ∉ s → remove_loop m blk (s.length + fuel + 1) itr = Res.ok m
  | [], fuel, itr, hs, _ => by
    simp only [Seg] at hs
    subst hs
    simp [remove_loop]
  | a :: t, fuel, itr, hs, hb => by
    obtain ⟨h1, h2, h3⟩ := hs
    subst h1
    have hne : itr ≠ blk := fun h => hb (by simp [h])
    have hbt : blk ∉ t := fun h => hb (List.mem_cons_of_mem _ h)
    have hlen : (itr :: t).length + fuel + 1 = (t.length + fuel + 1) + 1 := by simp; omega
    rw [hlen, remove_loop]
    simp only [h2, hne, if_false]
    exact remove_loop_absent m blk t fuel _ h3 hbt

theorem free_list_remove_miss (fuel : Nat) (st : State) (blk : Nat) (l : List Nat)
    (hs : Seg st.mem st.g_free_list_head l 0) (hnot : blk ∉ l) (hfuel : l.length < fuel) :
    free_list_op fuel st blk FREE_LIST_OP.REMOVE =
      if blk = 0 ∨ l = [] then Res.abort else Res.ok st := by
  by_cases hb : blk = 0
  · simp [free_list_op, hb]
  · cases l with
    | nil =>
      have hh : st.g_free_list_head = 0 := hs
      simp [free_list_op, hb, hh]
    | cons a t =>
      have hh : st.g_free_list_head = a := hs.1
      have ha0 : a ≠ 0 := hs.2.1
      have hne : blk ≠ a := fun h => hnot (by simp [h])
      obtain ⟨k, hk⟩ : ∃ k, fuel = (a :: t).length + k + 1 := ⟨fuel - (a :: t).length - 1, by omega⟩
      have hrl := remove_loop_absent st.mem blk (a :: t) k _ hs hnot
      rw [← hk, hh] at hrl
      simp only [free_list_op, hb, hh, ha0, hne, hrl, c_assert_true, Res.ok_bind, Res.pure_eq,
        ne_eq, not_false_eq_true, if_false, false_or, reduceCtorEq]
      rw [← hh]

theorem Seg.no_self_loop {m : Mem} {b : Nat} (hb0 : b ≠ 0) (hb : (m b).next = b) :
    ∀ l, ¬ Seg m b l 0
  | [], hs => hb0 hs
  | a :: t, hs => by
    have ha : b = a := hs.1
    subst ha
    have ht : Seg m (m b).next t 0 := hs.2.2
    rw [hb] at ht
    exact Seg.no_self_loop hb0 hb t ht

theorem free_list_init_nil {l : List Nat} (hl : FreeList init l) : l = [] :=
  FreeList.unique hl.1 (show Seg init.mem 0 [] 0 from rfl)

theorem reachable_one_block : Reachable state_one_block [65536] :=
  @Reachable.malloc init state_one_block [] 1 100 65568 Reachable.init (by decide) (by decide)
    (fun l hl => by
      have e := free_list_init_nil hl
      subst e
      decide)
    rfl

theorem reachable_two_free : Reachable state_two_free [] :=
  @Reachable.free state_one_block state_two_free [65536] 1 65536 reachable_one_block
    (by decide) rfl

/-! ## Further facts about walks, scans and pointer arithmetic -/

theorem Seg.start_ne_zero {m : Mem} {h x : Nat} : ∀ {s : List Nat}, Seg m h s x → x ≠ 0 → h ≠ 0
  | [], hs, hx => by
    have e : h = x := hs
    rw [e]
    exact hx
  | _ :: _, hs, _ => by
    rw [hs.1]
    exact hs.2.1

theorem Seg.closed {m : Mem} (P : Nat → Prop)
    (hstep : ∀ n, P n → n ≠ 0 → (m n).next ≠ 0 → P (m n).next) :
    ∀ (s : List Nat) (h x : Nat), Seg m h s x → x ≠ 0 → P h → P x
  | [], h, x, hs, _, hp => by
    have e : h = x := hs
    rw [← e]
    exact hp
  | a :: t, h, x, hs, hx, hp => by
    obtain ⟨h1, h2, h3⟩ := hs
    subst h1
    exact Seg.closed P hstep t _ x h3 hx (hstep h hp h2 (Seg.start_ne_zero h3 hx))

theorem Seg.snoc {m : Mem} {h n : Nat} {s : List Nat} (hs : Seg m h s n) (hn : n ≠ 0) :
    Seg m h (s ++ [n]) (m n).next :=
  Seg.append hs ⟨rfl, hn, rfl⟩

theorem remove_loop_ok (m : Mem) (blk : Nat) : ∀ (fuel itr : Nat) (m2 : Mem),
    remove_loop m blk fuel itr = Res.ok m2 →
    m2 = m ∨ (m2 = unlink m blk ∧ blk ≠ 0 ∧ ∃ s, Seg m itr s blk)
  | 0, _, _, h => by
    rw [remove_loop] at h
    exact Res.noConfusion h
  | fuel + 1, itr, m2, h => by
    by_cases h0 : itr = 0
    · rw [remove_loop] at h
      simp only [h0, if_true] at h
      exact Or.inl (Res.ok.inj h).symm
    · by_cases hb : itr = blk
      · subst hb
        by_cases hp : (m itr).prev = 0
        · rw [remove_loop] at h
          simp only [h0, hp, if_true, if_false] at h
          exact Res.noConfusion h
        · rw [remove_loop_found m itr fuel h0 hp] at h
          exact Or.inr ⟨(Res.ok.inj h).symm, h0, [], rfl⟩
      · rw [remove_loop] at h
        simp only [h0, hb, if_false] at h
        rcases remove_loop_ok m blk fuel _ m2 h with h1 | ⟨h1, h2, s, hs⟩
        · exact Or.inl h1
        · exact Or.inr ⟨h1, h2, itr :: s, rfl, h0, hs⟩

theorem add64_lt (a b : Nat) : add64 a b < SIZE_MOD :=
  Nat.mod_lt _ (by unfold SIZE_MOD; norm_num)

theorem sub64_lt (a b : Nat) : sub64 a b < SIZE_MOD :=
  Nat.mod_lt _ (by unfold SIZE_MOD; norm_num)

theorem pm_malloc_scan_ok (fuel0 : Nat) (st : State) (real : Nat) :
    ∀ (fuel itr p : Nat) (st2 : State),
      pm_malloc_scan fuel0 st real fuel itr = Res.ok (p, st2) →
      (∃ b s, b ≠ 0 ∧ Seg st.mem itr s b ∧
        pm_malloc_reuse fuel0 st b real = Res.ok (p, st2)) ∨
      pm_malloc_fresh fuel0 st real = Res.ok (p, st2)
  | 0, _, _, _, h => by
    rw [pm_malloc_scan] at h
    exact Res.noConfusion h
  | fuel + 1, itr, p, st2, h => by
    by_cases h0 : itr = 0
    · subst h0
      rw [pm_malloc_scan_end] at h
      exact Or.inr h
    · by_cases hge : real ≤ (st.mem itr).size
      · rw [pm_malloc_scan_hit fuel0 st real fuel itr h0 hge] at h
        exact Or.inl ⟨itr, [], h0, rfl, h⟩
      · rw [pm_malloc_scan] at h
        simp only [h0, hge, ne_eq, not_false_eq_true, if_true, if_false, ge_iff_le] at h
        rcases pm_malloc_scan_ok fuel0 st real fuel _ p st2 h with ⟨b, s, hb, hs, hr⟩ | hr
        · exact Or.inl ⟨b, itr :: s, hb, ⟨rfl, h0, hs⟩, hr⟩
        · exact Or.inr hr

theorem sub64_add64_hdr (b : Nat) (hb : b < SIZE_MOD) :
    sub64 (add64 b blk_hdr_size) blk_hdr_size = b := by
  unfold sub64 add64 blk_hdr_size SIZE_MOD at *
  omega

/-! ## `pm_free` over byte memory -/

theorem byte_pm_free_eq (fuel : Nat) (st : ByteLevel.State) (p : Nat) (hp : p ≠ 0) :
    ByteLevel.pm_free fuel st p =
      if ByteLevel.mapped st (add64 (sub64 p blk_hdr_size) 24) 4 = true then
        if ByteLevel.load st.bytes (add64 (sub64 p blk_hdr_size) 24) 4 = PM_MAGIC then
          ByteLevel.free_list_op fuel st (sub64 p blk_hdr_size) FREE_LIST_OP.ADD
        else Res.abort
      else Res.segv := by
  unfold ByteLevel.pm_free user_data_to_blk ByteLevel.get_magic ByteLevel.rd
  rw [if_neg hp, c_assert_true hp, Res.ok_bind, Res.pure_eq, Res.ok_bind]
  by_cases hm : ByteLevel.mapped st (add64 (sub64 p blk_hdr_size) 24) 4 = true
  · rw [if_pos hm, if_pos hm, Res.ok_bind]
    by_cases hg : ByteLevel.load st.bytes (add64 (sub64 p blk_hdr_size) 24) 4 = PM_MAGIC
    · rw [if_pos hg, c_assert_true hg, Res.ok_bind]
    · rw [if_neg hg, c_assert_false hg, Res.abort_bind]
  · rw [if_neg hm, if_neg hm, Res.segv_bind]

/-! ## The claims -/

/-- C1, the code at a failing input. On the initial allocator
`pm_malloc (5000000)` takes the large-object path and returns `65568`; after
`pm_free (65568)` the block `65536`, of size 5000000, is the free list. The
positive request `pm_malloc (100)` then selects it by first fit, `trim_block`
computes the remainder size `4999836`, and the assertion
`free_blk->size <= OS_MEM_ALLOC_SIZE` fails: the call does not return. The
remainder header lies inside the mapping, and the run over byte memory ends in
the same failed assertion. -/
theorem pm_malloc_aborts_on_positive_size :
    (∃ st1 st2, pm_malloc 1 init 5000000 = Res.ok (65568, st1) ∧
      pm_free 1 st1 65568 = Res.ok st2 ∧ FreeList st2 [65536] ∧
      (st2.mem 65536).size = 5000000 ∧ pm_malloc 2 st2 100 = Res.abort) ∧
    ∃ s1 s2, ByteLevel.pm_malloc 1 ByteLevel.init 5000000 = Res.ok (65568, s1) ∧
      ByteLevel.pm_free 1 s1 65568 = Res.ok s2 ∧
      ByteLevel.pm_malloc 2 s2 100 = Res.abort :=
  ⟨⟨_, _, rfl, rfl, by decide, rfl, rfl⟩, _, _, rfl, rfl, rfl⟩

/-- Returning of `pm_malloc` under disciplined use: in every state reached
under disciplined use, a request of a
positive size with `size + 32 < 2 ^ 64`, given more fuel than the free list is
long, never runs out of fuel; whenever it returns, the result is the non-null
payload pointer of a block that was not allocated before the call, whose
recorded size is at least `size`, and the bytes `[p, p + size)` lie inside one
region obtained from the OS; and it does return when no free block records
more than `OS_MEM_ALLOC_SIZE - 32` and either `size + 64 ≤ OS_MEM_ALLOC_SIZE`
and the OS has room for one more chunk, or `size + 32 > OS_MEM_ALLOC_SIZE` and
the OS has room for `size + 32` bytes. -/
theorem pm_malloc_returns_block (st : State) (A : List Nat) (fuel size : Nat)
    (hr : Reachable st A) (hpos : 0 < size) (hsz : size + blk_hdr_size < SIZE_MOD)
    (hfuel : ∀ l, FreeList st l → l.length < fuel) :
    pm_malloc fuel st size ≠ Res.timeout ∧
    (∀ p st2, pm_malloc fuel st size = Res.ok (p, st2) →
      p ≠ 0 ∧ blk_hdr_size ≤ p ∧ (p - blk_hdr_size) ∉ A ∧
      size ≤ (st2.mem (p - blk_hdr_size)).size ∧
      ∃ r ∈ st2.regions, r.1 + blk_hdr_size ≤ p ∧ p + size ≤ r.1 + r.2) ∧
    ((∀ l, FreeList st l → ∀ x ∈ l, (st.mem x).size ≤ OS_MEM_ALLOC_SIZE - blk_hdr_size) →
      (size + 2 * blk_hdr_size ≤ OS_MEM_ALLOC_SIZE ∧
          st.os_brk + OS_MEM_ALLOC_SIZE ≤ SIZE_MOD) ∨
        (OS_MEM_ALLOC_SIZE < size + blk_hdr_size ∧
          st.os_brk + (size + blk_hdr_size) ≤ SIZE_MOD) →
      ∃ p st2, pm_malloc fuel st size = Res.ok (p, st2)) := by
  obtain ⟨l, hinv⟩ := hr.inv
  refine ⟨pm_malloc_no_timeout fuel st l size hinv.wf hpos (hfuel l hinv.wf), ?_, ?_⟩
  · intro p st2 hok
    obtain ⟨b, l2, hp, hinv2, hsize, _⟩ :=
      pm_malloc_inv fuel st l A size hinv hpos hsz (hfuel l hinv.wf) p st2 hok
    subst hp
    rw [Nat.add_sub_cancel]
    obtain ⟨_, _, _, _, r, hr1, hr2, hr3⟩ :=
      hinv2.spatial.1 b (List.mem_append_right _ (List.mem_cons_self _ _))
    have hbA : b ∉ A := (List.nodup_cons.1 hinv2.nodupA).1
    refine ⟨by simp [blk_hdr_size], Nat.le_add_left _ _, hbA, hsize, r, hr1, ?_, ?_⟩
    · omega
    · simp only [blk_end, blk_hdr_size] at hr3 ⊢
      omega
  · rintro h1 (⟨h2, h3⟩ | ⟨h2, h3⟩)
    · exact pm_malloc_total fuel st l A size hinv (h1 l hinv.wf) hpos h2 (hfuel l hinv.wf) h3
    · exact pm_malloc_total_large fuel st l A size hinv (h1 l hinv.wf) h2 hsz (hfuel l hinv.wf)
        h3

/-- The preceding fact on the initial allocator with a request of 100 bytes. -/
theorem pm_malloc_returns_block_witness :
    pm_malloc 1 init 100 ≠ Res.timeout ∧
    (∀ p st2, pm_malloc 1 init 100 = Res.ok (p, st2) →
      p ≠ 0 ∧ blk_hdr_size ≤ p ∧ (p - blk_hdr_size) ∉ ([] : List Nat) ∧
      100 ≤ (st2.mem (p - blk_hdr_size)).size ∧
      ∃ r ∈ st2.regions, r.1 + blk_hdr_size ≤ p ∧ p + 100 ≤ r.1 + r.2) ∧
    ((∀ l, FreeList init l → ∀ x ∈ l,
        (init.mem x).size ≤ OS_MEM_ALLOC_SIZE - blk_hdr_size) →
      (100 + 2 * blk_hdr_size ≤ OS_MEM_ALLOC_SIZE ∧
          init.os_brk + OS_MEM_ALLOC_SIZE ≤ SIZE_MOD) ∨
        (OS_MEM_ALLOC_SIZE < 100 + blk_hdr_size ∧
          init.os_brk + (100 + blk_hdr_size) ≤ SIZE_MOD) →
      ∃ p st2, pm_malloc 1 init 100 = Res.ok (p, st2)) :=
  pm_malloc_returns_block init [] 1 100 Reachable.init (by decide) (by decide)
    (fun l hl => by
      have e : l = [] := FreeList.unique hl.1 (show Seg init.mem 0 [] 0 from rfl)
      subst e
      decide)

/-- C2 as stated fails: the size `2 ^ 64 - 1`, negative when read as a signed
integer, is not rejected. On the initial allocator the call returns the
non-null pointer `65568` and pushes a remainder block onto the free list. -/
theorem pm_malloc_size_max_is_served :
    2 ^ 63 ≤ 2 ^ 64 - 1 ∧
    ∃ st2, pm_malloc 1 init (2 ^ 64 - 1) = Res.ok (65568, st2) ∧
      st2.g_free_list_head = 65595 ∧ init.g_free_list_head = 0 :=
  ⟨by decide, _, rfl, rfl, rfl⟩

/-- C2, amended: `pm_malloc (0)` returns the null pointer and leaves the whole
allocator state, free list and reuse counter included, as it was. -/
theorem pm_malloc_zero (fuel : Nat) (st : State) : pm_malloc fuel st 0 = Res.ok (0, st) := by
  simp [pm_malloc]

/-- C3, over byte memory: `pm_free (NULL)` returns normally with the state
unchanged; `pm_free` of a non-null pointer ends in the failed assertion when
the tag of the header recovered at `ptr - 32` can be read and is not
`PM_MAGIC`, and in a fault when the four bytes of that tag are not mapped, so
nothing is inserted; and whenever `pm_free` returns, either the pointer was
null and the state is unchanged, or the tag was read and was `PM_MAGIC`. -/
theorem pm_free_guard (fuel : Nat) (st : ByteLevel.State) :
    ByteLevel.pm_free fuel st 0 = Res.ok st ∧
    (∀ p, p ≠ 0 → ByteLevel.mapped st (add64 (sub64 p blk_hdr_size) 24) 4 = true →
      ByteLevel.load st.bytes (add64 (sub64 p blk_hdr_size) 24) 4 ≠ PM_MAGIC →
      ByteLevel.pm_free fuel st p = Res.abort) ∧
    (∀ p, p ≠ 0 → ByteLevel.mapped st (add64 (sub64 p blk_hdr_size) 24) 4 = false →
      ByteLevel.pm_free fuel st p = Res.segv) ∧
    (∀ p st2, ByteLevel.pm_free fuel st p = Res.ok st2 →
      (p = 0 ∧ st2 = st) ∨
      (p ≠ 0 ∧ ByteLevel.mapped st (add64 (sub64 p blk_hdr_size) 24) 4 = true ∧
        ByteLevel.load st.bytes (add64 (sub64 p blk_hdr_size) 24) 4 = PM_MAGIC)) := by
  refine ⟨rfl, ?_, ?_, ?_⟩
  · intro p hp hm hg
    rw [byte_pm_free_eq fuel st p hp, if_pos hm, if_neg hg]
  · intro p hp hm
    rw [byte_pm_free_eq fuel st p hp, if_neg (by rw [hm]; exact Bool.false_ne_true)]
  · intro p st2 hok
    by_cases hp : p = 0
    · subst hp
      have h1 : Res.ok st = Res.ok st2 := hok
      exact Or.inl ⟨rfl, (Res.ok.inj h1).symm⟩
    · refine Or.inr ⟨hp, ?_⟩
      rw [byte_pm_free_eq fuel st p hp] at hok
      by_cases hm : ByteLevel.mapped st (add64 (sub64 p blk_hdr_size) 24) 4 = true
      · refine ⟨hm, ?_⟩
        by_contra hg
        rw [if_pos hm, if_neg hg] at hok
        exact Res.noConfusion hok
      · rw [if_neg hm] at hok
        exact Res.noConfusion hok

/-- Witness for C3 in the state after `pm_malloc (100)`, with the null pointer
and with the pointer `65600`: the header recovered at `65568` lies in the
payload of the allocated block, inside the mapped chunk, and its tag bytes are
zero. -/
theorem pm_free_guard_witness :
    ByteLevel.pm_free 1 ByteLevel.state_one_block 0 = Res.ok ByteLevel.state_one_block ∧
    ByteLevel.mapped ByteLevel.state_one_block (add64 (sub64 65600 blk_hdr_size) 24) 4 = true ∧
    ByteLevel.load ByteLevel.state_one_block.bytes (add64 (sub64 65600 blk_hdr_size) 24) 4
      ≠ PM_MAGIC ∧
    ByteLevel.pm_free 1 ByteLevel.state_one_block 65600 = Res.abort :=
  ⟨(pm_free_guard 1 ByteLevel.state_one_block).1, by decide, by decide,
    (pm_free_guard 1 ByteLevel.state_one_block).2.1 65600 (by decide) (by decide) (by decide)⟩

/-- C5, the code at a failing input. On the initial allocator `pm_malloc (100)`
returns `65568`, and the block records the capacity 100. After releasing it,
`pm_malloc (100)`, a request of exactly that capacity, passes over the
released block, because 100 is below `real_size = 132`, and returns the
different address `65728`, carved from the remainder of the chunk. -/
theorem pm_malloc_round_trip_misses :
    ∃ st1 st2 st3, pm_malloc 1 init 100 = Res.ok (65568, st1) ∧
      (st1.mem (sub64 65568 blk_hdr_size)).size = 100 ∧
      pm_free 1 st1 65568 = Res.ok st2 ∧
      pm_malloc 3 st2 100 = Res.ok (65728, st3) ∧
      st3.g_reuse_count = st2.g_reuse_count + 1 :=
  ⟨_, _, _, rfl, rfl, rfl, rfl, rfl⟩

/-- C6 as stated fails: ten positive sizes with total 16368. All ten blocks come
from one chunk in the first pass. In the second pass only the first request is
served by a released block (the block of 8192 bytes, for the request of 4096);
the second pointer, `82536`, like all later ones, is carved from the remainder
of the chunk and is none of the ten pointers of the first pass. -/
theorem second_pass_returns_new_pointers :
    (alloc_free_alloc 30 init [4096, 8192, 1024, 2048, 512, 256, 128, 64, 32, 16]).get? =
      some ([65568, 69724, 77976, 79060, 81168, 81740, 82056, 82244, 82368, 82460],
        [69724, 82536, 90788, 91872, 93980, 94552, 94868, 95056, 95180, 95272]) ∧
    82536 ∉ [65568, 69724, 77976, 79060, 81168, 81740, 82056, 82244, 82368, 82460] := by
  decide

/-- C6, amended. Starting from the initial allocator, for every list of ten
positive sizes whose total is below `OS_MEM_ALLOC_SIZE`, consider allocating
the ten sizes in order, releasing all ten pointers in order and allocating the
same ten sizes again (with fuel 30 or more). The run never runs out of fuel,
and it returns when every size is at most `OS_MEM_ALLOC_SIZE` minus two
headers. Whenever it returns, the first pass leaves a well-formed free list
`l1`; after the ten releases the free list is the ten released blocks, last
released first, followed by `l1`; and every request of the second pass returns
the payload pointer of a block that is in the free list at that request and
records at least the requested size (one of the released blocks, or a
remainder that was never handed out), or of a region freshly obtained from the
operating system. -/
theorem second_pass_from_free_list (fuel : Nat) (sizes : List Nat) (hten : sizes.length = 10)
    (hpos : ∀ s ∈ sizes, 0 < s) (htotal : sizes.sum < OS_MEM_ALLOC_SIZE) (hfuel : 30 ≤ fuel) :
    alloc_free_alloc fuel init sizes ≠ Res.timeout ∧
    ((∀ s ∈ sizes, s + 2 * blk_hdr_size ≤ OS_MEM_ALLOC_SIZE) →
      ∃ ps qs, alloc_free_alloc fuel init sizes = Res.ok (ps, qs)) ∧
    ∀ ps qs, alloc_free_alloc fuel init sizes = Res.ok (ps, qs) →
      ∃ (st1 : State) (l1 bs : List Nat) (st2 : State),
        malloc_all fuel init sizes = Res.ok (ps, st1) ∧ FreeList st1 l1 ∧
        ps = bs.map (fun b => b + blk_hdr_size) ∧ bs.length = 10 ∧
        free_all fuel st1 ps = Res.ok st2 ∧ FreeList st2 (bs.reverse ++ l1) ∧
        AllServed fuel st2 sizes qs := by
  have hsz : ∀ s ∈ sizes, 0 < s ∧ s + blk_hdr_size < SIZE_MOD := by
    intro x hx
    have h1 := le_sum_of_mem_nat sizes x hx
    refine ⟨hpos x hx, ?_⟩
    unfold OS_MEM_ALLOC_SIZE at htotal
    unfold blk_hdr_size SIZE_MOD
    omega
  refine ⟨alloc_free_alloc_no_timeout fuel sizes hsz (by omega), ?_, ?_⟩
  · intro hsmall
    refine alloc_free_alloc_total fuel sizes (fun x hx => ⟨hpos x hx, hsmall x hx⟩) (by omega) ?_
    rw [hten]
    decide
  · intro ps qs hok
    obtain ⟨st1, l1, bs, st2, h1, h2, h3, h4, h5, h6, h7⟩ :=
      scenario_first_fit fuel sizes hsz (by omega) ps qs hok
    exact ⟨st1, l1, bs, st2, h1, h2, h3, by omega, h5, h6,
      AllFirstFit.all_served fuel _ _ _ h7⟩

/-- Witness for C6, amended: the ten sizes of the counterexample. -/
theorem second_pass_from_free_list_witness :
    alloc_free_alloc 30 init [4096, 8192, 1024, 2048, 512, 256, 128, 64, 32, 16] =
      Res.ok ([65568, 69724, 77976, 79060, 81168, 81740, 82056, 82244, 82368, 82460],
        [69724, 82536, 90788, 91872, 93980, 94552, 94868, 95056, 95180, 95272]) ∧
    ∃ (st1 : State) (l1 bs : List Nat) (st2 : State),
      malloc_all 30 init [4096, 8192, 1024, 2048, 512, 256, 128, 64, 32, 16] =
        Res.ok ([65568, 69724, 77976, 79060, 81168, 81740, 82056, 82244, 82368, 82460], st1) ∧
      FreeList st1 l1 ∧
      [65568, 69724, 77976, 79060, 81168, 81740, 82056, 82244, 82368, 82460] =
        bs.map (fun b => b + blk_hdr_size) ∧
      bs.length = 10 ∧
      free_all 30 st1 [65568, 69724, 77976, 79060, 81168, 81740, 82056, 82244, 82368, 82460] =
        Res.ok st2 ∧
      FreeList st2 (bs.reverse ++ l1) ∧
      AllServed 30 st2 [4096, 8192, 1024, 2048, 512, 256, 128, 64, 32, 16]
        [69724, 82536, 90788, 91872, 93980, 94552, 94868, 95056, 95180, 95272] :=
  ⟨rfl, (second_pass_from_free_list 30 [4096, 8192, 1024, 2048, 512, 256, 128, 64, 32, 16]
    (by decide) (by decide) (by decide) (by decide)).2.2 _ _ rfl⟩

/-- C10, the code at a failing input. The allocator is brought to a state whose
free list is one block of capacity `C = 4194272`: a whole chunk is handed out
by `pm_malloc (4194240)` and released. The request `n = 4194232` has
`C - n = 40`, more than one header plus one byte, yet `pm_malloc (n)` hands
out the whole block and leaves the free list empty. -/
theorem pm_malloc_no_remainder_above_threshold :
    ∃ st1 st2 st3, pm_malloc 1 init 4194240 = Res.ok (65568, st1) ∧
      pm_free 1 st1 65568 = Res.ok st2 ∧
      Seg st2.mem st2.g_free_list_head [65536] 0 ∧ (st2.mem 65536).size = 4194272 ∧
      blk_hdr_size + 1 < 4194272 - 4194232 ∧
      pm_malloc 2 st2 4194232 = Res.ok (65568, st3) ∧
      st3.g_free_list_head = 0 ∧ (st3.mem 65536).size = 4194272 :=
  ⟨_, _, _, rfl, rfl, by decide, rfl, by decide, rfl, rfl, rfl⟩

/-- C9: large-object path. When no block of the free list has a size of at
least `real_size = size + 32` and `real_size` exceeds `OS_MEM_ALLOC_SIZE`, and
the operating system can place a region of `size + 32` bytes at the non-null
address `os_brk`, which is no block of the free list, then `pm_malloc (size)`
obtains exactly that region, returns its base plus 32, records the size `size`
and the tag `PM_MAGIC` in the header at the base, and leaves the head, the
sequence and the headers of the free list and the reuse counter unchanged. -/
theorem pm_malloc_large_object (fuel : Nat) (st : State) (size : Nat) (l : List Nat)
    (hs : Seg st.mem st.g_free_list_head l 0) (hfuel : l.length < fuel)
    (hnofit : ∀ x ∈ l, (st.mem x).size < add64 size blk_hdr_size)
    (hbig : OS_MEM_ALLOC_SIZE < add64 size blk_hdr_size)
    (hos : st.os_brk ≠ 0) (hroom : st.os_brk + (size + blk_hdr_size) ≤ SIZE_MOD)
    (hfresh : st.os_brk ∉ l) :
    ∃ st2, pm_malloc fuel st size = Res.ok (st.os_brk + blk_hdr_size, st2) ∧
      st2.regions = st.regions ++ [(st.os_brk, size + blk_hdr_size)] ∧
      (st2.mem st.os_brk).size = size ∧ (st2.mem st.os_brk).magic = PM_MAGIC ∧
      st2.g_free_list_head = st.g_free_list_head ∧
      Seg st2.mem st2.g_free_list_head l 0 ∧
      (∀ x, x ≠ st.os_brk → st2.mem x = st.mem x) ∧
      st2.g_reuse_count = st.g_reuse_count := by
  have hreal : add64 size blk_hdr_size = size + blk_hdr_size := by
    unfold add64 SIZE_MOD blk_hdr_size at *
    omega
  have hpos : 0 < size := by
    unfold add64 SIZE_MOD blk_hdr_size OS_MEM_ALLOC_SIZE at *
    omega
  have hptr : add64 st.os_brk blk_hdr_size = st.os_brk + blk_hdr_size := by
    unfold add64 SIZE_MOD blk_hdr_size at *
    omega
  have hsub : sub64 (size + blk_hdr_size) blk_hdr_size = size := by
    unfold sub64 SIZE_MOD blk_hdr_size at *
    omega
  rw [pm_malloc_miss fuel st size l hpos hs hfuel hnofit,
    pm_malloc_fresh_large fuel st _ hbig hos (by rw [hreal]; exact hroom), hreal, hptr]
  refine ⟨_, rfl, rfl, ?_, ?_, rfl, ?_, ?_, rfl⟩
  · show (large_mem st.mem st.os_brk (size + blk_hdr_size) st.os_brk).size = size
    simp [large_mem, hsub]
  · show (large_mem st.mem st.os_brk (size + blk_hdr_size) st.os_brk).magic = PM_MAGIC
    simp [large_mem]
  · refine Seg.congr_next ?_ hs
    intro a ha
    have hne : a ≠ st.os_brk := fun h => hfresh (h ▸ ha)
    show (large_mem st.mem st.os_brk (size + blk_hdr_size) a).next = _
    rw [large_mem_next, if_neg hne]
  · intro x hx
    exact large_mem_other _ _ _ _ hx

/-- Witness for C9: a request of 5000000 bytes on the initial allocator. -/
theorem pm_malloc_large_object_witness :
    OS_MEM_ALLOC_SIZE < add64 5000000 blk_hdr_size ∧
    init.os_brk + (5000000 + blk_hdr_size) ≤ SIZE_MOD ∧
    ∃ st2, pm_malloc 1 init 5000000 = Res.ok (init.os_brk + blk_hdr_size, st2) ∧
      st2.regions = init.regions ++ [(init.os_brk, 5000000 + blk_hdr_size)] ∧
      (st2.mem init.os_brk).size = 5000000 ∧ (st2.mem init.os_brk).magic = PM_MAGIC ∧
      st2.g_free_list_head = init.g_free_list_head ∧
      Seg st2.mem st2.g_free_list_head [] 0 ∧
      (∀ x, x ≠ init.os_brk → st2.mem x = init.mem x) ∧
      st2.g_reuse_count = init.g_reuse_count :=
  ⟨by decide, by decide,
    pm_malloc_large_object 1 init 5000000 [] (by decide) (by decide) (by decide) (by decide)
      (by decide) (by decide) (by decide)⟩

/-- C11 as stated fails: a released large-object block is selected by first fit
for a smaller request. On the initial allocator `pm_malloc (4194273)` takes the
large-object path (a region of `4194305` bytes); after `pm_free` of its
pointer the block `65536` is the free list; `pm_malloc (100)` then returns the
same pointer `65568`: the block has been taken from the list and cut down to
100 bytes, and the free list is the remainder `65696`. -/
theorem released_large_block_serves_small_request :
    OS_MEM_ALLOC_SIZE < 4194273 + blk_hdr_size ∧
    ∃ st1 st2 st3, pm_malloc 1 init 4194273 = Res.ok (65568, st1) ∧
      st1.regions = [(65536, 4194305)] ∧
      pm_free 1 st1 65568 = Res.ok st2 ∧ FreeList st2 [65536] ∧
      (st2.mem 65536).size = 4194273 ∧
      pm_malloc 2 st2 100 = Res.ok (65568, st3) ∧
      FreeList st3 [65696] ∧ (st3.mem 65536).size = 100 ∧ (st3.mem 65696).size = 4194109 :=
  ⟨by decide, _, _, _, rfl, rfl, rfl, by decide, rfl, rfl, by decide, rfl, rfl⟩

/-- C11, amended: in a state reached under disciplined use in which no free
block is large enough, a request of `big` bytes with `big + 32` above
`OS_MEM_ALLOC_SIZE` that returns has been served from fresh memory at
`os_brk`; after `pm_free` of its pointer the block is the head of the
well-formed free list and still records at least `big`; and first fit treats
it like any other block: a following request of a positive size with
`size + 32 ≤ big` does not run out of fuel and, whenever it returns, returns
the pointer of that very block, which is then no longer in the free list. -/
theorem released_large_block_is_reused (st : State) (A : List Nat) (fuel big size : Nat)
    (hr : Reachable st A) (hfuel : ∀ l, FreeList st l → l.length + 2 < fuel)
    (hbig : OS_MEM_ALLOC_SIZE < big + blk_hdr_size) (hsz : big + blk_hdr_size < SIZE_MOD)
    (hnofit : ∀ l, FreeList st l → ∀ x ∈ l, (st.mem x).size < big + blk_hdr_size)
    (hpos : 0 < size) (hfit : size + blk_hdr_size ≤ big)
    (p : Nat) (st1 : State) (hok : pm_malloc fuel st big = Res.ok (p, st1)) :
    p = st.os_brk + blk_hdr_size ∧
    ∃ st2 l, pm_free fuel st1 p = Res.ok st2 ∧ FreeList st2 (st.os_brk :: l) ∧
      big ≤ (st2.mem st.os_brk).size ∧
      pm_malloc fuel st2 size ≠ Res.timeout ∧
      ∀ q st3, pm_malloc fuel st2 size = Res.ok (q, st3) →
        q = p ∧ ∃ l3, FreeList st3 l3 ∧ st.os_brk ∉ l3 := by
  obtain ⟨l, hinv⟩ := hr.inv
  have hlen := hfuel l hinv.wf
  have hbigpos : 0 < big := by
    unfold OS_MEM_ALLOC_SIZE blk_hdr_size at hbig
    omega
  obtain ⟨b, l2, hp, hinv1, hsize1, hprov, _⟩ :=
    pm_malloc_inv fuel st l A big hinv hbigpos hsz (by omega) p st1 hok
  have hb : b = st.os_brk ∧ l2.length ≤ l.length + 1 := by
    rcases hprov with ⟨pre, post, r, h1, _, h3, _⟩ | ⟨_, h2, r, h3, h4⟩
    · have := hnofit l hinv.wf b (by rw [h1]; simp)
      omega
    · refine ⟨h2, ?_⟩
      rw [h4, List.length_append]
      omega
  obtain ⟨hb1, hb2⟩ := hb
  subst hb1
  subst hp
  refine ⟨rfl, ?_⟩
  obtain ⟨st2, hfree, hinv2, _, _, hsz2⟩ :=
    pm_free_inv fuel st1 l2 (st.os_brk :: A) st.os_brk hinv1 (List.mem_cons_self _ _)
  have hlen2 : (st.os_brk :: l2).length < fuel := by
    rw [List.length_cons]
    omega
  have hbig2 : big ≤ (st2.mem st.os_brk).size := by
    rw [hsz2]
    exact hsize1
  refine ⟨st2, l2, hfree, hinv2.wf, hbig2,
    pm_malloc_no_timeout fuel st2 _ size hinv2.wf hpos hlen2, ?_⟩
  intro q st3 hok3
  obtain ⟨b3, l3, hq, hinv3, _, hprov3, _⟩ :=
    pm_malloc_inv fuel st2 _ _ size hinv2 hpos (by omega) hlen2 q st3 hok3
  have hb3 : b3 = st.os_brk := by
    rcases hprov3 with ⟨pre, post, r, h1, h2, _⟩ | ⟨h1, _⟩
    · cases pre with
      | nil =>
        have h := List.cons.inj h1
        exact h.1.symm
      | cons x pre2 =>
        have h := List.cons.inj h1
        have := h2 x (List.mem_cons_self _ _)
        rw [← h.1] at this
        omega
    · have := h1 st.os_brk (List.mem_cons_self _ _)
      omega
  subst hb3
  exact ⟨hq, l3, hinv3.wf, fun hm => hinv3.disj _ (List.mem_cons_self _ _) hm⟩

/-- Witness for C11, amended: on the initial allocator, with 4194273 bytes for
the large request and 100 bytes for the one that follows. -/
theorem released_large_block_is_reused_witness :
    65568 = init.os_brk + blk_hdr_size ∧
    ∃ st2 l, pm_free 3 ((pm_malloc 3 init 4194273).getD (0, init)).2 65568 = Res.ok st2 ∧
      FreeList st2 (init.os_brk :: l) ∧ 4194273 ≤ (st2.mem init.os_brk).size ∧
      pm_malloc 3 st2 100 ≠ Res.timeout ∧
      ∀ q st3, pm_malloc 3 st2 100 = Res.ok (q, st3) →
        q = 65568 ∧ ∃ l3, FreeList st3 l3 ∧ init.os_brk ∉ l3 :=
  released_large_block_is_reused init [] 3 4194273 100 Reachable.init
    (fun l hl => by
      have e := free_list_init_nil hl
      subst e
      decide)
    (by decide) (by decide)
    (fun l hl x hx => by
      have e := free_list_init_nil hl
      subst e
      exact absurd hx (List.not_mem_nil x))
    (by decide) (by decide) 65568 _ rfl

/-- C12 as stated fails: in `state_one_block` the free list is the single block
`65696`; `REMOVE` of the block `65536`, which is not in the list, scans the
list to its end and returns normally, leaving the state as it was. -/
theorem free_list_op_remove_misses_block :
    FreeList state_one_block [65696] ∧ (65536 : Nat) ∉ [65696] ∧
    free_list_op 2 state_one_block 65536 FREE_LIST_OP.REMOVE = Res.ok state_one_block :=
  ⟨by decide, by decide, rfl⟩

/-- C12, amended: for a block that is not in the free list `l` (a path along
`next` from the head to null, scanned with fuel above its length), `REMOVE`
ends in the failed assertion exactly when the block pointer is null or the
list is empty; when the list is not empty and the pointer is not null it
returns normally and leaves the state unchanged. -/
theorem free_list_op_remove_absent (fuel : Nat) (st : State) (blk : Nat) (l : List Nat)
    (hs : Seg st.mem st.g_free_list_head l 0) (hnot : blk ∉ l) (hfuel : l.length < fuel) :
    free_list_op fuel st blk FREE_LIST_OP.REMOVE =
      if blk = 0 ∨ l = [] then Res.abort else Res.ok st :=
  free_list_remove_miss fuel st blk l hs hnot hfuel

/-- C12, amended, on the empty free list of the initial allocator: the failed
assertion. -/
theorem free_list_op_remove_absent_witness :
    free_list_op 1 init 65536 FREE_LIST_OP.REMOVE =
      if (65536 : Nat) = 0 ∨ ([] : List Nat) = [] then Res.abort else Res.ok init :=
  free_list_op_remove_absent 1 init 65536 [] rfl (by decide) (by decide)

/-- C14, the code at a failing input. On the initial allocator `pm_malloc (100)`
sets up the chunk at `65536` with size `4194272` and calls `trim_block` with
`real_size = 132`. The payload pointer of the block is `65568`, but the
remainder header is placed at `blk->user_data + 132 = 65696`, which is
`65568 + 128`: the member `user_data` lies at offset 28, not 32. The remainder
records `4194272 - 32 - 132 = 4194108`, so its payload ends at `4259836`, four
bytes before the end `4259840` of the payload of the chunk. The remainder is
the new head of the free list and `65568` is returned. -/
theorem trim_block_remainder_offset :
    (chunk_mem init.mem 65536 65536).size = 4194272 ∧
    blk_to_user_data 65536 = Res.ok 65568 ∧
    (∃ m, trim_block (chunk_mem init.mem 65536) 65536 132 = Res.ok (65696, m) ∧
      (m 65696).size = 4194272 - 32 - 132 ∧ (m 65696).magic = PM_MAGIC ∧
      (m 65696).next = 0 ∧ (m 65696).prev = 0 ∧
      65696 + 32 + (m 65696).size = 4259836) ∧
    (65696 : Nat) ≠ 65568 + 132 ∧ 4259836 ≠ 65568 + 4194272 ∧
    ∃ st, pm_malloc 1 init 100 = Res.ok (65568, st) ∧ st.g_free_list_head = 65696 :=
  ⟨rfl, rfl, ⟨_, rfl, rfl, rfl, rfl, rfl, rfl⟩, by decide, by decide, _, rfl, rfl⟩

/-- C16, the code at a failing input. After `pm_malloc (100)` on the initial
allocator the block at `65536` has payload pointer `65568` and records the
size 100, so its recorded payload ends at `65668`; the header of the
remainder that was split off starts at `65696`. The 28 bytes in between belong
to no block. The remainder records `4194108`; its payload ends at `4259836`,
four bytes before the end `4259840` of the region. -/
theorem recorded_size_short_of_span :
    ∃ st, pm_malloc 1 init 100 = Res.ok (65568, st) ∧
      st.regions = [(65536, 4194304)] ∧
      (st.mem 65536).size = 100 ∧ st.g_free_list_head = 65696 ∧
      65568 + (st.mem 65536).size + 28 = 65696 ∧
      (st.mem 65696).size = 4194108 ∧
      65696 + 32 + (st.mem 65696).size + 4 = 65536 + 4194304 :=
  ⟨_, rfl, rfl, rfl, rfl, rfl, rfl, rfl⟩

/-- C19, the code at two failing inputs. On the initial allocator
`pm_malloc (4194272)` has `real_size = 4194304`, which is not above
`OS_MEM_ALLOC_SIZE`, so a chunk of payload `4194272` is set up and
`trim_block` computes `4194272 - 4194304`, which wraps to `2 ^ 64 - 32`; the
remainder size wraps to `2 ^ 64 - 64` and the assertion
`free_blk->size <= OS_MEM_ALLOC_SIZE` fails. And for a released large-object
block of 5000000 bytes, the `trim_block` call of `pm_malloc (100)` computes the
remainder size `4999836`, above `OS_MEM_ALLOC_SIZE`, and the same assertion
fails. -/
theorem trim_block_assertion_fails :
    add64 4194272 blk_hdr_size = 4194304 ∧ ¬ 4194304 > OS_MEM_ALLOC_SIZE ∧
    (chunk_mem init.mem 65536 65536).size = 4194272 ∧
    sub64 4194272 4194304 = 2 ^ 64 - 32 ∧
    sub64 4194272 (add64 blk_hdr_size 4194304) = 2 ^ 64 - 64 ∧
    trim_block (chunk_mem init.mem 65536) 65536 4194304 = Res.abort ∧
    pm_malloc 1 init 4194272 = Res.abort ∧
    ∃ st1 st2, pm_malloc 1 init 5000000 = Res.ok (65568, st1) ∧
      pm_free 1 st1 65568 = Res.ok st2 ∧ st2.g_free_list_head = 65536 ∧
      (st2.mem 65536).size = 5000000 ∧
      sub64 5000000 (add64 blk_hdr_size 132) = 4999836 ∧
      OS_MEM_ALLOC_SIZE < 4999836 ∧
      trim_block st2.mem 65536 132 = Res.abort ∧ pm_malloc 2 st2 100 = Res.abort :=
  ⟨rfl, by decide, rfl, rfl, rfl, rfl, rfl, _, _, rfl, rfl, rfl, rfl, rfl, by decide, rfl, rfl⟩

/-- C17 as stated fails, over byte memory. First run: after `pm_malloc (100)`
and `pm_malloc (2 ^ 64 - 32)`, whose `real_size` wraps to zero, and the release
of both pointers, `pm_malloc (2 ^ 64 - 193)` takes the block `65696` and
`trim_block` places the remainder header at `65563`, inside the header of the
free block `65536`; the store of the remainder size overwrites the top byte of
the tag of `65536`, which is the second block of the free list afterwards.
Second run, with sizes that do not wrap: the large-object block at `4259840`
records the size `0xBADCAFFE`; `pm_free (4259848)`, a pointer that `pm_malloc`
never returned, reads these bytes as the tag of a header at `4259816` and puts
it on the free list; when the large block, released and taken again, is cut
down, that tag changes with its size. -/
theorem tag_lost_in_free_list :
    (∃ s1 s2 s3 s4 s5,
      ByteLevel.pm_malloc 1 ByteLevel.init 100 = Res.ok (65568, s1) ∧
      ByteLevel.pm_malloc 2 s1 (2 ^ 64 - 32) = Res.ok (65728, s2) ∧
      ByteLevel.pm_free 2 s2 65568 = Res.ok s3 ∧
      ByteLevel.pm_free 2 s3 65728 = Res.ok s4 ∧
      ByteLevel.get_magic s4 65536 = Res.ok PM_MAGIC ∧
      ByteLevel.pm_malloc 4 s4 (2 ^ 64 - 193) = Res.ok (65728, s5) ∧
      s5.g_free_list_head = 65563 ∧ ByteLevel.get_next s5 65563 = Res.ok 65536 ∧
      ByteLevel.get_magic s5 65536 = Res.ok 0x61DCAFFE ∧ 0x61DCAFFE ≠ PM_MAGIC) ∧
    ∃ s1 s2 s3 s4 s5,
      ByteLevel.pm_malloc 1 ByteLevel.init 100 = Res.ok (65568, s1) ∧
      ByteLevel.pm_malloc 2 s1 3135025150 = Res.ok (4259872, s2) ∧
      ByteLevel.pm_free 2 s2 4259848 = Res.ok s3 ∧
      ByteLevel.pm_free 2 s3 4259872 = Res.ok s4 ∧
      ByteLevel.pm_malloc 4 s4 3135024086 = Res.ok (4259872, s5) ∧
      s5.g_free_list_head = 3139283986 ∧
      ByteLevel.get_next s5 3139283986 = Res.ok 4259816 ∧
      ByteLevel.get_magic s5 4259816 = Res.ok 3135024086 ∧ 3135024086 ≠ PM_MAGIC :=
  ⟨⟨_, _, _, _, _, rfl, rfl, rfl, rfl, rfl, rfl, rfl, rfl, rfl, by decide⟩,
    _, _, _, _, _, rfl, rfl, rfl, rfl, rfl, rfl, rfl, rfl, by decide⟩

/-- C17, amended: in every state reached under disciplined use (requests of
size zero or with `size + 32 < 2 ^ 64`, releases of the null pointer or of a
pointer that is allocated at that moment), every block of the free list and
every allocated block has the tag `PM_MAGIC`; and whenever `pm_malloc` (with
fuel above the length of the free list) returns for a positive size with
`size + 32 < 2 ^ 64`, the pointer is not null, the block whose payload pointer
it is has the tag `PM_MAGIC` in the state the call leaves, and `pm_free` of
that pointer in that state returns. -/
theorem tag_invariant (st : State) (A : List Nat) (hr : Reachable st A) :
    ∃ l, FreeList st l ∧ (∀ x ∈ l ++ A, (st.mem x).magic = PM_MAGIC) ∧
      ∀ fuel size p st2, 0 < size → size + blk_hdr_size < SIZE_MOD → l.length < fuel →
        pm_malloc fuel st size = Res.ok (p, st2) →
        p ≠ 0 ∧ (st2.mem (p - blk_hdr_size)).magic = PM_MAGIC ∧
        ∀ fuel2, ∃ st3, pm_free fuel2 st2 p = Res.ok st3 := by
  obtain ⟨l, hinv⟩ := hr.inv
  refine ⟨l, hinv.wf, fun x hx => (hinv.block_facts hx).2.1, ?_⟩
  intro fuel size p st2 hpos hsz hfuel hok
  obtain ⟨b, l2, hp, hinv2, _⟩ := pm_malloc_inv fuel st l A size hinv hpos hsz hfuel p st2 hok
  subst hp
  have hb : b ∈ l2 ++ b :: A := List.mem_append_right _ (List.mem_cons_self _ _)
  refine ⟨by simp [blk_hdr_size], ?_, fun fuel2 => ?_⟩
  · rw [Nat.add_sub_cancel]
    exact (hinv2.block_facts hb).2.1
  · obtain ⟨st3, h3, _⟩ := pm_free_inv fuel2 st2 l2 (b :: A) b hinv2 (List.mem_cons_self _ _)
    exact ⟨st3, h3⟩

/-- Witness for C17, amended: the state after `pm_malloc (100)` on the initial
allocator, with the block `65536` allocated. -/
theorem tag_invariant_witness :
    ∃ l, FreeList state_one_block l ∧
      (∀ x ∈ l ++ [65536], (state_one_block.mem x).magic = PM_MAGIC) ∧
      ∀ fuel size p st2, 0 < size → size + blk_hdr_size < SIZE_MOD → l.length < fuel →
        pm_malloc fuel state_one_block size = Res.ok (p, st2) →
        p ≠ 0 ∧ (st2.mem (p - blk_hdr_size)).magic = PM_MAGIC ∧
        ∀ fuel2, ∃ st3, pm_free fuel2 st2 p = Res.ok st3 :=
  tag_invariant state_one_block [65536] reachable_one_block

/-- C18 as stated fails. Releasing a pointer that `pm_malloc` returned
earlier a second time puts its block into the free list twice: after
`pm_malloc (100)` and `pm_free` of its pointer `65568`, a second
`pm_free (65568)` returns and leaves the block `65536` as head of the list and
as its own successor, so that the walk along `next` never reaches the end. And
with every release made on a pointer that is allocated at that moment, a
request whose `size + 32` wraps does the same: after `pm_malloc (100)`,
`pm_malloc (2 ^ 64 - 32)` and the release of both pointers,
`pm_malloc (2 ^ 64 - 220)` takes the block `65696`, `trim_block` places the
remainder at the address `65536` of a block that is in the free list, and `ADD`
makes it its own successor. -/
theorem free_list_gets_cycle :
    pm_malloc 1 init 100 = Res.ok (65568, state_one_block) ∧
    pm_free 1 state_one_block 65568 = Res.ok state_two_free ∧
    (∃ st3, pm_free 1 state_two_free 65568 = Res.ok st3 ∧
      st3.g_free_list_head = 65536 ∧ (st3.mem 65536).next = 65536 ∧
      ¬ ∃ l, Seg st3.mem st3.g_free_list_head l 0) ∧
    ∃ s2 s3 s4 s5, pm_malloc 2 state_one_block (2 ^ 64 - 32) = Res.ok (65728, s2) ∧
      pm_free 2 s2 65568 = Res.ok s3 ∧ pm_free 2 s3 65728 = Res.ok s4 ∧
      FreeList s4 [65696, 65536, 65724] ∧
      pm_malloc 4 s4 (2 ^ 64 - 220) = Res.ok (65728, s5) ∧
      s5.g_free_list_head = 65536 ∧ (s5.mem 65536).next = 65536 :=
  ⟨rfl, rfl, ⟨_, rfl, rfl, rfl, fun ⟨l, hl⟩ => Seg.no_self_loop (by decide) rfl l hl⟩,
    _, _, _, _, rfl, rfl, rfl, by decide, rfl, rfl, rfl⟩

/-- C18, amended: in every state reached under disciplined use (every release
is of the null pointer or of a pointer that is allocated at that moment), the
walk from the head along `next` reaches null after the blocks of one list `l`,
the only such walk; no block occurs twice in `l` followed by the allocated
blocks, so that a block is either free or allocated and never both; and the
release of an allocated block returns and puts it at the head of the list. -/
theorem free_list_no_repetition (st : State) (A : List Nat) (hr : Reachable st A) :
    ∃ l, Seg st.mem st.g_free_list_head l 0 ∧ (l ++ A).Nodup ∧
      (∀ l2, Seg st.mem st.g_free_list_head l2 0 → l2 = l) ∧
      ∀ b ∈ A, ∀ fuel, ∃ st2, pm_free fuel st (b + blk_hdr_size) = Res.ok st2 ∧
        FreeList st2 (b :: l) ∧ b ∉ A.erase b := by
  obtain ⟨l, hinv⟩ := hr.inv
  refine ⟨l, hinv.wf.1, ?_, fun l2 h2 => FreeList.unique h2 hinv.wf.1, ?_⟩
  · exact List.nodup_append.2 ⟨hinv.wf.2.1, hinv.nodupA, fun x hx hxA => hinv.disj x hxA hx⟩
  · intro b hb fuel
    obtain ⟨st2, h1, h2, _⟩ := pm_free_inv fuel st l A b hinv hb
    exact ⟨st2, h1, h2.wf, fun hm => h2.disj b hm (List.mem_cons_self _ _)⟩

/-- Witness for C18, amended: the state after `pm_malloc (100)` on the initial
allocator, with the block `65536` allocated. -/
theorem free_list_no_repetition_witness :
    ∃ l, Seg state_one_block.mem state_one_block.g_free_list_head l 0 ∧
      (l ++ [65536]).Nodup ∧
      (∀ l2, Seg state_one_block.mem state_one_block.g_free_list_head l2 0 → l2 = l) ∧
      ∀ b ∈ [65536], ∀ fuel, ∃ st2,
        pm_free fuel state_one_block (b + blk_hdr_size) = Res.ok st2 ∧
        FreeList st2 (b :: l) ∧ b ∉ [65536].erase b :=
  free_list_no_repetition state_one_block [65536] reachable_one_block

/-- C20: in every state reached under disciplined use (requests of size zero
or with `size + 32 < 2 ^ 64`, releases of the null pointer or of a pointer
that is allocated at that moment) the free list is well formed: the walk from
the head along `next` reaches null after finitely many pairwise distinct
blocks, and every block but the first has its `prev` pointing at its
predecessor. Consequently, with fuel above the length of the list,
`pm_malloc` never runs out of fuel, `REMOVE` never runs out of fuel and never
stores through a null `prev`, and `REMOVE` of a block of the list returns. -/
theorem free_list_well_formed (st : State) (A : List Nat) (hr : Reachable st A) :
    ∃ l, FreeList st l ∧
      (∀ fuel size, l.length < fuel → pm_malloc fuel st size ≠ Res.timeout) ∧
      (∀ fuel blk, l.length < fuel →
        free_list_op fuel st blk FREE_LIST_OP.REMOVE ≠ Res.timeout ∧
        free_list_op fuel st blk FREE_LIST_OP.REMOVE ≠ Res.segv) ∧
      ∀ fuel b, b ∈ l → l.length < fuel →
        ∃ st2, free_list_op fuel st b FREE_LIST_OP.REMOVE = Res.ok st2 := by
  obtain ⟨l, hinv⟩ := hr.inv
  have hrem : ∀ fuel b, b ∈ l → l.length < fuel →
      ∃ st2, free_list_op fuel st b FREE_LIST_OP.REMOVE = Res.ok st2 := by
    intro fuel b hb hfuel
    obtain ⟨pre, post, hl⟩ := List.append_of_mem hb
    subst hl
    have hfuel2 : pre.length < fuel := by
      simp only [List.length_append, List.length_cons] at hfuel
      omega
    obtain ⟨st2, h1, _⟩ := free_list_remove_spec fuel st pre b post hinv.wf hfuel2
    exact ⟨st2, h1⟩
  refine ⟨l, hinv.wf, ?_, ?_, hrem⟩
  · intro fuel size hfuel
    rcases Nat.eq_zero_or_pos size with h0 | hpos
    · subst h0
      intro h
      have h2 : pm_malloc fuel st 0 = Res.ok (0, st) := rfl
      rw [h2] at h
      exact Res.noConfusion h
    · exact pm_malloc_no_timeout fuel st l size hinv.wf hpos hfuel
  · intro fuel blk hfuel
    by_cases hb : blk ∈ l
    · obtain ⟨st2, h1⟩ := hrem fuel blk hb hfuel
      rw [h1]
      exact ⟨fun h => Res.noConfusion h, fun h => Res.noConfusion h⟩
    · rw [free_list_remove_miss fuel st blk l hinv.wf.1 hb hfuel]
      split
      · exact ⟨fun h => Res.noConfusion h, fun h => Res.noConfusion h⟩
      · exact ⟨fun h => Res.noConfusion h, fun h => Res.noConfusion h⟩

/-- Witness for C20: the state after `pm_malloc (100)` and `pm_free` of its
pointer, in which the free list has two blocks. -/
theorem free_list_well_formed_witness :
    ∃ l, FreeList state_two_free l ∧
      (∀ fuel size, l.length < fuel → pm_malloc fuel state_two_free size ≠ Res.timeout) ∧
      (∀ fuel blk, l.length < fuel →
        free_list_op fuel state_two_free blk FREE_LIST_OP.REMOVE ≠ Res.timeout ∧
        free_list_op fuel state_two_free blk FREE_LIST_OP.REMOVE ≠ Res.segv) ∧
      ∀ fuel b, b ∈ l → l.length < fuel →
        ∃ st2, free_list_op fuel state_two_free b FREE_LIST_OP.REMOVE = Res.ok st2 :=
  free_list_well_formed state_two_free [] reachable_two_free

end Pmalloc
